import Mathlib

/-!
The dependency graph engine of `utils/bld_order.c`.

A shallow embedding of the entity registry (`create_entity`), the dependency
builder (`add_dep`), the loading loops of `main` around `read_deps`, the
layered sort (the `do ... while` loop of `main` with `all_deps_resolved`), the
presentation order (`fn_sort_depth`, `sort_depth`), the edge reducer
(`in_sub_deps`, `in_deps`) with the edge loop of `main`, the cycle diagnostic
at the end of `main`, and the channel list (`add_channel`).

Memory model.  Every `s_entity` object is allocated by `create_entity` and is
never freed.  The allocated objects are kept in a list `mem`; a pointer
`s_entity *` is the position of the object in `mem`.  The global array
`the_list` is a list of such pointers, and so is the array `deps` of every
entity.  Reading through a pointer that is outside `mem` has no meaning in C;
the embedding stays total by letting such a read find nothing (`none`).
`dep_cnt` always equals the number of elements of `deps` (both are written
together, in `create_entity` and in `add_dep` only), so it is the length of
the list.  `lvl` is a C `int` that only ever receives the pass counter, which
starts at 0 and is incremented; it is embedded as a natural number.  A name
is a string, and `strcmp` compares two names character by character by their
codes.

Loops that the C code does not bound (the `do ... while` loop of `main`, the
second loading loop, the recursion of `in_sub_deps`) take a bound `fuel` and
return `none` when it is used up; the properties state that a bound derived
from the number of entities is enough for them to return, or that no bound
is.  The scan of a recipe file in `read_deps` is a function `recipe` from the
name of an entity to the dependency names found.  The calls that write output
read the entities and write none of their fields; they are left out, except
for the messages of the cycle diagnostic, which are kept as a list of texts,
and the edges of the edge loop, which are kept as a list of pairs.  The
globals `out_kind` and `verbose_lvl`, which the options of the command line
set, are arguments of the functions that read them.
-/

namespace BldOrder

/-! ## Definitions: the data and the functions of `bld_order.c` -/

/-- The C struct `s_entity`; `dep_cnt` is the length of `deps`. -/
structure s_entity where
  name : String
  deps : List Nat
  lvl : Nat
  was_loaded : Bool
  is_printed : Bool
  is_resolved : Bool
deriving DecidableEq, Repr

/-- The field `dep_cnt`. -/
def s_entity.dep_cnt (e : s_entity) : Nat := e.deps.length

/-- The globals `the_list` / `the_list_cnt` together with the allocated
entities they point into. -/
structure registry where
  mem : List s_entity
  the_list : List Nat
deriving DecidableEq, Repr

/-- The global `the_list_cnt`. -/
def registry.the_list_cnt (r : registry) : Nat := r.the_list.length

/-- The sign of C `strcmp` on the characters of two strings: the first
position where they differ decides; a proper initial segment is smaller. -/
def strcmp_chars : List Char → List Char → Int
  | [], [] => 0
  | [], _ :: _ => -1
  | _ :: _, [] => 1
  | a :: as, b :: bs =>
    if a.toNat < b.toNat then -1
    else if b.toNat < a.toNat then 1
    else strcmp_chars as bs

/-- The sign of `strcmp (a, b)`. -/
def strcmp (a b : String) : Int := strcmp_chars a.toList b.toList

/-- The field `is_resolved` read through a pointer. -/
def resolved_at (mem : List s_entity) (p : Nat) : Bool :=
  match mem[p]? with
  | some e => e.is_resolved
  | none => false

/-- The field `is_printed` read through a pointer. -/
def printed_at (mem : List s_entity) (p : Nat) : Bool :=
  match mem[p]? with
  | some e => e.is_printed
  | none => false

/-- The array `deps` read through a pointer. -/
def deps_at (mem : List s_entity) (p : Nat) : List Nat :=
  match mem[p]? with
  | some e => e.deps
  | none => []

/-- The name of the entity a pointer points to. -/
def name_at (mem : List s_entity) (p : Nat) : Option String :=
  (mem[p]?).map s_entity.name

/-- The search loop of `create_entity`: the first element of `the_list`
whose name compares equal to `name`. -/
def find_entity (mem : List s_entity) (name : String) : List Nat → Option Nat
  | [] => none
  | p :: ps =>
    match mem[p]? with
    | some e => if strcmp e.name name = 0 then some p else find_entity mem name ps
    | none => find_entity mem name ps

/-- The entity that `create_entity` allocates. -/
def new_entity (name : String) : s_entity :=
  { name := name, deps := [], lvl := 0,
    was_loaded := false, is_printed := false, is_resolved := false }

/-- The function `create_entity`: the registry after the call and the
pointer returned. -/
def create_entity (r : registry) (name : String) : registry × Nat :=
  match find_entity r.mem name r.the_list with
  | some p => (r, p)
  | none =>
    ({ mem := r.mem ++ [new_entity name], the_list := r.the_list ++ [r.mem.length] },
      r.mem.length)

/-- The search loop of `add_dep`: does an element of `deps` carry `name`? -/
def dep_named (mem : List s_entity) (name : String) : List Nat → Bool
  | [] => false
  | d :: ds =>
    match mem[d]? with
    | some de => if strcmp de.name name = 0 then true else dep_named mem name ds
    | none => dep_named mem name ds

/-- The function `add_dep (that, add)`. -/
def add_dep (mem : List s_entity) (that add : Nat) : List s_entity :=
  match mem[that]?, mem[add]? with
  | some t, some a =>
    if strcmp t.name a.name = 0 then mem
    else if dep_named mem a.name t.deps then mem
    else mem.set that { t with deps := t.deps ++ [add] }
  | _, _ => mem

/-- A sequence of calls `add_dep (that, add)`, given as the list of the
argument pairs. -/
def add_deps (mem : List s_entity) (calls : List (Nat × Nat)) : List s_entity :=
  calls.foldl (fun m c => add_dep m c.1 c.2) mem

/-- The function `all_deps_resolved`. -/
def all_deps_resolved (mem : List s_entity) (p : Nat) : Bool :=
  match mem[p]? with
  | none => false
  | some e =>
    if e.is_resolved || !e.was_loaded then false
    else e.deps.all (fun d => resolved_at mem d)

/-- One iteration of the first `for` loop of a pass, for the element `p` of
`the_list`: the memory and the counter `deep`. -/
def mark_step (lvl : Nat) (acc : List s_entity × Nat) (p : Nat) : List s_entity × Nat :=
  if all_deps_resolved acc.1 p then
    match acc.1[p]? with
    | some e =>
      if e.is_printed = false then
        (acc.1.set p { e with is_printed := true, lvl := lvl }, acc.2 + 1)
      else acc
    | none => acc
  else acc

/-- One iteration of the second `for` loop of a pass: the memory and the
counter `printed`. -/
def resolve_step (acc : List s_entity × Nat) (p : Nat) : List s_entity × Nat :=
  match acc.1[p]? with
  | some e =>
    if e.is_printed then (acc.1.set p { e with is_resolved := true }, acc.2 + 1)
    else acc
  | none => acc

/-- What one execution of the body of the `do ... while` loop leaves. -/
structure pass_result where
  mem : List s_entity
  deep : Nat
  printed : Nat
deriving DecidableEq, Repr

/-- The body of the `do ... while` loop of `main`, run with pass counter
`lvl` (the output calls write no entity field and are left out). -/
def pass (the_list : List Nat) (mem : List s_entity) (lvl : Nat) : pass_result :=
  let m := the_list.foldl (mark_step lvl) (mem, 0)
  let r := the_list.foldl resolve_step (m.1, 0)
  { mem := r.1, deep := m.2, printed := r.2 }

/-- The `do ... while` loop of `main`, started with pass counter `lvl`: the
results of the passes it runs, in order.  `fuel` bounds the number of passes;
`none` means the bound was reached before the loop condition became false. -/
def sort_loop (the_list : List Nat) : Nat → List s_entity → Nat → Option (List pass_result)
  | 0, _, _ => none
  | fuel + 1, mem, lvl =>
    let r := pass the_list mem lvl
    if r.printed < the_list.length ∧ r.deep ≠ 0 then
      (sort_loop the_list fuel r.mem (lvl + 1)).map (fun t => r :: t)
    else some [r]

/-- The layered sort of `main`: the `do ... while` loop entered with
`lvl = 0` on the registry `r`. -/
def main_sort (r : registry) (fuel : Nat) : Option (List pass_result) :=
  sort_loop r.the_list fuel r.mem 0

/-- The value `main` returns, from `the_list_cnt` and the counter `printed`
of the last pass: `printed != the_list_cnt ? 1 : 0`. -/
def main_status (the_list_cnt printed : Nat) : Int :=
  if printed ≠ the_list_cnt then 1 else 0

/-- The loop of `in_sub_deps` over the array `deps` of `it`: for each element
`d`, `d == seek || in_sub_deps (d, seek)`, where `f d` is the outcome of the
recursive call (`none` if it does not return). -/
def sub_deps_loop (f : Nat → Option Bool) (seek : Nat) : List Nat → Option Bool
  | [] => some false
  | d :: ds =>
    if d = seek then some true
    else
      match f d with
      | none => none
      | some true => some true
      | some false => sub_deps_loop f seek ds

/-- The function `in_sub_deps (it, seek)`.  The C function recurses without
a guard; `fuel` bounds the depth of the recursion and `none` means that the
bound was reached, so a call that recurses for ever is `none` for every
`fuel`. -/
def in_sub_deps : Nat → List s_entity → Nat → Nat → Option Bool
  | 0, _, _, _ => none
  | fuel + 1, mem, it, seek =>
    sub_deps_loop (fun d => in_sub_deps fuel mem d seek) seek (deps_at mem it)

/-- The loop of `in_deps` from index `i` on: the index `ignore_sub` is
skipped, every other element `d` is tested with
`d == it || in_sub_deps (d, it)`. -/
def in_deps_loop (f : Nat → Option Bool) (it ignore_sub : Nat) : Nat → List Nat → Option Bool
  | _, [] => some false
  | i, d :: ds =>
    if i = ignore_sub then in_deps_loop f it ignore_sub (i + 1) ds
    else if d = it then some true
    else
      match f d with
      | none => none
      | some true => some true
      | some false => in_deps_loop f it ignore_sub (i + 1) ds

/-- The function `in_deps (item, ignore_sub)`; `main` calls it with
`ignore_sub < item->dep_cnt` only, and outside that range the read
`item->deps[ignore_sub]` has no meaning (`none`). -/
def in_deps (fuel : Nat) (mem : List s_entity) (item ignore_sub : Nat) : Option Bool :=
  match (deps_at mem item)[ignore_sub]? with
  | none => none
  | some it =>
    in_deps_loop (fun d => in_sub_deps fuel mem d it) it ignore_sub 0 (deps_at mem item)

/-- The comparison function `fn_sort_depth`, on the two entity pointers that
the arguments point to; the sign of the result. -/
def fn_sort_depth (mem : List s_entity) (a b : Nat) : Int :=
  match mem[a]?, mem[b]? with
  | some ap, some bp =>
    if ap.lvl ≠ bp.lvl then (if ap.lvl < bp.lvl then -1 else 1)
    else if ap.dep_cnt ≠ bp.dep_cnt then (if ap.dep_cnt < bp.dep_cnt then -1 else 1)
    else strcmp ap.name bp.name
  | _, _ => 0

/-- The C library function `qsort` on an array of entity pointers with the
comparison function `cmp`.  The library fixes only its contract (the array is
rearranged into ascending order of `cmp`); it is embedded as an insertion
sort, which places `a` before `b` when `cmp a b <= 0`. -/
def qsort (cmp : Nat → Nat → Int) (l : List Nat) : List Nat :=
  l.insertionSort (fun a b => cmp a b ≤ 0)

/-- The function `sort_depth`. -/
def sort_depth (r : registry) : registry :=
  if r.the_list_cnt < 2 then r
  else { r with the_list := qsort (fn_sort_depth r.mem) r.the_list }

/-- The registry that `main` holds after the `do ... while` loop and the
call of `sort_depth` that follows it. -/
def main_sorted (r : registry) (fuel : Nat) : Option registry :=
  (main_sort r fuel).bind (fun t =>
    t.getLast?.map (fun last => sort_depth { mem := last.mem, the_list := r.the_list }))

/-- The test `is_gexf_mode ()` on the global `out_kind`, which is 0 when the
command line has no option `-k`, 1 for `shell`, 2 for `bat` and 3 for
`gexf`. -/
def is_gexf_mode (out_kind : Nat) : Bool := out_kind == 3 || out_kind == 0

/-- The inner edge loop of `main` for the element `a` of `the_list`, from
index `ii` on, as the code runs it: every index calls `in_deps (a, ii)`, and
the edge to `a->deps[ii]` is written when the call returns 0.  The result is
the list of the edges written (dependent entity, dependency), and `none` when
one of the calls does not return within the depth bound `fuel`. -/
def edge_loop_from (fuel : Nat) (mem : List s_entity) (a : Nat) :
    Nat → List Nat → Option (List (Nat × Nat))
  | _, [] => some []
  | ii, d :: ds =>
    match in_deps fuel mem a ii with
    | none => none
    | some b =>
      match edge_loop_from fuel mem a (ii + 1) ds with
      | none => none
      | some t => some (if b then t else (a, d) :: t)

/-- The edge loop of `main` over the elements of `the_list` in order (an
element with `dep_cnt == 0` has no index to visit). -/
def edge_loop (fuel : Nat) (mem : List s_entity) : List Nat → Option (List (Nat × Nat))
  | [] => some []
  | a :: rest =>
    match edge_loop_from fuel mem a 0 (deps_at mem a) with
    | none => none
    | some t =>
      match edge_loop fuel mem rest with
      | none => none
      | some u => some (t ++ u)

/-- The part of `main` between `sort_depth ()` and the cycle diagnostic, on
the registry `out` that `sort_depth` leaves: in the gexf mode the node loop
(which calls nothing) and the edge loop, in the shell and bat modes output
calls only.  The result is the list of the edges written, and `none` when the
edge loop does not return. -/
def render_edges (out_kind fuel : Nat) (out : registry) : Option (List (Nat × Nat)) :=
  if is_gexf_mode out_kind then edge_loop fuel out.mem out.the_list else some []

/-- The completion status of a run of `main` with the global `out_kind` on the
loaded registry `r`.  With `the_list_cnt < 1` the run ends in
`show_usage_and_exit`, which calls `exit (1)`.  Otherwise the `do ... while`
loop runs, then `sort_depth` and the rendering, and `main` returns
`printed != the_list_cnt ? 1 : 0` with the `printed` of the last pass.
`fuel` bounds the number of passes and the depth of the recursion of
`in_sub_deps`; `none` means that the run does not get to the `return`. -/
def main_ret (out_kind : Nat) (r : registry) (fuel : Nat) : Option Int :=
  if r.the_list_cnt < 1 then some 1
  else
    (main_sort r fuel).bind (fun t =>
      t.getLast?.bind (fun last =>
        (render_edges out_kind fuel (sort_depth { mem := last.mem, the_list := r.the_list })).map
          (fun _ => main_status r.the_list_cnt last.printed)))

/-! ## Definitions: the notions the properties are stated with -/

/-- The state of the entity flags when `main` enters the `do ... while`
loop: `create_entity` clears `is_printed` and `is_resolved`, and nothing
before the loop writes them. -/
def fresh (mem : List s_entity) : Prop :=
  ∀ e ∈ mem, e.is_printed = false ∧ e.is_resolved = false

/-- A registry as `create_entity` maintains it: every element of `the_list`
points to an allocated entity, and the names of the registered entities are
pairwise distinct. -/
def registry_ok (r : registry) : Prop :=
  (∀ p ∈ r.the_list, p < r.mem.length) ∧ (r.the_list.map (name_at r.mem)).Nodup

/-- The invariant of the array `deps` of the entity `that`: every element
points to an entity whose name differs from the name of `that`, and no two
elements carry the same name. -/
def deps_ok (mem : List s_entity) (that : Nat) : Prop :=
  (∀ d ∈ deps_at mem that, ∃ n, name_at mem d = some n ∧ name_at mem that ≠ some n) ∧
  ((deps_at mem that).map (name_at mem)).Nodup

/-- The dependency relation: `b` is an element of the array `deps` of `a`. -/
def dep (mem : List s_entity) (a b : Nat) : Prop := b ∈ deps_at mem a

/-- Reachability through one or more dependency edges. -/
def reaches (mem : List s_entity) (a b : Nat) : Prop := Relation.TransGen (dep mem) a b

/-- The entity lies on a dependency cycle. -/
def on_cycle (mem : List s_entity) (a : Nat) : Prop := reaches mem a a

/-- No entity lies on a dependency cycle. -/
def acyclic (mem : List s_entity) : Prop := ∀ a, ¬ on_cycle mem a

/-- Every dependency of a registered entity is itself registered. -/
def closed (r : registry) : Prop :=
  ∀ p ∈ r.the_list, ∀ d ∈ deps_at r.mem p, d ∈ r.the_list

/-- Every element of `the_list` points to an entity with `was_loaded = 1`. -/
def fully_loaded (r : registry) : Prop :=
  ∀ p ∈ r.the_list, ∃ e, r.mem[p]? = some e ∧ e.was_loaded = true

/-- The presentation order in the words of the specification: ascending in
the key (`lvl`, `dep_cnt`, `name`), the names compared as by `strcmp`. -/
def key_le (mem : List s_entity) (a b : Nat) : Prop :=
  ∃ ea eb, mem[a]? = some ea ∧ mem[b]? = some eb ∧
    (ea.lvl < eb.lvl ∨ (ea.lvl = eb.lvl ∧
      (ea.dep_cnt < eb.dep_cnt ∨ (ea.dep_cnt = eb.dep_cnt ∧ strcmp ea.name eb.name ≤ 0))))

/-- The condition of the `do ... while` loop, on the result of a pass. -/
def loop_cond (the_list : List Nat) (r : pass_result) : Prop :=
  r.printed < the_list.length ∧ r.deep ≠ 0

/-- The sequences of pass results that the loop produces from `mem` with pass
counter `lvl`: the passes follow each other while the loop condition holds
and the last one makes it false. -/
inductive is_trace (the_list : List Nat) : List s_entity → Nat → List pass_result → Prop
  | last (mem : List s_entity) (lvl : Nat) :
      ¬ loop_cond the_list (pass the_list mem lvl) →
      is_trace the_list mem lvl [pass the_list mem lvl]
  | more (mem : List s_entity) (lvl : Nat) (t : List pass_result) :
      loop_cond the_list (pass the_list mem lvl) →
      is_trace the_list (pass the_list mem lvl).mem (lvl + 1) t →
      is_trace the_list mem lvl (pass the_list mem lvl :: t)

/-- The memory in which pass number `i` (counted from 0) of the sequence of
passes `t` started, when the first pass started in `mem`. -/
def mem_before (mem : List s_entity) : List pass_result → Nat → List s_entity
  | _, 0 => mem
  | [], _ + 1 => mem
  | x :: t, i + 1 => mem_before x.mem t i

/-! ## Definitions: what a pass does to one entity, and the invariant of the sort -/

/-- The effect of the first loop of a pass on one entity: `b` says that the
entity is an element of `the_list` for which `all_deps_resolved` holds. -/
def mark_entity (lvl : Nat) (b : Bool) (e : s_entity) : s_entity :=
  if b && !e.is_printed then { e with is_printed := true, lvl := lvl } else e

/-- The effect of the second loop of a pass on one entity: `b` says that the
entity is an element of `the_list`. -/
def resolve_entity (b : Bool) (e : s_entity) : s_entity :=
  if b && e.is_printed then { e with is_resolved := true } else e

/-- The entity that a pass leaves at a position of `mem`. -/
def pass_entity (the_list : List Nat) (mem : List s_entity) (lvl q : Nat) (e : s_entity) :
    s_entity :=
  resolve_entity (decide (q ∈ the_list))
    (mark_entity lvl (decide (q ∈ the_list) && all_deps_resolved mem q) e)

/-- Between two passes, with `lvl` the value of the pass counter: the two
sort flags agree, and a resolved entity is loaded, has a level below the
counter and has only resolved dependencies of a smaller level. -/
def layered (mem : List s_entity) (lvl : Nat) : Prop :=
  ∀ (p : Nat) (e : s_entity), mem[p]? = some e →
    e.is_printed = e.is_resolved ∧
    (e.is_resolved = true → e.lvl < lvl ∧ e.was_loaded = true ∧
      ∀ d ∈ e.deps, ∃ ed, mem[d]? = some ed ∧ ed.is_resolved = true ∧ ed.lvl < e.lvl)

/-- The number of elements of `the_list` that are not printed yet. -/
def unprinted (the_list : List Nat) (mem : List s_entity) : Nat :=
  the_list.length - the_list.countP (fun p => printed_at mem p)

/-- The fields of an entity that the sort never writes. -/
def shape (e : s_entity) : String × List Nat × Bool := (e.name, e.deps, e.was_loaded)

/-- Two memories that hold, position by position, entities with the same
name, dependencies and `was_loaded` flag. -/
def same_shape (m1 m2 : List s_entity) : Prop :=
  ∀ p : Nat, (m1[p]?).map shape = (m2[p]?).map shape

/-! ## Definitions: example registries -/

/-- The registry that a run of `main` starts from: nothing allocated. -/
def empty_registry : registry := { mem := [], the_list := [] }

/-- The registry of the scenario X, Y, Z, all loaded, registered in the order
Z, X, Y (the order in which `main` registers them when Z is the root and its
recipe names X and Y): Z depends on X and Y, Y depends on X. -/
def reg_zxy : registry :=
  { mem := [ { name := "Z", deps := [1, 2], lvl := 0, was_loaded := true,
               is_printed := false, is_resolved := false },
             { name := "X", deps := [], lvl := 0, was_loaded := true,
               is_printed := false, is_resolved := false },
             { name := "Y", deps := [1], lvl := 0, was_loaded := true,
               is_printed := false, is_resolved := false } ],
    the_list := [0, 1, 2] }

/-- The registry of two loaded entities named `pn` and `qn` that depend on
each other. -/
def reg_pq (pn qn : String) : registry :=
  { mem := [ { name := pn, deps := [1], lvl := 0, was_loaded := true,
               is_printed := false, is_resolved := false },
             { name := qn, deps := [0], lvl := 0, was_loaded := true,
               is_printed := false, is_resolved := false } ],
    the_list := [0, 1] }

/-- Two entities A and B as `create_entity` leaves them. -/
def mem_ab : List s_entity := [new_entity "A", new_entity "B"]

/-- The graph of the edge reduction example: A depends on B and C, C depends
on B (A, B, C at the positions 0, 1, 2). -/
def mem_abc : List s_entity :=
  [ { name := "A", deps := [1, 2], lvl := 0, was_loaded := true,
      is_printed := false, is_resolved := false },
    { name := "B", deps := [], lvl := 0, was_loaded := true,
      is_printed := false, is_resolved := false },
    { name := "C", deps := [1], lvl := 0, was_loaded := true,
      is_printed := false, is_resolved := false } ]

/-! ## Definitions: the loading loops of `main` -/

/-- The assignment `p->was_loaded = 1`. -/
def set_loaded (mem : List s_entity) (p : Nat) : List s_entity :=
  match mem[p]? with
  | some e => mem.set p { e with was_loaded := true }
  | none => mem

/-- The two calls at the end of the scan loop of `read_deps`, for one
dependency name `n` that the scan of the recipe of `that` found:
`ne = create_entity (n); add_dep (that, ne);`. -/
def read_dep (that : Nat) (r : registry) (n : String) : registry :=
  { (create_entity r n).1 with mem := add_dep (create_entity r n).1.mem that (create_entity r n).2 }

/-- The function `read_deps (that)`.  The scan of the file
`<name>/recipe/meta.yaml` is the recipe collaborator `recipe`: it gives, for
the name of `that`, the dependency names (with the suffix `-feedstock`, their
recipe files found) in the order of the scan; for each of them the entity is
looked up or created and added to the dependencies of `that`. -/
def read_deps (recipe : String → List String) (r : registry) (that : Nat) : registry :=
  match r.mem[that]? with
  | some t => (recipe t.name).foldl (read_dep that) r
  | none => r

/-- The registry during the loading loops of `main`, together with the
arguments of the calls of `read_deps` made so far, in order. -/
structure load_state where
  reg : registry
  reads : List Nat
deriving DecidableEq, Repr

/-- The body of the first loop of `main` for one recipe argument `name`:
`create_entity`, and `read_deps` followed by `was_loaded = 1` if the entity
is not loaded yet. -/
def load_root (recipe : String → List String) (s : load_state) (name : String) : load_state :=
  match (create_entity s.reg name).1.mem[(create_entity s.reg name).2]? with
  | some e =>
    if e.was_loaded = false then
      { reg := { (read_deps recipe (create_entity s.reg name).1 (create_entity s.reg name).2) with
                 mem := set_loaded
                   (read_deps recipe (create_entity s.reg name).1 (create_entity s.reg name).2).mem
                   (create_entity s.reg name).2 },
        reads := s.reads ++ [(create_entity s.reg name).2] }
    else { reg := (create_entity s.reg name).1, reads := s.reads }
  | none => { reg := (create_entity s.reg name).1, reads := s.reads }

/-- The second loop of `main` from index `i` on: every element of `the_list`
that is not loaded is marked loaded and read; `the_list_cnt` is read again in
every iteration, so the entities that `read_deps` appends are visited too.
`fuel` bounds the number of iterations. -/
def load_rest (recipe : String → List String) : Nat → load_state → Nat → Option load_state
  | 0, _, _ => none
  | fuel + 1, s, i =>
    match s.reg.the_list[i]? with
    | none => some s
    | some p =>
      match s.reg.mem[p]? with
      | some e =>
        if e.was_loaded = false then
          load_rest recipe fuel
            { reg := read_deps recipe
                { mem := set_loaded s.reg.mem p, the_list := s.reg.the_list } p,
              reads := s.reads ++ [p] } (i + 1)
        else load_rest recipe fuel s (i + 1)
      | none => load_rest recipe fuel s (i + 1)

/-- The two loading loops of `main`, for the recipe arguments `roots` of the
command line in order, started on the empty registry. -/
def main_load (recipe : String → List String) (roots : List String) (fuel : Nat) :
    Option load_state :=
  load_rest recipe fuel (roots.foldl (load_root recipe) { reg := { mem := [], the_list := [] }, reads := [] }) 0

/-! ## Definitions: a run of `main` on recipes with a cycle -/

/-- A recipe collaborator with a cycle: the recipe of `p-feedstock` names `q`
and `s`, the recipe of `q-feedstock` names `p`, the recipe of `s-feedstock`
names nothing. -/
def recipe_pqs (n : String) : List String :=
  if n = "p-feedstock" then ["q-feedstock", "s-feedstock"]
  else if n = "q-feedstock" then ["p-feedstock"]
  else []

/-- The registry that the loading loops of `main` build for the command line
`p-feedstock` with the recipes `recipe_pqs`: P (at 0) depends on Q and S,
Q (at 1) depends on P, S (at 2) has no dependencies; all three are loaded. -/
def reg_pqs : registry :=
  { mem := [ { name := "p-feedstock", deps := [1, 2], lvl := 0, was_loaded := true,
               is_printed := false, is_resolved := false },
             { name := "q-feedstock", deps := [0], lvl := 0, was_loaded := true,
               is_printed := false, is_resolved := false },
             { name := "s-feedstock", deps := [], lvl := 0, was_loaded := true,
               is_printed := false, is_resolved := false } ],
    the_list := [0, 1, 2] }

/-- The registry `reg_pqs` after the sort loop and `sort_depth`: only S is
resolved, and the presentation order is S, Q, P. -/
def reg_pqs_sorted : registry :=
  { mem := [ { name := "p-feedstock", deps := [1, 2], lvl := 0, was_loaded := true,
               is_printed := false, is_resolved := false },
             { name := "q-feedstock", deps := [0], lvl := 0, was_loaded := true,
               is_printed := false, is_resolved := false },
             { name := "s-feedstock", deps := [], lvl := 0, was_loaded := true,
               is_printed := true, is_resolved := true } ],
    the_list := [2, 1, 0] }

/-! ## Definitions: the channels -/

/-- The function `add_channel`, on the global `channels` (`none` for `NULL`).
An empty name changes nothing.  On the first call the buffer is filled with
`-c <c>`.  On a later call the buffer is enlarged by `realloc`, and
`sprintf (h, " -c %s", c)` then writes at the start of the buffer `h`, so the
string that `channels` holds afterwards is ` -c <c>`. -/
def add_channel (channels : Option String) (c : String) : Option String :=
  if c = "" then channels
  else
    match channels with
    | none => some ("-c " ++ c)
    | some _ => some (" -c " ++ c)

/-- The case `'c'` of `handle_arg` with the option value `opth`: `local` is
skipped, every other name goes to `add_channel`. -/
def handle_c (channels : Option String) (opth : String) : Option String :=
  if opth = "local" then channels else add_channel channels opth

/-- The channel text of the `conda-build` command that `main` emits,
`channels ? channels : "-c local"`, after the initial `add_channel ("local")`
and the options `-c c1 ... -c cn` of the command line. -/
def main_channels (cs : List String) : String :=
  (cs.foldl handle_c (add_channel none "local")).getD "-c local"

/-- The text `t` occurs in the text `s`. -/
def occurs_in (t s : String) : Prop := t.toList <:+: s.toList

/-! ## Definitions: the cycle diagnostic -/

/-- The edge from `a` to its dependency `b` is written by the edge loop of
`main`: at some index `i` of `a->deps` holding `b`, `in_deps (a, i)` returns
0. -/
def emitted (fuel : Nat) (mem : List s_entity) (a b : Nat) : Prop :=
  ∃ i, (deps_at mem a)[i]? = some b ∧ in_deps fuel mem a i = some false

/-- The edge from `a` to `b` is not implied by another dependency of `a`:
`b` is a dependency of `a`, and no other dependency of `a` reaches `b`. -/
def kept (mem : List s_entity) (a b : Nat) : Prop :=
  dep mem a b ∧ ¬ ∃ d' ∈ deps_at mem a, d' ≠ b ∧ reaches mem d' b

/-- The inner edge loop of `main` for the entity `a`, from index `ii` on: the
edge to `a->deps[ii]` is written when `in_deps (a, ii)` returns 0. -/
def edges_from (fuel : Nat) (mem : List s_entity) (a : Nat) : Nat → List Nat → List (Nat × Nat)
  | _, [] => []
  | ii, d :: ds =>
    if in_deps fuel mem a ii = some false then (a, d) :: edges_from fuel mem a (ii + 1) ds
    else edges_from fuel mem a (ii + 1) ds

/-- The edges that the edge loop of `main` writes, in order, as pairs of the
dependent entity and its dependency. -/
def emitted_edges (fuel : Nat) (r : registry) : List (Nat × Nat) :=
  r.the_list.flatMap (fun a => edges_from fuel r.mem a 0 (deps_at r.mem a))

/-- Reachability through one or more edges of the edge set `E`. -/
def edge_reach (E : List (Nat × Nat)) (a b : Nat) : Prop :=
  Relation.TransGen (fun x y => (x, y) ∈ E) a b

/-- A diamond with more than one redundant path: A depends on B, C and D,
B depends on C and D, C depends on D (A, B, C, D at the positions 0 to 3). -/
def reg_diamond : registry :=
  { mem := [ { name := "A", deps := [1, 2, 3], lvl := 0, was_loaded := true,
               is_printed := false, is_resolved := false },
             { name := "B", deps := [2, 3], lvl := 0, was_loaded := true,
               is_printed := false, is_resolved := false },
             { name := "C", deps := [3], lvl := 0, was_loaded := true,
               is_printed := false, is_resolved := false },
             { name := "D", deps := [], lvl := 0, was_loaded := true,
               is_printed := false, is_resolved := false } ],
    the_list := [0, 1, 2, 3] }

/-! ## Definitions: levels as depths -/

/-- The field `lvl` read through a pointer. -/
def lvl_at (mem : List s_entity) (p : Nat) : Nat :=
  match mem[p]? with
  | some e => e.lvl
  | none => 0

/-- The maximum of `f` over the pointers `ds` (0 for no pointer). -/
def max_over (f : Nat → Nat) (ds : List Nat) : Nat :=
  ds.foldr (fun d m => max (f d) m) 0

/-- Between two passes, with `lvl` the value of the pass counter, on a
registry whose registered entities are loaded: the memory is layered; a
registered entity that is still unresolved after at least one pass has a
dependency that is unresolved or was resolved by the pass just run; and a
resolved entity has no dependencies and level 0, or a dependency exactly one
level below it. -/
def exact_levels (the_list : List Nat) (mem : List s_entity) (lvl : Nat) : Prop :=
  layered mem lvl ∧
  (∀ p ∈ the_list, ∃ e, mem[p]? = some e ∧ e.was_loaded = true) ∧
  (∀ p ∈ the_list, ∀ e, mem[p]? = some e → e.is_resolved = false → 0 < lvl →
    ∃ d ∈ e.deps, ∀ ed, mem[d]? = some ed → ed.is_resolved = true → ed.lvl + 1 = lvl) ∧
  (∀ (p : Nat) (e : s_entity), mem[p]? = some e → e.is_resolved = true →
    (e.deps = [] ∧ e.lvl = 0) ∨ ∃ d ∈ e.deps, ∃ ed, mem[d]? = some ed ∧ ed.lvl + 1 = e.lvl)

/-! ## Definitions: the invariant of the loading loops -/

/-- The field `was_loaded` read through a pointer. -/
def loaded_at (mem : List s_entity) (p : Nat) : Bool :=
  match mem[p]? with
  | some e => e.was_loaded
  | none => false

/-- A registry as the loading loops of `main` keep it, for recipes over the
names `names`: `the_list` holds the allocated entities in the order of their
allocation, their names are pairwise distinct and among `names`, every
dependency points to an allocated entity, and the sort flags are clear. -/
def loading_ok (names : List String) (r : registry) : Prop :=
  r.the_list = List.range r.mem.length ∧
  (r.mem.map s_entity.name).Nodup ∧
  (∀ x ∈ r.mem.map s_entity.name, x ∈ names) ∧
  (∀ p d, d ∈ deps_at r.mem p → d < r.mem.length) ∧
  fresh r.mem

/-- The invariant of the loading loops of `main`: the registry is as the
loops need it, and `read_deps` has been called exactly for the entities with
`was_loaded = 1`, once each. -/
def load_inv (names : List String) (s : load_state) : Prop :=
  loading_ok names s.reg ∧ s.reads.Nodup ∧ ∀ p, p ∈ s.reads ↔ loaded_at s.reg.mem p = true

/-! ## What one pass does to each entity -/

theorem mark_entity_view (lvl : Nat) (b : Bool) (e : s_entity) :
    (mark_entity lvl b e).is_resolved = e.is_resolved ∧
    (mark_entity lvl b e).was_loaded = e.was_loaded ∧
    (mark_entity lvl b e).deps = e.deps ∧
    (mark_entity lvl b e).name = e.name := by
  unfold mark_entity; split <;> simp

theorem resolved_at_congr {m mem0 : List s_entity}
    (h : ∀ q : Nat, (m[q]?).map s_entity.is_resolved = (mem0[q]?).map s_entity.is_resolved)
    (d : Nat) : resolved_at m d = resolved_at mem0 d := by
  have hd := h d
  unfold resolved_at
  cases h1 : m[d]? <;> cases h2 : mem0[d]? <;> simp_all

theorem all_deps_resolved_congr {lvl : Nat} {m mem0 : List s_entity}
    (h : ∀ q : Nat, ∃ b, m[q]? = (mem0[q]?).map (fun e => mark_entity lvl b e))
    (p : Nat) : all_deps_resolved m p = all_deps_resolved mem0 p := by
  have hres : ∀ d, resolved_at m d = resolved_at mem0 d := by
    apply resolved_at_congr
    intro q
    obtain ⟨b, hb⟩ := h q
    rw [hb]
    cases mem0[q]? <;> simp [(mark_entity_view lvl b _).1]
  obtain ⟨b, hb⟩ := h p
  unfold all_deps_resolved
  rw [hb]
  cases mem0[p]? with
  | none => simp
  | some e =>
    obtain ⟨h1, h2, h3, -⟩ := mark_entity_view lvl b e
    simp only [Option.map_some', h1, h2, h3, hres]

theorem mark_step_get (lvl : Nat) (m : List s_entity) (k p q : Nat) :
    (mark_step lvl (m, k) p).1[q]? =
      (m[q]?).map (mark_entity lvl (decide (q = p) && all_deps_resolved m p)) := by
  unfold mark_step
  simp only
  by_cases hr : all_deps_resolved m p = true
  · rw [if_pos hr]
    cases hp : m[p]? with
    | none =>
      by_cases hq : q = p
      · subst hq; simp [hp]
      · cases hm : m[q]? <;> simp [hq, mark_entity, hm]
    | some e =>
      by_cases hpr : e.is_printed = false
      · simp only [hpr, if_true]
        by_cases hq : q = p
        · subst hq
          have hlt : q < m.length := (List.getElem?_eq_some.mp hp).1
          simp [List.getElem?_set, hlt, hp, hr, mark_entity, hpr]
        · have hq2 : p ≠ q := fun h => hq h.symm
          rw [List.getElem?_set_ne hq2]
          cases hm : m[q]? <;> simp [hq, mark_entity, hm]
      · simp only [hpr, if_false]
        by_cases hq : q = p
        · subst hq
          simp only [Bool.not_eq_false] at hpr
          simp [hp, mark_entity, hpr]
        · cases hm : m[q]? <;> simp [hq, mark_entity, hm]
  · rw [if_neg hr]
    simp only [Bool.not_eq_true] at hr
    cases hm : m[q]? <;> simp [hr, mark_entity, hm]

theorem mark_step_deep (lvl : Nat) (m : List s_entity) (k p : Nat) :
    (mark_step lvl (m, k) p).2 =
      if all_deps_resolved m p = true ∧ printed_at m p = false then k + 1 else k := by
  unfold mark_step printed_at
  simp only
  by_cases hr : all_deps_resolved m p = true
  · cases hp : m[p]? with
    | none => simp [all_deps_resolved, hp] at hr
    | some e =>
      by_cases hpr : e.is_printed = false <;> simp [hr, hpr]
  · simp [hr]

theorem mark_entity_twice (lvl : Nat) (b1 b2 : Bool) (e : s_entity) :
    mark_entity lvl b1 (mark_entity lvl b2 e) = mark_entity lvl (b1 || b2) e := by
  unfold mark_entity
  cases b1 <;> cases b2 <;> cases h : e.is_printed <;> simp [h]

theorem mark_fold_get (lvl : Nat) (mem0 : List s_entity) :
    ∀ (l done : List Nat) (m : List s_entity) (k : Nat),
      (∀ q : Nat, m[q]? =
        (mem0[q]?).map (mark_entity lvl (decide (q ∈ done) && all_deps_resolved mem0 q))) →
      ∀ q : Nat, (l.foldl (mark_step lvl) (m, k)).1[q]? =
        (mem0[q]?).map (mark_entity lvl (decide (q ∈ done ++ l) && all_deps_resolved mem0 q)) := by
  intro l
  induction l with
  | nil => intro done m k h q; simpa using h q
  | cons p l ih =>
    intro done m k h q
    have hadr : all_deps_resolved m p = all_deps_resolved mem0 p :=
      @all_deps_resolved_congr lvl m mem0 (fun q => ⟨_, h q⟩) p
    rw [List.foldl_cons, ← Prod.mk.eta (p := mark_step lvl (m, k) p)]
    have := ih (done ++ [p]) (mark_step lvl (m, k) p).1 (mark_step lvl (m, k) p).2 (by
      intro q
      rw [mark_step_get, h q, hadr, Option.map_map]
      congr 1
      funext e
      simp only [Function.comp, mark_entity_twice]
      congr 1
      by_cases hq : q = p
      · subst hq; cases all_deps_resolved mem0 q <;> simp
      · simp [hq]) q
    simpa using this

theorem printed_at_marked {lvl : Nat} {mem0 m : List s_entity} {done : List Nat}
    (h : ∀ q : Nat, m[q]? =
        (mem0[q]?).map (mark_entity lvl (decide (q ∈ done) && all_deps_resolved mem0 q)))
    (p : Nat) :
    printed_at m p = (printed_at mem0 p || (decide (p ∈ done) && all_deps_resolved mem0 p)) := by
  unfold printed_at
  rw [h p]
  cases hp : mem0[p]? with
  | none => simp [all_deps_resolved, hp]
  | some e =>
    simp only [Option.map_some', mark_entity]
    cases h1 : e.is_printed <;> cases h2 : (decide (p ∈ done) && all_deps_resolved mem0 p) <;> simp [h1]

theorem mark_fold_deep (lvl : Nat) (mem0 : List s_entity) :
    ∀ (l done : List Nat) (m : List s_entity) (k : Nat),
      (∀ q : Nat, m[q]? =
        (mem0[q]?).map (mark_entity lvl (decide (q ∈ done) && all_deps_resolved mem0 q))) →
      (k ≠ 0 ↔ ∃ p ∈ done, all_deps_resolved mem0 p = true ∧ printed_at mem0 p = false) →
      ((l.foldl (mark_step lvl) (m, k)).2 ≠ 0 ↔
        ∃ p ∈ done ++ l, all_deps_resolved mem0 p = true ∧ printed_at mem0 p = false) := by
  intro l
  induction l with
  | nil => intro done m k _ hk; simpa using hk
  | cons p l ih =>
    intro done m k h hk
    have hadr : all_deps_resolved m p = all_deps_resolved mem0 p :=
      @all_deps_resolved_congr lvl m mem0 (fun q => ⟨_, h q⟩) p
    have hpr := printed_at_marked h p
    rw [List.foldl_cons, ← Prod.mk.eta (p := mark_step lvl (m, k) p)]
    have := ih (done ++ [p]) (mark_step lvl (m, k) p).1 (mark_step lvl (m, k) p).2 (by
      intro q
      rw [mark_step_get, h q, hadr, Option.map_map]
      congr 1
      funext e
      simp only [Function.comp, mark_entity_twice]
      congr 1
      by_cases hq : q = p
      · subst hq; cases all_deps_resolved mem0 q <;> simp
      · simp [hq]) (by
      rw [mark_step_deep, hadr, hpr]
      constructor
      · intro hne
        by_cases hc : all_deps_resolved mem0 p = true ∧
            (printed_at mem0 p || (decide (p ∈ done) && all_deps_resolved mem0 p)) = false
        · refine ⟨p, by simp, hc.1, ?_⟩
          have := hc.2
          simp only [Bool.or_eq_false_iff] at this
          exact this.1
        · rw [if_neg hc] at hne
          obtain ⟨x, hx, hx2⟩ := hk.mp hne
          exact ⟨x, by simp [hx], hx2⟩
      · rintro ⟨x, hx, hx1, hx2⟩
        simp only [List.mem_append, List.mem_singleton] at hx
        rcases hx with hx | hx
        · have := hk.mpr ⟨x, hx, hx1, hx2⟩
          split <;> omega
        · subst hx
          by_cases hd : x ∈ done
          · have := hk.mpr ⟨x, hd, hx1, hx2⟩
            split <;> omega
          · simp [hx1, hx2, hd])
    simpa using this

theorem resolve_step_get (m : List s_entity) (k p q : Nat) :
    (resolve_step (m, k) p).1[q]? = (m[q]?).map (resolve_entity (decide (q = p))) := by
  unfold resolve_step
  simp only
  cases hp : m[p]? with
  | none =>
    by_cases hq : q = p
    · subst hq; simp [hp]
    · cases hm : m[q]? <;> simp [hq, resolve_entity, hm]
  | some e =>
    by_cases hpr : e.is_printed = true
    · simp only [hpr, if_true]
      by_cases hq : q = p
      · subst hq
        have hlt : q < m.length := (List.getElem?_eq_some.mp hp).1
        simp [List.getElem?_set, hlt, hp, resolve_entity, hpr]
      · have hq2 : p ≠ q := fun h => hq h.symm
        rw [List.getElem?_set_ne hq2]
        cases hm : m[q]? <;> simp [hq, resolve_entity, hm]
    · simp only [hpr, if_false]
      by_cases hq : q = p
      · subst hq
        simp only [Bool.not_eq_true] at hpr
        simp [hp, resolve_entity, hpr]
      · cases hm : m[q]? <;> simp [hq, resolve_entity, hm]

theorem resolve_step_printed (m : List s_entity) (k p : Nat) :
    (resolve_step (m, k) p).2 = if printed_at m p = true then k + 1 else k := by
  unfold resolve_step printed_at
  simp only
  cases hp : m[p]? with
  | none => simp
  | some e => by_cases hpr : e.is_printed = true <;> simp [hpr]

theorem resolve_entity_twice (b1 b2 : Bool) (e : s_entity) :
    resolve_entity b1 (resolve_entity b2 e) = resolve_entity (b1 || b2) e := by
  unfold resolve_entity
  cases b1 <;> cases b2 <;> cases h : e.is_printed <;> simp [h]

theorem printed_at_resolved {m1 m : List s_entity} {done : List Nat}
    (h : ∀ q : Nat, m[q]? = (m1[q]?).map (resolve_entity (decide (q ∈ done))))
    (p : Nat) : printed_at m p = printed_at m1 p := by
  unfold printed_at
  rw [h p]
  cases hp : m1[p]? with
  | none => simp
  | some e =>
    simp only [Option.map_some', resolve_entity]
    split <;> rfl

theorem resolve_fold (m1 : List s_entity) :
    ∀ (l done : List Nat) (m : List s_entity) (k : Nat),
      (∀ q : Nat, m[q]? = (m1[q]?).map (resolve_entity (decide (q ∈ done)))) →
      k = done.countP (fun p => printed_at m1 p) →
      (∀ q : Nat, (l.foldl resolve_step (m, k)).1[q]? =
        (m1[q]?).map (resolve_entity (decide (q ∈ done ++ l)))) ∧
      (l.foldl resolve_step (m, k)).2 = (done ++ l).countP (fun p => printed_at m1 p) := by
  intro l
  induction l with
  | nil => intro done m k h hk; exact ⟨by simpa using h, by simpa using hk⟩
  | cons p l ih =>
    intro done m k h hk
    have hpr := printed_at_resolved h p
    rw [List.foldl_cons, ← Prod.mk.eta (p := resolve_step (m, k) p)]
    have := ih (done ++ [p]) (resolve_step (m, k) p).1 (resolve_step (m, k) p).2 (by
      intro q
      rw [resolve_step_get, h q, Option.map_map]
      congr 1
      funext e
      simp only [Function.comp, resolve_entity_twice]
      congr 1
      by_cases hq : q = p
      · subst hq; simp
      · simp [hq]) (by
      rw [resolve_step_printed, hpr, hk, List.countP_append]
      by_cases hc : printed_at m1 p = true <;> simp [hc])
    simpa using this

theorem pass_mem_get (the_list : List Nat) (mem : List s_entity) (lvl q : Nat) :
    (pass the_list mem lvl).mem[q]? = (mem[q]?).map (pass_entity the_list mem lvl q) := by
  have h0 : ∀ q : Nat, mem[q]? =
      (mem[q]?).map (mark_entity lvl (decide (q ∈ ([] : List Nat)) && all_deps_resolved mem q)) := by
    intro q; cases hm : mem[q]? <;> simp [mark_entity]
  have h1 := mark_fold_get lvl mem the_list [] mem 0 h0
  have h2 := (resolve_fold (the_list.foldl (mark_step lvl) (mem, 0)).1 the_list []
    (the_list.foldl (mark_step lvl) (mem, 0)).1 0 (by
      intro q
      cases hm : (the_list.foldl (mark_step lvl) (mem, 0)).1[q]? <;> simp [resolve_entity]) (by simp)).1 q
  simp only [List.nil_append] at h1 h2
  unfold pass
  simp only
  rw [h2, h1, Option.map_map]
  rfl

theorem pass_deep (the_list : List Nat) (mem : List s_entity) (lvl : Nat) :
    (pass the_list mem lvl).deep ≠ 0 ↔
      ∃ p ∈ the_list, all_deps_resolved mem p = true ∧ printed_at mem p = false := by
  have h0 : ∀ q : Nat, mem[q]? =
      (mem[q]?).map (mark_entity lvl (decide (q ∈ ([] : List Nat)) && all_deps_resolved mem q)) := by
    intro q; cases hm : mem[q]? <;> simp [mark_entity]
  have := mark_fold_deep lvl mem the_list [] mem 0 h0 (by simp)
  simpa [pass] using this

theorem pass_printed (the_list : List Nat) (mem : List s_entity) (lvl : Nat) :
    (pass the_list mem lvl).printed =
      the_list.countP (fun p => printed_at mem p || all_deps_resolved mem p) := by
  have h0 : ∀ q : Nat, mem[q]? =
      (mem[q]?).map (mark_entity lvl (decide (q ∈ ([] : List Nat)) && all_deps_resolved mem q)) := by
    intro q; cases hm : mem[q]? <;> simp [mark_entity]
  have h1 := mark_fold_get lvl mem the_list [] mem 0 h0
  have h2 := (resolve_fold (the_list.foldl (mark_step lvl) (mem, 0)).1 the_list []
    (the_list.foldl (mark_step lvl) (mem, 0)).1 0 (by
      intro q
      cases hm : (the_list.foldl (mark_step lvl) (mem, 0)).1[q]? <;> simp [resolve_entity]) (by simp)).2
  simp only [List.nil_append] at h1 h2
  unfold pass
  simp only
  rw [h2]
  apply List.countP_congr
  intro p hp
  have := @printed_at_marked lvl mem _ the_list h1 p
  simp only [this, hp, decide_True, Bool.true_and]

/-! ## The invariant of the layered sort -/

theorem layered_of_fresh {mem : List s_entity} (h : fresh mem) (lvl : Nat) : layered mem lvl := by
  intro p e hp
  have he : e ∈ mem := List.getElem?_mem hp
  obtain ⟨h1, h2⟩ := h e he
  exact ⟨by rw [h1, h2], by intro hr; rw [h2] at hr; cases hr⟩

theorem all_deps_resolved_iff (mem : List s_entity) (p : Nat) :
    all_deps_resolved mem p = true ↔
      ∃ e, mem[p]? = some e ∧ e.is_resolved = false ∧ e.was_loaded = true ∧
        ∀ d ∈ e.deps, resolved_at mem d = true := by
  unfold all_deps_resolved
  cases hp : mem[p]? with
  | none => simp
  | some e =>
    cases h1 : e.is_resolved <;> cases h2 : e.was_loaded <;> simp [h1, h2]

theorem resolved_at_iff (mem : List s_entity) (d : Nat) :
    resolved_at mem d = true ↔ ∃ ed, mem[d]? = some ed ∧ ed.is_resolved = true := by
  unfold resolved_at
  cases hp : mem[d]? <;> simp

/-- A resolved entity is left alone by a pass. -/
theorem pass_entity_resolved {the_list : List Nat} {mem : List s_entity} {lvl q : Nat}
    {e : s_entity} (hq : mem[q]? = some e) (hpr : e.is_printed = true)
    (hres : e.is_resolved = true) : pass_entity the_list mem lvl q e = e := by
  unfold pass_entity resolve_entity mark_entity
  cases e
  simp_all

theorem layered_pass {the_list : List Nat} {mem : List s_entity} {lvl : Nat}
    (h : layered mem lvl) : layered (pass the_list mem lvl).mem (lvl + 1) := by
  have keep : ∀ (d : Nat) (ed : s_entity), mem[d]? = some ed → ed.is_resolved = true →
      (pass the_list mem lvl).mem[d]? = some ed := by
    intro d ed hd hr
    rw [pass_mem_get, hd]
    have hpr : ed.is_printed = true := by rw [(h d ed hd).1]; exact hr
    simp [pass_entity_resolved hd hpr hr]
  intro p e' hp'
  rw [pass_mem_get] at hp'
  cases hp : mem[p]? with
  | none => rw [hp] at hp'; cases hp'
  | some e =>
    rw [hp] at hp'
    simp only [Option.map_some', Option.some.injEq] at hp'
    obtain ⟨hpe, hinv⟩ := h p e hp
    by_cases hres : e.is_resolved = true
    · have hpr : e.is_printed = true := by rw [hpe]; exact hres
      rw [pass_entity_resolved hp hpr hres] at hp'
      subst hp'
      obtain ⟨h1, h2, h3⟩ := hinv hres
      refine ⟨hpe, fun _ => ⟨by omega, h2, ?_⟩⟩
      intro d hd
      obtain ⟨ed, hed, hedr, hlt⟩ := h3 d hd
      exact ⟨ed, keep d ed hed hedr, hedr, hlt⟩
    · have hres2 : e.is_resolved = false := by simpa using hres
      have hpr : e.is_printed = false := by rw [hpe]; exact hres2
      by_cases hrdy : (decide (p ∈ the_list) && all_deps_resolved mem p) = true
      · have he' : e' = { e with is_printed := true, lvl := lvl, is_resolved := true } := by
          rw [← hp']
          simp only [Bool.and_eq_true, decide_eq_true_eq] at hrdy
          simp [pass_entity, mark_entity, resolve_entity, hrdy.1, hrdy.2, hpr]
        simp only [Bool.and_eq_true, decide_eq_true_eq] at hrdy
        obtain ⟨e2, he2, -, hl, hdeps⟩ := (all_deps_resolved_iff mem p).mp hrdy.2
        rw [hp] at he2
        cases he2
        subst he'
        refine ⟨rfl, fun _ => ⟨by simp, hl, ?_⟩⟩
        intro d hd
        obtain ⟨ed, hed, hedr⟩ := (resolved_at_iff mem d).mp (hdeps d hd)
        exact ⟨ed, keep d ed hed hedr, hedr, ((h d ed hed).2 hedr).1⟩
      · have he' : e' = e := by
          rw [← hp']
          simp only [Bool.not_eq_true] at hrdy
          simp [pass_entity, mark_entity, resolve_entity, hrdy, hpr]
        subst he'
        exact ⟨hpe, fun hr => absurd hr hres⟩

/-! ## The loop as a sequence of passes -/

theorem sort_loop_is_trace (the_list : List Nat) :
    ∀ (fuel : Nat) (mem : List s_entity) (lvl : Nat) (t : List pass_result),
      sort_loop the_list fuel mem lvl = some t → is_trace the_list mem lvl t := by
  intro fuel
  induction fuel with
  | zero => intro mem lvl t h; simp [sort_loop] at h
  | succ f ih =>
    intro mem lvl t h
    unfold sort_loop at h
    simp only at h
    by_cases hc : (pass the_list mem lvl).printed < the_list.length ∧ (pass the_list mem lvl).deep ≠ 0
    · rw [if_pos hc] at h
      cases ht : sort_loop the_list f (pass the_list mem lvl).mem (lvl + 1) with
      | none => rw [ht] at h; cases h
      | some t2 =>
        rw [ht] at h
        simp only [Option.map_some', Option.some.injEq] at h
        subst h
        exact is_trace.more mem lvl t2 hc (ih _ _ _ ht)
    · rw [if_neg hc] at h
      simp only [Option.some.injEq] at h
      subst h
      exact is_trace.last mem lvl hc

theorem countP_lt_of_strict {l : List Nat} {f g : Nat → Bool}
    (hmono : ∀ x ∈ l, f x = true → g x = true)
    (hx : ∃ x ∈ l, f x = false ∧ g x = true) : l.countP f < l.countP g := by
  induction l with
  | nil => obtain ⟨x, hx, -⟩ := hx; cases hx
  | cons a l ih =>
    have hle : l.countP f ≤ l.countP g :=
      List.countP_mono_left (fun x hx h => hmono x (List.mem_cons_of_mem _ hx) h)
    obtain ⟨x, hxl, hf, hg⟩ := hx
    rw [List.countP_cons, List.countP_cons]
    rcases List.mem_cons.mp hxl with hxa | hxl2
    · subst hxa
      simp only [hf, hg, if_true]
      simp
      omega
    · have hlt := ih (fun y hy h => hmono y (List.mem_cons_of_mem _ hy) h) ⟨x, hxl2, hf, hg⟩
      by_cases hfa : f a = true
      · simp [hfa, hmono a (List.mem_cons_self _ _) hfa]; omega
      · simp [hfa]
        split <;> omega

theorem printed_at_pass (the_list : List Nat) (mem : List s_entity) (lvl p : Nat) :
    printed_at (pass the_list mem lvl).mem p =
      (printed_at mem p || (decide (p ∈ the_list) && all_deps_resolved mem p)) := by
  unfold printed_at
  rw [pass_mem_get]
  cases hp : mem[p]? with
  | none => simp [all_deps_resolved, hp]
  | some e =>
    simp only [Option.map_some', pass_entity, mark_entity, resolve_entity]
    cases h1 : e.is_printed <;>
      cases h2 : (decide (p ∈ the_list) && all_deps_resolved mem p) <;>
      cases h3 : decide (p ∈ the_list) <;> simp [h1]

theorem pass_printed_eq (the_list : List Nat) (mem : List s_entity) (lvl : Nat) :
    (pass the_list mem lvl).printed =
      the_list.countP (fun p => printed_at (pass the_list mem lvl).mem p) := by
  rw [pass_printed]
  apply List.countP_congr
  intro p hp
  simp [printed_at_pass, hp]

theorem unprinted_pass {the_list : List Nat} {mem : List s_entity} {lvl : Nat}
    (hc : loop_cond the_list (pass the_list mem lvl)) :
    unprinted the_list (pass the_list mem lvl).mem < unprinted the_list mem ∧
      1 ≤ unprinted the_list (pass the_list mem lvl).mem := by
  obtain ⟨h1, h2⟩ := hc
  rw [pass_printed_eq] at h1
  obtain ⟨p, hp, hr, hu⟩ := (pass_deep the_list mem lvl).mp h2
  have hlt : the_list.countP (fun p => printed_at mem p) <
      the_list.countP (fun p => printed_at (pass the_list mem lvl).mem p) := by
    apply countP_lt_of_strict
    · intro x _ hx
      simp [printed_at_pass, hx]
    · exact ⟨p, hp, hu, by simp [printed_at_pass, hp, hr]⟩
  unfold unprinted
  omega

/-- The loop halts: with `fuel` at least the number of unprinted elements of
`the_list` (and at least 1) it returns, after at most that many passes. -/
theorem sort_loop_halts (the_list : List Nat) :
    ∀ (fuel : Nat) (mem : List s_entity) (lvl : Nat),
      max 1 (unprinted the_list mem) ≤ fuel →
      ∃ t, sort_loop the_list fuel mem lvl = some t ∧
        t.length ≤ max 1 (unprinted the_list mem) := by
  intro fuel
  induction fuel with
  | zero => intro mem lvl h; omega
  | succ f ih =>
    intro mem lvl h
    unfold sort_loop
    simp only
    by_cases hc : (pass the_list mem lvl).printed < the_list.length ∧ (pass the_list mem lvl).deep ≠ 0
    · rw [if_pos hc]
      obtain ⟨h1, h2⟩ := unprinted_pass hc
      obtain ⟨t, ht, hlen⟩ := ih (pass the_list mem lvl).mem (lvl + 1) (by omega)
      refine ⟨pass the_list mem lvl :: t, by simp [ht], ?_⟩
      simp only [List.length_cons]
      omega
    · rw [if_neg hc]
      exact ⟨_, rfl, by simp⟩

theorem unprinted_le (the_list : List Nat) (mem : List s_entity) :
    unprinted the_list mem ≤ the_list.length := by
  unfold unprinted; omega

theorem is_trace_layered {the_list : List Nat} {mem : List s_entity} {lvl : Nat}
    {t : List pass_result} (ht : is_trace the_list mem lvl t) (h : layered mem lvl) :
    ∀ x ∈ t, ∃ k, layered x.mem k := by
  induction ht with
  | last mem lvl _ =>
    intro x hx
    simp only [List.mem_singleton] at hx
    subst hx
    exact ⟨lvl + 1, layered_pass h⟩
  | more mem lvl t _ _ ih =>
    intro x hx
    rcases List.mem_cons.mp hx with hx | hx
    · subst hx
      exact ⟨lvl + 1, layered_pass h⟩
    · exact ih (layered_pass h) x hx

theorem is_trace_ne_nil {the_list : List Nat} {mem : List s_entity} {lvl : Nat}
    {t : List pass_result} (ht : is_trace the_list mem lvl t) : t ≠ [] := by
  cases ht <;> simp

/-- The loop of `main` returns whenever the bound on the passes is at least
the number of registered entities (and at least 1), and what it returns is a
sequence of passes with a last element. -/
theorem main_sort_returns (r : registry) (fuel : Nat) (hf : max 1 r.the_list.length ≤ fuel) :
    ∃ t last, main_sort r fuel = some t ∧ t.getLast? = some last ∧
      is_trace r.the_list r.mem 0 t ∧ t.length ≤ max 1 r.the_list.length := by
  have hu := unprinted_le r.the_list r.mem
  obtain ⟨t, ht, hlen⟩ := sort_loop_halts r.the_list fuel r.mem 0 (by omega)
  have htr := sort_loop_is_trace _ _ _ _ _ ht
  have hne := is_trace_ne_nil htr
  refine ⟨t, t.getLast hne, ht, List.getLast?_eq_getLast _ hne, htr, by omega⟩

/-- C1 (layering validity): entered on a registry whose sort flags are clear,
the pass loop of `main` halts, and in the state it leaves every dependency of
a resolved entity is resolved and has a strictly smaller level. -/
theorem layering_validity (r : registry) (fuel : Nat) (h0 : fresh r.mem)
    (hf : r.the_list.length < fuel) :
    ∃ t last, main_sort r fuel = some t ∧ t.getLast? = some last ∧
      ∀ (p : Nat) (e : s_entity), last.mem[p]? = some e → e.is_resolved = true →
        ∀ d ∈ e.deps, ∃ ed, last.mem[d]? = some ed ∧ ed.is_resolved = true ∧ ed.lvl < e.lvl := by
  obtain ⟨t, last, ht, hlast, htr, -⟩ := main_sort_returns r fuel (by omega)
  refine ⟨t, last, ht, hlast, ?_⟩
  obtain ⟨k, hk⟩ := is_trace_layered htr (layered_of_fresh h0 0) last (List.mem_of_getLast?_eq_some hlast)
  intro p e hp hres
  exact ((hk p e hp).2 hres).2.2

theorem fresh_reg_zxy : fresh reg_zxy.mem := by
  intro e he
  simp only [reg_zxy, List.mem_cons, List.mem_singleton, List.not_mem_nil, or_false] at he
  rcases he with h | h | h <;> subst h <;> exact ⟨rfl, rfl⟩

/-- C1 at the registry Z, X, Y. -/
theorem layering_validity_witness :
    fresh reg_zxy.mem ∧ reg_zxy.the_list.length < 4 ∧
    ∃ t last, main_sort reg_zxy 4 = some t ∧ t.getLast? = some last ∧
      ∀ (p : Nat) (e : s_entity), last.mem[p]? = some e → e.is_resolved = true →
        ∀ d ∈ e.deps, ∃ ed, last.mem[d]? = some ed ∧ ed.is_resolved = true ∧ ed.lvl < e.lvl :=
  ⟨fresh_reg_zxy, by decide, layering_validity reg_zxy 4 fresh_reg_zxy (by decide)⟩

/-! ## The dependency graph is not touched by the sort -/

theorem pass_entity_shape (the_list : List Nat) (mem : List s_entity) (lvl q : Nat)
    (e : s_entity) : shape (pass_entity the_list mem lvl q e) = shape e := by
  unfold pass_entity resolve_entity mark_entity shape
  split <;> split <;> rfl

theorem same_shape_pass (the_list : List Nat) (mem : List s_entity) (lvl : Nat) :
    same_shape (pass the_list mem lvl).mem mem := by
  intro p
  rw [pass_mem_get]
  cases mem[p]? <;> simp [pass_entity_shape]

theorem same_shape_trans {m1 m2 m3 : List s_entity} (h1 : same_shape m1 m2)
    (h2 : same_shape m2 m3) : same_shape m1 m3 := fun p => (h1 p).trans (h2 p)

theorem is_trace_same_shape {the_list : List Nat} {mem : List s_entity} {lvl : Nat}
    {t : List pass_result} (ht : is_trace the_list mem lvl t) :
    ∀ x ∈ t, same_shape x.mem mem := by
  induction ht with
  | last mem lvl _ =>
    intro x hx
    simp only [List.mem_singleton] at hx
    subst hx
    exact same_shape_pass _ _ _
  | more mem lvl t _ _ ih =>
    intro x hx
    rcases List.mem_cons.mp hx with hx | hx
    · subst hx
      exact same_shape_pass _ _ _
    · exact same_shape_trans (ih x hx) (same_shape_pass _ _ _)

theorem deps_at_same_shape {m1 m2 : List s_entity} (h : same_shape m1 m2) (p : Nat) :
    deps_at m1 p = deps_at m2 p := by
  have hp := h p
  unfold deps_at
  cases h1 : m1[p]? <;> cases h2 : m2[p]? <;> simp_all [shape]

theorem reaches_same_shape {m1 m2 : List s_entity} (h : same_shape m1 m2) (a b : Nat) :
    reaches m1 a b ↔ reaches m2 a b := by
  have hd : dep m1 = dep m2 := by
    funext x y
    simp only [dep, deps_at_same_shape h]
  unfold reaches
  rw [hd]

theorem deps_at_eq {mem : List s_entity} {p : Nat} {e : s_entity} (h : mem[p]? = some e) :
    deps_at mem p = e.deps := by
  simp [deps_at, h]

/-! ## Resolved entities and reachability -/

/-- In a layered memory everything reachable from a resolved entity is
resolved and has a strictly smaller level. -/
theorem layered_reaches {mem : List s_entity} {lvl : Nat} (h : layered mem lvl) {a b : Nat}
    (hab : reaches mem a b) :
    ∀ ea, mem[a]? = some ea → ea.is_resolved = true →
      ∃ eb, mem[b]? = some eb ∧ eb.is_resolved = true ∧ eb.lvl < ea.lvl := by
  induction hab with
  | single hd =>
    intro ea hea hres
    rw [dep, deps_at_eq hea] at hd
    exact ((h a ea hea).2 hres).2.2 _ hd
  | tail _ hd ih =>
    intro ea hea hres
    obtain ⟨ec, hec, hcres, hlt⟩ := ih ea hea hres
    rw [dep, deps_at_eq hec] at hd
    obtain ⟨eb, heb, hbres, hlt2⟩ := ((h _ ec hec).2 hcres).2.2 _ hd
    exact ⟨eb, heb, hbres, by omega⟩

/-- In a layered memory an entity that lies on a cycle, or that reaches one,
is not resolved. -/
theorem layered_cycle_unresolved {mem : List s_entity} {lvl : Nat} (h : layered mem lvl)
    {p : Nat} (hc : on_cycle mem p ∨ ∃ c, reaches mem p c ∧ on_cycle mem c) :
    resolved_at mem p = false := by
  by_contra hne
  have hres : resolved_at mem p = true := by simpa using hne
  obtain ⟨e, he, her⟩ := (resolved_at_iff mem p).mp hres
  rcases hc with hc | ⟨c, hpc, hc⟩
  · obtain ⟨e2, he2, -, hlt⟩ := layered_reaches h hc e he her
    rw [he] at he2
    cases he2
    omega
  · obtain ⟨ec, hec, hcres, -⟩ := layered_reaches h hpc e he her
    obtain ⟨e2, he2, -, hlt⟩ := layered_reaches h hc ec hec hcres
    rw [hec] at he2
    cases he2
    omega

/-- A finite graph argument: if every vertex of a set `P` of vertices below
`n` has an edge into `P`, every vertex of `P` lies on a cycle or reaches
one. -/
theorem cycle_of_no_sink (n : Nat) (R : Nat → Nat → Prop) (P : Nat → Prop)
    (h : ∀ u, P u → u < n ∧ ∃ d, R u d ∧ P d) (u : Nat) (hu : P u) :
    Relation.TransGen R u u ∨ ∃ c, Relation.TransGen R u c ∧ Relation.TransGen R c c := by
  let r : Fin n → Fin n → Prop :=
    fun b a => Relation.TransGen R a.val b.val ∧ ¬ Relation.TransGen R a.val a.val
  have htrans : IsTrans (Fin n) r :=
    ⟨fun c b a hcb hba => ⟨hba.1.trans hcb.1, hba.2⟩⟩
  have hirr : IsIrrefl (Fin n) r := ⟨fun a ha => ha.2 ha.1⟩
  have hwf : WellFounded r := Finite.wellFounded_of_trans_of_irrefl r
  let S : Set (Fin n) := {x | P x.val ∧ (x.val = u ∨ Relation.TransGen R u x.val)}
  have hS : S.Nonempty := ⟨⟨u, (h u hu).1⟩, hu, Or.inl rfl⟩
  obtain ⟨m, hm, hmin⟩ := hwf.has_min S hS
  obtain ⟨hPm, hum⟩ := hm
  obtain ⟨-, d, hmd, hPd⟩ := h m.val hPm
  have hud : Relation.TransGen R u d := by
    rcases hum with hum | hum
    · rw [← hum]; exact Relation.TransGen.single hmd
    · exact hum.tail hmd
  have hdS : (⟨d, (h d hPd).1⟩ : Fin n) ∈ S := ⟨hPd, Or.inr hud⟩
  have hnot := hmin _ hdS
  have hmm : Relation.TransGen R m.val m.val := by
    by_contra hc
    exact hnot ⟨Relation.TransGen.single hmd, hc⟩
  rcases hum with hum | hum
  · left; rw [← hum]; exact hmm
  · right; exact ⟨m.val, hum, hmm⟩

/-! ## The state in which the loop halts -/

theorem same_shape_refl (m : List s_entity) : same_shape m m := fun _ => rfl

/-- The last pass of the loop is a pass from a layered memory with the graph
of the start, and it makes the loop condition false. -/
theorem is_trace_final {the_list : List Nat} {mem : List s_entity} {lvl : Nat}
    {t : List pass_result} (ht : is_trace the_list mem lvl t) :
    ∀ last, t.getLast? = some last → layered mem lvl →
      ∃ m l, layered m l ∧ same_shape m mem ∧ last = pass the_list m l ∧
        ¬ loop_cond the_list last := by
  induction ht with
  | last mem lvl hc =>
    intro last hl h
    simp only [List.getLast?_singleton, Option.some.injEq] at hl
    subst hl
    exact ⟨mem, lvl, h, same_shape_refl _, rfl, hc⟩
  | more mem lvl t _ htr ih =>
    intro last hl h
    have hne := is_trace_ne_nil htr
    obtain ⟨y, t2, rfl⟩ := List.exists_cons_of_ne_nil hne
    rw [List.getLast?_cons_cons] at hl
    obtain ⟨m, l, h1, h2, h3, h4⟩ := ih last hl (layered_pass h)
    exact ⟨m, l, h1, same_shape_trans h2 (same_shape_pass _ _ _), h3, h4⟩

theorem resolved_at_pass {the_list : List Nat} {mem : List s_entity} {lvl : Nat}
    (h : layered mem lvl) (p : Nat) :
    resolved_at (pass the_list mem lvl).mem p =
      (resolved_at mem p || (decide (p ∈ the_list) && all_deps_resolved mem p)) := by
  unfold resolved_at
  rw [pass_mem_get]
  cases hp : mem[p]? with
  | none => simp [all_deps_resolved, hp]
  | some e =>
    have hpe := (h p e hp).1
    simp only [Option.map_some', pass_entity, mark_entity, resolve_entity]
    cases h1 : e.is_printed <;> cases h3 : e.is_resolved <;>
      cases h2 : (decide (p ∈ the_list) && all_deps_resolved mem p) <;>
      cases h4 : decide (p ∈ the_list) <;> simp_all

theorem printed_eq_resolved {mem : List s_entity} {lvl : Nat} (h : layered mem lvl) (p : Nat) :
    printed_at mem p = resolved_at mem p := by
  unfold printed_at resolved_at
  cases hp : mem[p]? with
  | none => rfl
  | some e => exact (h p e hp).1

/-- When the loop halts on a fully loaded registry closed under dependencies,
every registered entity that is left unresolved has a registered dependency
that is left unresolved. -/
theorem halt_no_sink {the_list : List Nat} {m : List s_entity} {l : Nat}
    (h : layered m l) (hc : ¬ loop_cond the_list (pass the_list m l))
    (hload : ∀ p ∈ the_list, ∃ e, m[p]? = some e ∧ e.was_loaded = true)
    (hclosed : ∀ p ∈ the_list, ∀ d ∈ deps_at m p, d ∈ the_list)
    (u : Nat) (hu : u ∈ the_list) (hur : resolved_at (pass the_list m l).mem u = false) :
    ∃ d, d ∈ deps_at m u ∧ d ∈ the_list ∧ resolved_at (pass the_list m l).mem d = false := by
  have hlay : layered (pass the_list m l).mem (l + 1) := layered_pass h
  by_cases hfull : (pass the_list m l).printed < the_list.length
  · have hdeep : ¬ (pass the_list m l).deep ≠ 0 := fun hd => hc ⟨hfull, hd⟩
    rw [pass_deep] at hdeep
    have hnr : ∀ p ∈ the_list, resolved_at m p = false → all_deps_resolved m p = false := by
      intro p hp hpr
      by_contra hne
      have hr : all_deps_resolved m p = true := by simpa using hne
      exact hdeep ⟨p, hp, hr, by rw [printed_eq_resolved h]; exact hpr⟩
    rw [resolved_at_pass h] at hur
    simp only [Bool.or_eq_false_iff] at hur
    obtain ⟨e, he, hel⟩ := hload u hu
    have hua := hnr u hu hur.1
    have hres : e.is_resolved = false := by
      have := hur.1
      simpa [resolved_at, he] using this
    have hex : ∃ d ∈ e.deps, resolved_at m d = false := by
      by_contra hne
      push_neg at hne
      have : all_deps_resolved m u = true :=
        (all_deps_resolved_iff m u).mpr ⟨e, he, hres, hel, fun d hd => by simpa using hne d hd⟩
      rw [hua] at this
      cases this
    obtain ⟨d, hd, hdr⟩ := hex
    have hdd : d ∈ deps_at m u := by rw [deps_at_eq he]; exact hd
    have hdl := hclosed u hu d hdd
    refine ⟨d, hdd, hdl, ?_⟩
    rw [resolved_at_pass h, hdr, hnr d hdl hdr]
    simp
  · have hall : the_list.countP (fun p => printed_at (pass the_list m l).mem p) =
        the_list.length := by
      have hle := List.countP_le_length (fun p => printed_at (pass the_list m l).mem p)
        (l := the_list)
      have := pass_printed_eq the_list m l
      omega
    rw [List.countP_eq_length] at hall
    have := hall u hu
    rw [printed_eq_resolved hlay, hur] at this
    cases this

/-- The central fact about the halting state: on a fully loaded registry
closed under dependencies whose flags are clear, a registered entity is left
unresolved exactly when it lies on a cycle or reaches one. -/
theorem halt_unresolved_iff {r : registry} {t : List pass_result} {last : pass_result}
    (htr : is_trace r.the_list r.mem 0 t) (hlast : t.getLast? = some last)
    (h0 : fresh r.mem) (hload : fully_loaded r) (hclosed : closed r)
    (p : Nat) (hp : p ∈ r.the_list) :
    resolved_at last.mem p = false ↔
      (on_cycle r.mem p ∨ ∃ c, reaches r.mem p c ∧ on_cycle r.mem c) := by
  obtain ⟨m, l, hm, hsh, hpass, hc⟩ := is_trace_final htr last hlast (layered_of_fresh h0 0)
  have hsh2 : same_shape last.mem r.mem :=
    is_trace_same_shape htr last (List.mem_of_getLast?_eq_some hlast)
  have hlay : layered last.mem (l + 1) := by rw [hpass]; exact layered_pass hm
  constructor
  · intro hur
    have hload2 : ∀ p ∈ r.the_list, ∃ e, m[p]? = some e ∧ e.was_loaded = true := by
      intro q hq
      obtain ⟨e, he, hel⟩ := hload q hq
      have := hsh q
      rw [he] at this
      cases hmq : m[q]? with
      | none => rw [hmq] at this; cases this
      | some e2 =>
        rw [hmq] at this
        simp only [Option.map_some', Option.some.injEq, shape, Prod.mk.injEq] at this
        exact ⟨e2, rfl, by rw [this.2.2]; exact hel⟩
    have hclosed2 : ∀ p ∈ r.the_list, ∀ d ∈ deps_at m p, d ∈ r.the_list := by
      intro q hq d hd
      rw [deps_at_same_shape hsh] at hd
      exact hclosed q hq d hd
    have key := cycle_of_no_sink r.mem.length (dep r.mem)
      (fun u => u ∈ r.the_list ∧ resolved_at last.mem u = false) (by
        intro u ⟨hu, hur⟩
        obtain ⟨e, he, -⟩ := hload u hu
        refine ⟨(List.getElem?_eq_some.mp he).1, ?_⟩
        rw [hpass] at hur
        obtain ⟨d, hd1, hd2, hd3⟩ := halt_no_sink hm (hpass ▸ hc) hload2 hclosed2 u hu hur
        refine ⟨d, ?_, hd2, by rw [hpass]; exact hd3⟩
        rw [dep, ← deps_at_same_shape hsh]
        exact hd1) p ⟨hp, hur⟩
    exact key
  · intro hcyc
    apply layered_cycle_unresolved hlay
    rcases hcyc with hcyc | ⟨c, hpc, hcyc⟩
    · left; exact (reaches_same_shape hsh2 p p).mpr hcyc
    · right
      exact ⟨c, (reaches_same_shape hsh2 p c).mpr hpc, (reaches_same_shape hsh2 c c).mpr hcyc⟩

/-- A graph whose edges all go to a smaller rank has no cycle. -/
theorem acyclic_of_rank (mem : List s_entity) (rank : Nat → Nat)
    (h : ∀ a b, dep mem a b → rank b < rank a) : acyclic mem := by
  have key : ∀ a b, reaches mem a b → rank b < rank a := by
    intro a b hab
    induction hab with
    | single hd => exact h _ _ hd
    | tail _ hd ih => have := h _ _ hd; omega
  intro a ha
  have := key a a ha
  omega

theorem closed_reg_zxy : closed reg_zxy := by
  intro p hp d hd
  simp only [reg_zxy, List.mem_cons, List.mem_singleton, List.not_mem_nil, or_false] at hp
  rcases hp with h | h | h <;> subst h <;> simp [reg_zxy, deps_at] at hd ⊢
  · rcases hd with h | h <;> simp [h]
  · simp [hd]

theorem fully_loaded_reg_zxy : fully_loaded reg_zxy := by
  intro p hp
  simp only [reg_zxy, List.mem_cons, List.mem_singleton, List.not_mem_nil, or_false] at hp
  rcases hp with h | h | h <;> subst h <;> simp [reg_zxy]

theorem acyclic_reg_zxy : acyclic reg_zxy.mem := by
  apply acyclic_of_rank _ (fun p => if p = 0 then 2 else if p = 2 then 1 else 0)
  intro a b hd
  unfold dep deps_at at hd
  match a with
  | 0 => simp [reg_zxy] at hd; rcases hd with h | h <;> simp [h]
  | 1 => simp [reg_zxy] at hd
  | 2 => simp [reg_zxy] at hd; simp [hd]
  | n + 3 => simp [reg_zxy] at hd

/-- C2 (cycle detection completeness): on a non-empty registry of V entities
that is closed under dependencies, fully loaded and acyclic, entered with the
sort flags clear, the pass loop halts after at most V passes and leaves every
registered entity resolved. -/
theorem cycle_detection_completeness (r : registry) (fuel : Nat) (hne : r.the_list ≠ [])
    (h0 : fresh r.mem) (hclosed : closed r) (hload : fully_loaded r) (hacyc : acyclic r.mem)
    (hf : r.the_list.length ≤ fuel) :
    ∃ t last, main_sort r fuel = some t ∧ t.getLast? = some last ∧
      t.length ≤ r.the_list.length ∧ ∀ p ∈ r.the_list, resolved_at last.mem p = true := by
  have hpos : 0 < r.the_list.length := List.length_pos.mpr hne
  obtain ⟨t, last, ht, hlast, htr, hlen⟩ := main_sort_returns r fuel (by omega)
  refine ⟨t, last, ht, hlast, by omega, ?_⟩
  intro p hp
  by_contra hnr
  have hur : resolved_at last.mem p = false := by simpa using hnr
  rcases (halt_unresolved_iff htr hlast h0 hload hclosed p hp).mp hur with hc | ⟨c, -, hc⟩
  · exact hacyc p hc
  · exact hacyc c hc

/-- C2 at the registry Z, X, Y: three passes resolve all three entities. -/
theorem cycle_detection_completeness_witness :
    reg_zxy.the_list ≠ [] ∧ fresh reg_zxy.mem ∧ closed reg_zxy ∧ fully_loaded reg_zxy ∧
    acyclic reg_zxy.mem ∧
    ∃ t last, main_sort reg_zxy 3 = some t ∧ t.getLast? = some last ∧
      t.length ≤ reg_zxy.the_list.length ∧ ∀ p ∈ reg_zxy.the_list, resolved_at last.mem p = true :=
  ⟨by decide, fresh_reg_zxy, closed_reg_zxy, fully_loaded_reg_zxy, acyclic_reg_zxy,
    cycle_detection_completeness reg_zxy 3 (by decide) fresh_reg_zxy closed_reg_zxy
      fully_loaded_reg_zxy acyclic_reg_zxy (by decide)⟩

theorem fresh_reg_pq (pn qn : String) : fresh (reg_pq pn qn).mem := by
  intro e he
  simp only [reg_pq, List.mem_cons, List.mem_singleton, List.not_mem_nil, or_false] at he
  rcases he with h | h <;> subst h <;> exact ⟨rfl, rfl⟩

theorem on_cycle_reg_pq (pn qn : String) : on_cycle (reg_pq pn qn).mem 0 := by
  have h01 : dep (reg_pq pn qn).mem 0 1 := by simp [dep, deps_at, reg_pq]
  have h10 : dep (reg_pq pn qn).mem 1 0 := by simp [dep, deps_at, reg_pq]
  exact Relation.TransGen.tail (Relation.TransGen.single h01) h10

/-- C3 (cycle detection soundness): entered with the sort flags clear, the
pass loop halts and an entity that lies on a dependency cycle is unresolved
after every pass it runs; for two loaded entities that depend on each other
the loop runs exactly one pass, which makes no progress (`deep = 0`) and
leaves both unresolved. -/
theorem cycle_detection_soundness :
    (∀ (r : registry) (fuel p : Nat), fresh r.mem → r.the_list.length < fuel →
      on_cycle r.mem p →
      ∃ t, main_sort r fuel = some t ∧ ∀ x ∈ t, resolved_at x.mem p = false) ∧
    (∀ (pn qn : String) (fuel : Nat), 0 < fuel →
      ∃ x, main_sort (reg_pq pn qn) fuel = some [x] ∧ x.deep = 0 ∧
        resolved_at x.mem 0 = false ∧ resolved_at x.mem 1 = false) := by
  constructor
  · intro r fuel p h0 hf hcyc
    obtain ⟨t, last, ht, -, htr, -⟩ := main_sort_returns r fuel (by omega)
    refine ⟨t, ht, ?_⟩
    intro x hx
    obtain ⟨k, hk⟩ := is_trace_layered htr (layered_of_fresh h0 0) x hx
    apply layered_cycle_unresolved hk
    left
    exact (reaches_same_shape (is_trace_same_shape htr x hx) p p).mpr hcyc
  · intro pn qn fuel hfuel
    obtain ⟨f, rfl⟩ : ∃ f, fuel = f + 1 := ⟨fuel - 1, by omega⟩
    refine ⟨pass [0, 1] (reg_pq pn qn).mem 0, ?_, ?_, ?_, ?_⟩ <;>
      simp [main_sort, sort_loop, reg_pq, pass, mark_step, resolve_step, all_deps_resolved,
        resolved_at]

/-- C3 at the registry of P and Q, for the entity P. -/
theorem cycle_detection_soundness_witness :
    fresh (reg_pq "P" "Q").mem ∧ on_cycle (reg_pq "P" "Q").mem 0 ∧
    ∃ t, main_sort (reg_pq "P" "Q") 3 = some t ∧ ∀ x ∈ t, resolved_at x.mem 0 = false :=
  ⟨fresh_reg_pq "P" "Q", on_cycle_reg_pq "P" "Q",
    cycle_detection_soundness.1 (reg_pq "P" "Q") 3 0 (fresh_reg_pq "P" "Q") (by decide)
      (on_cycle_reg_pq "P" "Q")⟩

theorem closed_reg_pq (pn qn : String) : closed (reg_pq pn qn) := by
  intro p hp d hd
  simp only [reg_pq, List.mem_cons, List.mem_singleton, List.not_mem_nil, or_false] at hp
  rcases hp with h | h <;> subst h <;> simp [reg_pq, deps_at] at hd ⊢ <;> simp [hd]

theorem fully_loaded_reg_pq (pn qn : String) : fully_loaded (reg_pq pn qn) := by
  intro p hp
  simp only [reg_pq, List.mem_cons, List.mem_singleton, List.not_mem_nil, or_false] at hp
  rcases hp with h | h <;> subst h <;> simp [reg_pq]

/-- C4 (exact cycle set): on a fully loaded registry closed under
dependencies, entered with the sort flags clear, the pass loop halts and a
registered entity is unresolved in the halting state if and only if it lies
on a dependency cycle or reaches, through one or more dependency edges, an
entity that lies on one. -/
theorem exact_cycle_set (r : registry) (fuel : Nat) (h0 : fresh r.mem)
    (hload : fully_loaded r) (hclosed : closed r) (hf : r.the_list.length < fuel) :
    ∃ t last, main_sort r fuel = some t ∧ t.getLast? = some last ∧
      ∀ p ∈ r.the_list, (resolved_at last.mem p = false ↔
        (on_cycle r.mem p ∨ ∃ c, reaches r.mem p c ∧ on_cycle r.mem c)) := by
  obtain ⟨t, last, ht, hlast, htr, -⟩ := main_sort_returns r fuel (by omega)
  exact ⟨t, last, ht, hlast, fun p hp => halt_unresolved_iff htr hlast h0 hload hclosed p hp⟩

/-- C4 at the registry of P and Q. -/
theorem exact_cycle_set_witness :
    fresh (reg_pq "P" "Q").mem ∧ fully_loaded (reg_pq "P" "Q") ∧ closed (reg_pq "P" "Q") ∧
    ∃ t last, main_sort (reg_pq "P" "Q") 3 = some t ∧ t.getLast? = some last ∧
      ∀ p ∈ (reg_pq "P" "Q").the_list, (resolved_at last.mem p = false ↔
        (on_cycle (reg_pq "P" "Q").mem p ∨
          ∃ c, reaches (reg_pq "P" "Q").mem p c ∧ on_cycle (reg_pq "P" "Q").mem c)) :=
  ⟨fresh_reg_pq "P" "Q", fully_loaded_reg_pq "P" "Q", closed_reg_pq "P" "Q",
    exact_cycle_set (reg_pq "P" "Q") 3 (fresh_reg_pq "P" "Q") (fully_loaded_reg_pq "P" "Q")
      (closed_reg_pq "P" "Q") (by decide)⟩

theorem is_trace_progress {the_list : List Nat} {mem : List s_entity} {lvl : Nat}
    {t : List pass_result} (ht : is_trace the_list mem lvl t) :
    ∀ (i : Nat) (x : pass_result), i + 1 < t.length → t[i]? = some x →
      x.deep ≠ 0 ∧ ∃ p ∈ the_list, printed_at (mem_before mem t i) p = false ∧
        printed_at x.mem p = true := by
  induction ht with
  | last mem lvl _ => intro i x hi; simp at hi
  | more mem lvl t hc _ ih =>
    intro i x hi hx
    cases i with
    | zero =>
      simp only [List.getElem?_cons_zero, Option.some.injEq] at hx
      subst hx
      refine ⟨hc.2, ?_⟩
      obtain ⟨p, hp, hr, hu⟩ := (pass_deep the_list mem lvl).mp hc.2
      exact ⟨p, hp, by simpa [mem_before] using hu, by simp [printed_at_pass, hp, hr]⟩
    | succ j =>
      simp only [List.getElem?_cons_succ] at hx
      simp only [List.length_cons] at hi
      simpa [mem_before] using ih j x (by omega) hx

/-- C10 (the pass loop halts): on every non-empty registry of V entities,
whatever the dependencies and the flags, the loop of `main` halts after at
least one and at most V passes, and every pass but the last one counts
progress (`deep` is not 0) and sets `is_printed` on a registered entity that
did not have it when the pass started. -/
theorem pass_loop_halts (r : registry) (fuel : Nat) (hne : r.the_list ≠ [])
    (hf : r.the_list.length ≤ fuel) :
    ∃ t, main_sort r fuel = some t ∧ 1 ≤ t.length ∧ t.length ≤ r.the_list.length ∧
      ∀ (i : Nat) (x : pass_result), i + 1 < t.length → t[i]? = some x →
        x.deep ≠ 0 ∧ ∃ p ∈ r.the_list, printed_at (mem_before r.mem t i) p = false ∧
          printed_at x.mem p = true := by
  have hpos : 0 < r.the_list.length := List.length_pos.mpr hne
  obtain ⟨t, last, ht, -, htr, hlen⟩ := main_sort_returns r fuel (by omega)
  have hne2 := List.length_pos.mpr (is_trace_ne_nil htr)
  exact ⟨t, ht, hne2, by omega, is_trace_progress htr⟩

/-- C10 at the registry Z, X, Y. -/
theorem pass_loop_halts_witness :
    reg_zxy.the_list ≠ [] ∧ reg_zxy.the_list.length ≤ 3 ∧
    ∃ t, main_sort reg_zxy 3 = some t ∧ 1 ≤ t.length ∧ t.length ≤ reg_zxy.the_list.length ∧
      ∀ (i : Nat) (x : pass_result), i + 1 < t.length → t[i]? = some x →
        x.deep ≠ 0 ∧ ∃ p ∈ reg_zxy.the_list, printed_at (mem_before reg_zxy.mem t i) p = false ∧
          printed_at x.mem p = true :=
  ⟨by decide, by decide, pass_loop_halts reg_zxy 3 (by decide) (by decide)⟩

/-! ## `strcmp` -/

theorem char_eq_of_toNat (a b : Char) (h : a.toNat = b.toNat) : a = b := by
  apply Char.ext
  cases a with | mk va ha =>
  cases b with | mk vb hb =>
  simp only [Char.toNat] at h
  cases va with | mk fa =>
  cases vb with | mk fb =>
  simp only [UInt32.toNat] at h
  congr
  exact BitVec.eq_of_toNat_eq h

theorem strcmp_chars_eq_zero : ∀ (a b : List Char), strcmp_chars a b = 0 ↔ a = b
  | [], [] => by simp [strcmp_chars]
  | [], _ :: _ => by simp [strcmp_chars]
  | _ :: _, [] => by simp [strcmp_chars]
  | x :: xs, y :: ys => by
    have ih := strcmp_chars_eq_zero xs ys
    unfold strcmp_chars
    by_cases h1 : x.toNat < y.toNat
    · have : x ≠ y := fun h => by subst h; omega
      simp [h1, this]
    · by_cases h2 : y.toNat < x.toNat
      · have : x ≠ y := fun h => by subst h; omega
        simp [h1, h2, this]
      · have hxy : x = y := char_eq_of_toNat x y (by omega)
        simp [h1, h2, ih, hxy]

theorem strcmp_eq_zero (a b : String) : strcmp a b = 0 ↔ a = b := by
  unfold strcmp
  rw [strcmp_chars_eq_zero, String.toList_inj]

/-! ## The registry -/

theorem find_entity_some {mem : List s_entity} {n : String} :
    ∀ {l : List Nat} {p : Nat}, find_entity mem n l = some p →
      p ∈ l ∧ name_at mem p = some n := by
  intro l
  induction l with
  | nil => intro p h; simp [find_entity] at h
  | cons q l ih =>
    intro p h
    unfold find_entity at h
    cases hq : mem[q]? with
    | none =>
      rw [hq] at h
      obtain ⟨h1, h2⟩ := ih h
      exact ⟨List.mem_cons_of_mem _ h1, h2⟩
    | some e =>
      rw [hq] at h
      simp only at h
      by_cases hn : strcmp e.name n = 0
      · rw [if_pos hn] at h
        cases h
        exact ⟨List.mem_cons_self _ _, by simp [name_at, hq, (strcmp_eq_zero _ _).mp hn]⟩
      · rw [if_neg hn] at h
        obtain ⟨h1, h2⟩ := ih h
        exact ⟨List.mem_cons_of_mem _ h1, h2⟩

theorem find_entity_none {mem : List s_entity} {n : String} :
    ∀ {l : List Nat}, find_entity mem n l = none ↔ ∀ p ∈ l, name_at mem p ≠ some n := by
  intro l
  induction l with
  | nil => simp [find_entity]
  | cons q l ih =>
    unfold find_entity
    cases hq : mem[q]? with
    | none => simp [ih, name_at, hq]
    | some e =>
      simp only
      by_cases hn : strcmp e.name n = 0
      · have := (strcmp_eq_zero _ _).mp hn
        rw [if_pos hn]
        simp [name_at, hq, this]
      · have hne : e.name ≠ n := fun h => hn ((strcmp_eq_zero _ _).mpr h)
        simp [hn, ih, name_at, hq, hne]

theorem find_entity_congr {mem mem2 : List s_entity} {n : String} :
    ∀ {l : List Nat}, (∀ p ∈ l, mem2[p]? = mem[p]?) →
      find_entity mem2 n l = find_entity mem n l := by
  intro l
  induction l with
  | nil => intro _; rfl
  | cons q l ih =>
    intro h
    unfold find_entity
    rw [h q (List.mem_cons_self _ _), ih (fun p hp => h p (List.mem_cons_of_mem _ hp))]

theorem find_entity_append {mem : List s_entity} {n : String} (k : Nat) :
    ∀ {l : List Nat}, find_entity mem n l = none →
      find_entity mem n (l ++ [k]) = find_entity mem n [k] := by
  intro l
  induction l with
  | nil => intro _; rfl
  | cons q l ih =>
    intro h
    unfold find_entity at h
    rw [List.cons_append]
    conv_lhs => unfold find_entity
    cases hq : mem[q]? with
    | none =>
      rw [hq] at h
      exact ih h
    | some e =>
      rw [hq] at h
      simp only at h ⊢
      by_cases hn : strcmp e.name n = 0
      · rw [if_pos hn] at h; cases h
      · rw [if_neg hn] at h ⊢
        exact ih h

theorem name_at_append_left {mem : List s_entity} (x : s_entity) {p : Nat}
    (hp : p < mem.length) : name_at (mem ++ [x]) p = name_at mem p := by
  unfold name_at
  rw [List.getElem?_append_left hp]

/-- C6 (registry lookup-or-create): on a registry with valid pointers and
pairwise distinct names, `create_entity n` returns the registered entity
named `n` and leaves the registry as it is when there is one; otherwise it
appends one entity named `n` with no dependencies, `lvl` 0 and the three
flags 0 behind the unchanged earlier entries and returns it; in both cases
the returned entity is registered and named `n`, the names stay pairwise
distinct, and a second call with `n` changes nothing and returns the same
entity. -/
theorem create_entity_spec (r : registry) (n : String) (hok : registry_ok r) :
    (∀ p ∈ r.the_list, name_at r.mem p = some n → create_entity r n = (r, p)) ∧
    ((∀ p ∈ r.the_list, name_at r.mem p ≠ some n) →
      (create_entity r n).1.mem = r.mem ++
        [{ name := n, deps := [], lvl := 0, was_loaded := false, is_printed := false,
           is_resolved := false }] ∧
      (create_entity r n).1.the_list = r.the_list ++ [(create_entity r n).2] ∧
      (create_entity r n).2 = r.mem.length) ∧
    ((create_entity r n).2 ∈ (create_entity r n).1.the_list ∧
      name_at (create_entity r n).1.mem (create_entity r n).2 = some n) ∧
    registry_ok (create_entity r n).1 ∧
    create_entity (create_entity r n).1 n = create_entity r n := by
  obtain ⟨hvalid, hnodup⟩ := hok
  cases hf : find_entity r.mem n r.the_list with
  | some q =>
    have hce : create_entity r n = (r, q) := by simp [create_entity, hf]
    obtain ⟨hq1, hq2⟩ := find_entity_some hf
    refine ⟨?_, ?_, ?_, ?_, ?_⟩
    · intro p hp hpn
      have : p = q := List.inj_on_of_nodup_map hnodup hp hq1 (by rw [hpn, hq2])
      rw [hce, this]
    · intro hnone
      exact absurd hq2 (hnone q hq1)
    · rw [hce]; exact ⟨hq1, hq2⟩
    · rw [hce]; exact ⟨hvalid, hnodup⟩
    · rw [hce]; exact hce
  | none =>
    have hce : create_entity r n =
        ({ mem := r.mem ++ [new_entity n], the_list := r.the_list ++ [r.mem.length] },
          r.mem.length) := by simp [create_entity, hf]
    have hnone := find_entity_none.mp hf
    have hnew : name_at (r.mem ++ [new_entity n]) r.mem.length = some n := by
      simp [name_at, new_entity]
    have hold : ∀ p ∈ r.the_list, name_at (r.mem ++ [new_entity n]) p = name_at r.mem p :=
      fun p hp => name_at_append_left _ (hvalid p hp)
    refine ⟨?_, ?_, ?_, ?_, ?_⟩
    · intro p hp hpn
      exact absurd hpn (hnone p hp)
    · intro _
      rw [hce]
      exact ⟨rfl, rfl, rfl⟩
    · rw [hce]
      exact ⟨by simp, hnew⟩
    · rw [hce]
      constructor
      · intro p hp
        simp only [List.mem_append, List.mem_singleton] at hp
        simp only [List.length_append, List.length_singleton]
        rcases hp with hp | hp
        · have := hvalid p hp; omega
        · omega
      · simp only [List.map_append, List.map_cons, List.map_nil, hnew]
        rw [List.map_congr_left hold]
        apply List.Nodup.append hnodup (List.nodup_singleton _)
        intro a ha1 ha2
        simp only [List.mem_singleton] at ha2
        subst ha2
        obtain ⟨p, hp, hpn⟩ := List.mem_map.mp ha1
        exact hnone p hp hpn
    · rw [hce]
      have h1 : find_entity (r.mem ++ [new_entity n]) n r.the_list = none := by
        rw [find_entity_congr (fun p hp => List.getElem?_append_left (hvalid p hp))]
        exact hf
      have h2 : find_entity (r.mem ++ [new_entity n]) n (r.the_list ++ [r.mem.length]) =
          some r.mem.length := by
        rw [find_entity_append _ h1]
        simp [find_entity, new_entity, (strcmp_eq_zero n n).mpr rfl]
      simp [create_entity, h2]

theorem registry_ok_empty : registry_ok empty_registry := by
  constructor
  · intro p hp; cases hp
  · simp [empty_registry]

/-- C6 at the empty registry and the name X. -/
theorem create_entity_spec_witness :
    registry_ok empty_registry ∧
    registry_ok (create_entity empty_registry "X").1 ∧
    create_entity (create_entity empty_registry "X").1 "X" = create_entity empty_registry "X" :=
  ⟨registry_ok_empty, (create_entity_spec empty_registry "X" registry_ok_empty).2.2.2.1,
    (create_entity_spec empty_registry "X" registry_ok_empty).2.2.2.2⟩

/-! ## `add_dep` -/

theorem dep_named_iff (mem : List s_entity) (n : String) :
    ∀ l : List Nat, dep_named mem n l = true ↔ ∃ d ∈ l, name_at mem d = some n := by
  intro l
  induction l with
  | nil => simp [dep_named]
  | cons q l ih =>
    unfold dep_named
    cases hq : mem[q]? with
    | none => simp [ih, name_at, hq]
    | some e =>
      simp only
      by_cases hn : strcmp e.name n = 0
      · have := (strcmp_eq_zero _ _).mp hn
        rw [if_pos hn]
        simp [name_at, hq, this]
      · have hne : e.name ≠ n := fun h => hn ((strcmp_eq_zero _ _).mpr h)
        rw [if_neg hn]
        simp [ih, name_at, hq, hne]

/-- What `add_dep` does, case by case. -/
theorem add_dep_cases (mem : List s_entity) (that add : Nat) (t a : s_entity)
    (ht : mem[that]? = some t) (ha : mem[add]? = some a) :
    (a.name = t.name → add_dep mem that add = mem) ∧
    ((∃ d ∈ t.deps, name_at mem d = some a.name) → add_dep mem that add = mem) ∧
    (a.name ≠ t.name → (∀ d ∈ t.deps, name_at mem d ≠ some a.name) →
      add_dep mem that add = mem.set that { t with deps := t.deps ++ [add] }) := by
  refine ⟨?_, ?_, ?_⟩
  · intro h
    have : strcmp t.name a.name = 0 := (strcmp_eq_zero _ _).mpr h.symm
    simp [add_dep, ht, ha, this]
  · intro h
    have : dep_named mem a.name t.deps = true := (dep_named_iff _ _ _).mpr h
    simp [add_dep, ht, ha, this]
  · intro h1 h2
    have hs : ¬ strcmp t.name a.name = 0 := fun h => h1 ((strcmp_eq_zero _ _).mp h).symm
    have hd : dep_named mem a.name t.deps = false := by
      cases hdn : dep_named mem a.name t.deps with
      | false => rfl
      | true =>
        obtain ⟨d, hd1, hd2⟩ := (dep_named_iff _ _ _).mp hdn
        exact absurd hd2 (h2 d hd1)
    simp [add_dep, ht, ha, hs, hd]

theorem add_dep_invalid (mem : List s_entity) (that add : Nat)
    (h : mem[that]? = none ∨ mem[add]? = none) : add_dep mem that add = mem := by
  unfold add_dep
  rcases h with h | h
  · rw [h]
  · rw [h]
    cases mem[that]? <;> rfl

theorem name_at_set_deps (mem : List s_entity) (that : Nat) (t : s_entity) (ds : List Nat)
    (ht : mem[that]? = some t) (p : Nat) :
    name_at (mem.set that { t with deps := ds }) p = name_at mem p := by
  unfold name_at
  rw [List.getElem?_set]
  by_cases hp : that = p
  · subst hp
    have hlt : that < mem.length := (List.getElem?_eq_some.mp ht).1
    simp [hlt, ht]
  · simp [hp]

theorem deps_at_set_deps (mem : List s_entity) (that : Nat) (t : s_entity) (ds : List Nat)
    (ht : mem[that]? = some t) (p : Nat) :
    deps_at (mem.set that { t with deps := ds }) p = if p = that then ds else deps_at mem p := by
  unfold deps_at
  rw [List.getElem?_set]
  by_cases hp : that = p
  · subst hp
    have hlt : that < mem.length := (List.getElem?_eq_some.mp ht).1
    simp [hlt]
  · have hp2 : ¬ p = that := fun h => hp h.symm
    simp [hp, hp2]

/-- The result of `add_dep` is the memory itself or the memory with `add`
appended to the dependencies of `that`; the second only for two allocated
entities with different names and no element of that name in the array. -/
theorem add_dep_result (mem : List s_entity) (that add : Nat) :
    add_dep mem that add = mem ∨
    ∃ t a, mem[that]? = some t ∧ mem[add]? = some a ∧ a.name ≠ t.name ∧
      (∀ d ∈ t.deps, name_at mem d ≠ some a.name) ∧
      add_dep mem that add = mem.set that { t with deps := t.deps ++ [add] } := by
  cases ht : mem[that]? with
  | none => left; exact add_dep_invalid _ _ _ (Or.inl ht)
  | some t =>
    cases ha : mem[add]? with
    | none => left; exact add_dep_invalid _ _ _ (Or.inr ha)
    | some a =>
      obtain ⟨h1, h2, h3⟩ := add_dep_cases mem that add t a ht ha
      by_cases hn : a.name = t.name
      · left; exact h1 hn
      · by_cases hd : ∃ d ∈ t.deps, name_at mem d = some a.name
        · left; exact h2 hd
        · push_neg at hd
          right
          exact ⟨t, a, rfl, rfl, hn, hd, h3 hn hd⟩

theorem name_at_add_dep (mem : List s_entity) (that add p : Nat) :
    name_at (add_dep mem that add) p = name_at mem p := by
  rcases add_dep_result mem that add with h | ⟨t, a, ht, -, -, -, h⟩
  · rw [h]
  · rw [h, name_at_set_deps _ _ _ _ ht]

theorem deps_ok_add_dep (mem : List s_entity) (that add p : Nat) (h : deps_ok mem p) :
    deps_ok (add_dep mem that add) p := by
  rcases add_dep_result mem that add with he | ⟨t, a, ht, ha, hn, hd, he⟩
  · rw [he]; exact h
  · have hname : ∀ q, name_at (add_dep mem that add) q = name_at mem q :=
      name_at_add_dep mem that add
    have hfun : name_at (add_dep mem that add) = name_at mem := funext hname
    unfold deps_ok
    rw [hfun, he, deps_at_set_deps _ _ _ _ ht]
    by_cases hp : p = that
    · subst hp
      simp only [if_true]
      have hdeps : deps_at mem p = t.deps := deps_at_eq ht
      obtain ⟨h1, h2⟩ := h
      rw [hdeps] at h1 h2
      constructor
      · intro d hd2
        rcases List.mem_append.mp hd2 with hd2 | hd2
        · exact h1 d hd2
        · simp only [List.mem_singleton] at hd2
          subst hd2
          refine ⟨a.name, by simp [name_at, ha], ?_⟩
          simp only [name_at, ht, Option.map_some', ne_eq, Option.some.injEq]
          exact fun h => hn h.symm
      · rw [List.map_append]
        apply List.Nodup.append h2 (by simp)
        intro x hx1 hx2
        simp only [List.map_cons, List.map_nil, List.mem_singleton] at hx2
        subst hx2
        obtain ⟨d, hd1, hd2⟩ := List.mem_map.mp hx1
        have : name_at mem add = some a.name := by simp [name_at, ha]
        rw [this] at hd2
        exact hd d hd1 hd2
    · simp only [hp, if_false]
      exact h

theorem deps_ok_add_deps (calls : List (Nat × Nat)) :
    ∀ (mem : List s_entity) (p : Nat), deps_ok mem p → deps_ok (add_deps mem calls) p := by
  induction calls with
  | nil => intro mem p h; exact h
  | cons c calls ih =>
    intro mem p h
    exact ih _ p (deps_ok_add_dep mem c.1 c.2 p h)

theorem add_dep_idem (mem : List s_entity) (that add : Nat) :
    add_dep (add_dep mem that add) that add = add_dep mem that add := by
  rcases add_dep_result mem that add with he | ⟨t, a, ht, ha, hn, hd, he⟩
  · rw [he, he]
  · have hlt : that < mem.length := (List.getElem?_eq_some.mp ht).1
    have hne : that ≠ add := by
      intro h
      subst h
      rw [ht] at ha
      cases ha
      exact hn rfl
    have ht2 : (add_dep mem that add)[that]? = some { t with deps := t.deps ++ [add] } := by
      rw [he, List.getElem?_set]
      simp [hlt]
    have ha2 : (add_dep mem that add)[add]? = some a := by
      rw [he, List.getElem?_set_ne hne, ha]
    refine (add_dep_cases _ that add _ a ht2 ha2).2.1 ⟨add, by simp, ?_⟩
    rw [name_at_add_dep]
    simp [name_at, ha]

theorem name_at_add_deps (calls : List (Nat × Nat)) :
    ∀ (mem : List s_entity) (p : Nat), name_at (add_deps mem calls) p = name_at mem p := by
  induction calls with
  | nil => intro mem p; rfl
  | cons c calls ih =>
    intro mem p
    show name_at (add_deps (add_dep mem c.1 c.2) calls) p = name_at mem p
    rw [ih, name_at_add_dep]

theorem deps_ok_of_nil {mem : List s_entity} {that : Nat} (h : deps_at mem that = []) :
    deps_ok mem that := by
  unfold deps_ok
  rw [h]
  refine ⟨?_, ?_⟩
  · intro d hd; cases hd
  · simp

theorem name_at_some {mem : List s_entity} {p : Nat} {n : String} (h : name_at mem p = some n) :
    ∃ e, mem[p]? = some e ∧ e.name = n := by
  unfold name_at at h
  cases hp : mem[p]? with
  | none => rw [hp] at h; cases h
  | some e => rw [hp] at h; exact ⟨e, rfl, by simpa using h⟩

/-- After `add_dep (that, add)` on two allocated entities with different
names, in a memory with pairwise distinct names, `add` is an element of the
dependencies of `that`. -/
theorem mem_deps_add_dep {mem : List s_entity} {that add : Nat} {tn an : String}
    (hthat : name_at mem that = some tn) (hadd : name_at mem add = some an) (hne : an ≠ tn)
    (hdist : ∀ p q : Nat, name_at mem p = some an → name_at mem q = some an → p = q) :
    add ∈ deps_at (add_dep mem that add) that := by
  obtain ⟨t, ht, htn⟩ := name_at_some hthat
  obtain ⟨a, ha, han⟩ := name_at_some hadd
  subst htn han
  obtain ⟨h1, h2, h3⟩ := add_dep_cases mem that add t a ht ha
  by_cases hd : ∃ d ∈ t.deps, name_at mem d = some a.name
  · rw [h2 hd, deps_at_eq ht]
    obtain ⟨d, hd1, hd2⟩ := hd
    have : d = add := hdist d add hd2 hadd
    rw [← this]
    exact hd1
  · push_neg at hd
    rw [h3 hne hd, deps_at_set_deps _ _ _ _ ht]
    simp

/-- C7 (dependency edges): `add_dep (that, add)` changes nothing when the two
names are equal or when an element of `that.deps` carries the name of `add`,
and otherwise appends `add` behind the unchanged elements of `that.deps`;
starting from an empty `deps`, after any sequence of `add_dep` calls no
element of `that.deps` is named like `that`, no two elements carry the same
name (so no pointer occurs twice), a repeated call changes nothing, and after
calling `add_dep` twice with a pair of differently named entities the target
occurs exactly once. -/
theorem dependency_edges :
    (∀ (mem : List s_entity) (that add : Nat) (t a : s_entity),
      mem[that]? = some t → mem[add]? = some a →
      (a.name = t.name → add_dep mem that add = mem) ∧
      ((∃ d ∈ t.deps, name_at mem d = some a.name) → add_dep mem that add = mem) ∧
      (a.name ≠ t.name → (∀ d ∈ t.deps, name_at mem d ≠ some a.name) →
        add_dep mem that add = mem.set that { t with deps := t.deps ++ [add] } ∧
        deps_at (add_dep mem that add) that = t.deps ++ [add])) ∧
    (∀ (mem : List s_entity) (that : Nat) (calls : List (Nat × Nat)),
      deps_at mem that = [] →
      (∀ d ∈ deps_at (add_deps mem calls) that, ∃ n, name_at (add_deps mem calls) d = some n ∧
        name_at (add_deps mem calls) that ≠ some n) ∧
      ((deps_at (add_deps mem calls) that).map (name_at (add_deps mem calls))).Nodup ∧
      (deps_at (add_deps mem calls) that).Nodup) ∧
    (∀ (mem : List s_entity) (that add : Nat),
      add_dep (add_dep mem that add) that add = add_dep mem that add) ∧
    (∀ (mem : List s_entity) (that add : Nat) (tn an : String) (calls : List (Nat × Nat)),
      deps_at mem that = [] → name_at mem that = some tn → name_at mem add = some an →
      an ≠ tn → (∀ p q : Nat, name_at mem p = some an → name_at mem q = some an → p = q) →
      (deps_at (add_dep (add_dep (add_deps mem calls) that add) that add) that).count add = 1 ∧
      deps_at (add_dep (add_dep mem that add) that add) that = [add]) := by
  refine ⟨?_, ?_, ?_, ?_⟩
  · intro mem that add t a ht ha
    obtain ⟨h1, h2, h3⟩ := add_dep_cases mem that add t a ht ha
    refine ⟨h1, h2, fun hn hd => ⟨h3 hn hd, ?_⟩⟩
    rw [h3 hn hd, deps_at_set_deps _ _ _ _ ht]
    simp
  · intro mem that calls h0
    have hok := deps_ok_add_deps calls mem that (deps_ok_of_nil h0)
    exact ⟨hok.1, hok.2, List.Nodup.of_map _ hok.2⟩
  · exact add_dep_idem
  · intro mem that add tn an calls h0 hthat hadd hne hdist
    constructor
    · rw [add_dep_idem]
      have hok := deps_ok_add_dep _ that add that
        (deps_ok_add_deps calls mem that (deps_ok_of_nil h0))
      have hnd : (deps_at (add_dep (add_deps mem calls) that add) that).Nodup :=
        List.Nodup.of_map _ hok.2
      apply List.count_eq_one_of_mem hnd
      apply @mem_deps_add_dep _ that add tn an
      · rw [name_at_add_deps]; exact hthat
      · rw [name_at_add_deps]; exact hadd
      · exact hne
      · intro p q hp hq
        rw [name_at_add_deps] at hp hq
        exact hdist p q hp hq
    · rw [add_dep_idem]
      obtain ⟨t, ht, htn⟩ := name_at_some hthat
      obtain ⟨a, ha, han⟩ := name_at_some hadd
      subst htn han
      have hd : t.deps = [] := by rw [← deps_at_eq ht]; exact h0
      have hnone : ∀ d ∈ t.deps, name_at mem d ≠ some a.name := by
        intro d hd2; rw [hd] at hd2; cases hd2
      rw [(add_dep_cases mem that add t a ht ha).2.2 hne hnone, deps_at_set_deps _ _ _ _ ht, hd]
      simp

/-- C7 on two fresh entities A and B: after the calls `add_dep (A, A)`,
`add_dep (A, B)`, `add_dep (A, B)` the dependencies of A are exactly B. -/
theorem dependency_edges_witness :
    deps_at mem_ab 0 = [] ∧
    deps_at (add_deps mem_ab [(0, 0), (0, 1), (0, 1)]) 0 = [1] ∧
    ((∀ d ∈ deps_at (add_deps mem_ab [(0, 0), (0, 1), (0, 1)]) 0,
        ∃ n, name_at (add_deps mem_ab [(0, 0), (0, 1), (0, 1)]) d = some n ∧
          name_at (add_deps mem_ab [(0, 0), (0, 1), (0, 1)]) 0 ≠ some n) ∧
      ((deps_at (add_deps mem_ab [(0, 0), (0, 1), (0, 1)]) 0).map
        (name_at (add_deps mem_ab [(0, 0), (0, 1), (0, 1)]))).Nodup ∧
      (deps_at (add_deps mem_ab [(0, 0), (0, 1), (0, 1)]) 0).Nodup) :=
  ⟨by decide, by decide, dependency_edges.2.1 mem_ab 0 [(0, 0), (0, 1), (0, 1)] (by decide)⟩

/-! ## The edge reducer -/

theorem sub_deps_loop_true {f : Nat → Option Bool} {seek : Nat} :
    ∀ {l : List Nat}, sub_deps_loop f seek l = some true →
      ∃ d ∈ l, d = seek ∨ f d = some true := by
  intro l
  induction l with
  | nil => intro h; simp [sub_deps_loop] at h
  | cons d ds ih =>
    intro h
    unfold sub_deps_loop at h
    by_cases hd : d = seek
    · exact ⟨d, List.mem_cons_self _ _, Or.inl hd⟩
    · rw [if_neg hd] at h
      cases hf : f d with
      | none => rw [hf] at h; cases h
      | some b =>
        cases b with
        | true => exact ⟨d, List.mem_cons_self _ _, Or.inr hf⟩
        | false =>
          rw [hf] at h
          obtain ⟨x, hx, hx2⟩ := ih h
          exact ⟨x, List.mem_cons_of_mem _ hx, hx2⟩

theorem sub_deps_loop_false {f : Nat → Option Bool} {seek : Nat} :
    ∀ {l : List Nat}, sub_deps_loop f seek l = some false →
      ∀ d ∈ l, d ≠ seek ∧ f d = some false := by
  intro l
  induction l with
  | nil => intro _ d hd; cases hd
  | cons d ds ih =>
    intro h
    unfold sub_deps_loop at h
    by_cases hd : d = seek
    · rw [if_pos hd] at h; cases h
    · rw [if_neg hd] at h
      cases hf : f d with
      | none => rw [hf] at h; cases h
      | some b =>
        cases b with
        | true => rw [hf] at h; cases h
        | false =>
          rw [hf] at h
          intro x hx
          rcases List.mem_cons.mp hx with hx | hx
          · subst hx; exact ⟨hd, hf⟩
          · exact ih h x hx

theorem sub_deps_loop_some {f : Nat → Option Bool} {seek : Nat} :
    ∀ {l : List Nat}, (∀ d ∈ l, ∃ b, f d = some b) → ∃ b, sub_deps_loop f seek l = some b := by
  intro l
  induction l with
  | nil => intro _; exact ⟨false, rfl⟩
  | cons d ds ih =>
    intro h
    unfold sub_deps_loop
    by_cases hd : d = seek
    · exact ⟨true, by rw [if_pos hd]⟩
    · rw [if_neg hd]
      obtain ⟨b, hb⟩ := h d (List.mem_cons_self _ _)
      rw [hb]
      cases b with
      | true => exact ⟨true, rfl⟩
      | false => exact ih (fun x hx => h x (List.mem_cons_of_mem _ hx))

theorem reaches_iff_dep (mem : List s_entity) (a c : Nat) :
    reaches mem a c ↔ ∃ d ∈ deps_at mem a, d = c ∨ reaches mem d c := by
  unfold reaches
  rw [Relation.TransGen.head'_iff]
  constructor
  · rintro ⟨b, hab, hbc⟩
    refine ⟨b, hab, ?_⟩
    rcases Relation.reflTransGen_iff_eq_or_transGen.mp hbc with h | h
    · exact Or.inl h.symm
    · exact Or.inr h
  · rintro ⟨d, hd, h | h⟩
    · exact ⟨d, hd, h ▸ Relation.ReflTransGen.refl⟩
    · exact ⟨d, hd, Relation.TransGen.to_reflTransGen h⟩

/-- When `in_sub_deps` returns, it returns non-zero exactly when `seek` is
reachable from `it` through one or more dependency edges. -/
theorem in_sub_deps_correct (mem : List s_entity) (seek : Nat) :
    ∀ (fuel it : Nat) (b : Bool), in_sub_deps fuel mem it seek = some b →
      (b = true ↔ reaches mem it seek) := by
  intro fuel
  induction fuel with
  | zero => intro it b h; simp [in_sub_deps] at h
  | succ f ih =>
    intro it b h
    unfold in_sub_deps at h
    rw [reaches_iff_dep]
    cases b with
    | true =>
      obtain ⟨d, hd, hd2⟩ := sub_deps_loop_true h
      simp only [true_iff]
      refine ⟨d, hd, ?_⟩
      rcases hd2 with hd2 | hd2
      · exact Or.inl hd2
      · exact Or.inr ((ih d true hd2).mp rfl)
    | false =>
      have hall := sub_deps_loop_false h
      simp only [Bool.false_eq_true, false_iff]
      rintro ⟨d, hd, hd2⟩
      obtain ⟨h1, h2⟩ := hall d hd
      rcases hd2 with hd2 | hd2
      · exact h1 hd2
      · have := (ih d false h2).mpr hd2
        cases this

theorem length_le_of_nodup_lt {l : List Nat} {n : Nat} (hnd : l.Nodup) (h : ∀ v ∈ l, v < n) :
    l.length ≤ n := by
  have hsub : l ⊆ List.range n := fun v hv => List.mem_range.mpr (h v hv)
  have := (List.subperm_of_subset hnd hsub).length_le
  simpa using this

theorem lt_length_of_dep {mem : List s_entity} {a d : Nat} (h : d ∈ deps_at mem a) :
    a < mem.length := by
  unfold deps_at at h
  cases ha : mem[a]? with
  | none => rw [ha] at h; cases h
  | some e => exact (List.getElem?_eq_some.mp ha).1

/-- On an acyclic graph the recursion of `in_sub_deps` ends: a depth bound
above the number of entities not yet on the path is enough. -/
theorem in_sub_deps_returns {mem : List s_entity} (hac : acyclic mem) (seek : Nat) :
    ∀ (fuel it : Nat) (visited : List Nat), visited.Nodup →
      (∀ v ∈ visited, v < mem.length ∧ reaches mem v it) →
      mem.length < visited.length + fuel →
      ∃ b, in_sub_deps fuel mem it seek = some b := by
  intro fuel
  induction fuel with
  | zero =>
    intro it visited hnd hv hlen
    have := length_le_of_nodup_lt hnd (fun v hvm => (hv v hvm).1)
    omega
  | succ f ih =>
    intro it visited hnd hv hlen
    unfold in_sub_deps
    apply sub_deps_loop_some
    intro d hd
    apply ih d (it :: visited)
    · apply List.nodup_cons.mpr
      refine ⟨fun hmem => hac it (hv it hmem).2, hnd⟩
    · intro v hvm
      rcases List.mem_cons.mp hvm with hvm | hvm
      · subst hvm
        exact ⟨lt_length_of_dep hd, Relation.TransGen.single hd⟩
      · exact ⟨(hv v hvm).1, Relation.TransGen.tail (hv v hvm).2 hd⟩
    · simp only [List.length_cons]
      omega

theorem in_deps_loop_true {f : Nat → Option Bool} {it ig : Nat} :
    ∀ {l : List Nat} {i : Nat}, in_deps_loop f it ig i l = some true →
      ∃ k d, l[k]? = some d ∧ i + k ≠ ig ∧ (d = it ∨ f d = some true) := by
  intro l
  induction l with
  | nil => intro i h; simp [in_deps_loop] at h
  | cons d ds ih =>
    intro i h
    unfold in_deps_loop at h
    by_cases hi : i = ig
    · rw [if_pos hi] at h
      obtain ⟨k, x, hk, hne, hx⟩ := ih h
      exact ⟨k + 1, x, by simpa using hk, by omega, hx⟩
    · rw [if_neg hi] at h
      by_cases hd : d = it
      · exact ⟨0, d, by simp, by omega, Or.inl hd⟩
      · rw [if_neg hd] at h
        cases hf : f d with
        | none => rw [hf] at h; cases h
        | some b =>
          cases b with
          | true => exact ⟨0, d, by simp, by omega, Or.inr hf⟩
          | false =>
            rw [hf] at h
            obtain ⟨k, x, hk, hne, hx⟩ := ih h
            exact ⟨k + 1, x, by simpa using hk, by omega, hx⟩

theorem in_deps_loop_false {f : Nat → Option Bool} {it ig : Nat} :
    ∀ {l : List Nat} {i : Nat}, in_deps_loop f it ig i l = some false →
      ∀ k d, l[k]? = some d → i + k ≠ ig → d ≠ it ∧ f d = some false := by
  intro l
  induction l with
  | nil => intro i _ k d hk; simp at hk
  | cons d ds ih =>
    intro i h k x hk hne
    unfold in_deps_loop at h
    by_cases hi : i = ig
    · rw [if_pos hi] at h
      cases k with
      | zero => omega
      | succ j => exact ih h j x (by simpa using hk) (by omega)
    · rw [if_neg hi] at h
      by_cases hd : d = it
      · rw [if_pos hd] at h; cases h
      · rw [if_neg hd] at h
        cases hf : f d with
        | none => rw [hf] at h; cases h
        | some b =>
          cases b with
          | true => rw [hf] at h; cases h
          | false =>
            rw [hf] at h
            cases k with
            | zero =>
              simp only [List.getElem?_cons_zero, Option.some.injEq] at hk
              subst hk
              exact ⟨hd, hf⟩
            | succ j => exact ih h j x (by simpa using hk) (by omega)

theorem in_deps_loop_some {f : Nat → Option Bool} {it ig : Nat} :
    ∀ {l : List Nat} {i : Nat}, (∀ d ∈ l, ∃ b, f d = some b) →
      ∃ b, in_deps_loop f it ig i l = some b := by
  intro l
  induction l with
  | nil => intro i _; exact ⟨false, rfl⟩
  | cons d ds ih =>
    intro i h
    unfold in_deps_loop
    have hrest := fun j => @ih j (fun x hx => h x (List.mem_cons_of_mem _ hx))
    by_cases hi : i = ig
    · rw [if_pos hi]; exact hrest _
    · rw [if_neg hi]
      by_cases hd : d = it
      · exact ⟨true, by rw [if_pos hd]⟩
      · rw [if_neg hd]
        obtain ⟨b, hb⟩ := h d (List.mem_cons_self _ _)
        rw [hb]
        cases b with
        | true => exact ⟨true, rfl⟩
        | false => exact hrest _

theorem acyclic_mem_abc : acyclic mem_abc := by
  apply acyclic_of_rank _ (fun p => if p = 0 then 2 else if p = 2 then 1 else 0)
  intro a b hd
  unfold dep deps_at at hd
  match a with
  | 0 => simp [mem_abc] at hd; rcases hd with h | h <;> simp [h]
  | 1 => simp [mem_abc] at hd
  | 2 => simp [mem_abc] at hd; simp [hd]
  | n + 3 => simp [mem_abc] at hd

/-- On an acyclic graph `in_deps (e, i)` returns, and it returns non-zero
exactly when another element of `e.deps` reaches `e.deps[i]`. -/
theorem in_deps_spec {mem : List s_entity} {fuel e i d : Nat} {ent : s_entity}
    (hac : acyclic mem) (he : mem[e]? = some ent) (hnd : ent.deps.Nodup)
    (hi : ent.deps[i]? = some d) (hfuel : mem.length < fuel) :
    ∃ b, in_deps fuel mem e i = some b ∧
      (b = true ↔ ∃ d' ∈ ent.deps, d' ≠ d ∧ reaches mem d' d) := by
  have hdeps : deps_at mem e = ent.deps := deps_at_eq he
  have hret : ∀ x, ∃ b, in_sub_deps fuel mem x d = some b := by
    intro x
    apply in_sub_deps_returns hac d fuel x [] List.nodup_nil
    · intro v hv; cases hv
    · simp only [List.length_nil]; omega
  obtain ⟨b, hb⟩ := @in_deps_loop_some (fun x => in_sub_deps fuel mem x d) d i ent.deps 0
    (fun x _ => hret x)
  have hin : in_deps fuel mem e i = some b := by
    unfold in_deps
    rw [hdeps, hi]
    exact hb
  refine ⟨b, hin, ?_⟩
  cases b with
  | true =>
    simp only [true_iff]
    obtain ⟨k, x, hk, hne, hx⟩ := in_deps_loop_true hb
    have hki : k ≠ i := by omega
    have hxd : x ≠ d := by
      intro hxd
      subst hxd
      have h1 := List.getElem?_eq_some.mp hk
      have h2 := List.getElem?_eq_some.mp hi
      obtain ⟨hk1, hk2⟩ := h1
      obtain ⟨hi1, hi2⟩ := h2
      have := (List.Nodup.getElem_inj_iff hnd).mp (hk2.trans hi2.symm)
      exact hki this
    refine ⟨x, List.getElem?_mem hk, hxd, ?_⟩
    rcases hx with hx | hx
    · exact absurd hx hxd
    · exact (in_sub_deps_correct mem d fuel x true hx).mp rfl
  | false =>
    simp only [Bool.false_eq_true, false_iff]
    rintro ⟨x, hx, hxd, hreach⟩
    obtain ⟨k, hk⟩ := List.mem_iff_getElem?.mp hx
    have hki : 0 + k ≠ i := by
      intro h
      have : k = i := by omega
      subst this
      rw [hi] at hk
      cases hk
      exact hxd rfl
    obtain ⟨-, h2⟩ := in_deps_loop_false hb k x hk hki
    have := (in_sub_deps_correct mem d fuel x false h2).mpr hreach
    cases this

/-- C8 (edge reducer): on an acyclic dependency graph, for an entity `e`
whose array `deps` holds no pointer twice and `d = e.deps[i]`, the call
`in_deps (e, i)` returns for every depth bound above the number of entities,
and it returns non-zero exactly when `d` is reachable through dependency
edges from another element `d'` of `e.deps`, `d'` different from `d`.  With A
depending on B and C, and C on B, the edge A-B is suppressed and the edges
A-C and C-B are not. -/
theorem edge_reducer :
    (∀ (mem : List s_entity) (fuel e i d : Nat) (ent : s_entity),
      acyclic mem → mem[e]? = some ent → ent.deps.Nodup → ent.deps[i]? = some d →
      mem.length < fuel →
      ∃ b, in_deps fuel mem e i = some b ∧
        (b = true ↔ ∃ d' ∈ ent.deps, d' ≠ d ∧ reaches mem d' d)) ∧
    (in_deps 4 mem_abc 0 0 = some true ∧ in_deps 4 mem_abc 0 1 = some false ∧
      in_deps 4 mem_abc 2 0 = some false) := by
  exact ⟨fun mem fuel e i d ent hac he hnd hi hfuel => in_deps_spec hac he hnd hi hfuel,
    by decide⟩

/-- C8 at the graph A, B, C, for the edge from A to B. -/
theorem edge_reducer_witness :
    acyclic mem_abc ∧
    ∃ b, in_deps 4 mem_abc 0 0 = some b ∧
      (b = true ↔ ∃ d' ∈ ([1, 2] : List Nat), d' ≠ 1 ∧ reaches mem_abc d' 1) :=
  ⟨acyclic_mem_abc,
    edge_reducer.1 mem_abc 4 0 0 1
      { name := "A", deps := [1, 2], lvl := 0, was_loaded := true,
        is_printed := false, is_resolved := false }
      acyclic_mem_abc (by decide) (by decide) (by decide) (by decide)⟩

/-! ## The presentation order -/

theorem strcmp_chars_antisymm : ∀ (a b : List Char), strcmp_chars b a = - strcmp_chars a b
  | [], [] => by simp [strcmp_chars]
  | [], _ :: _ => by simp [strcmp_chars]
  | _ :: _, [] => by simp [strcmp_chars]
  | x :: xs, y :: ys => by
    have ih := strcmp_chars_antisymm xs ys
    unfold strcmp_chars
    by_cases h1 : x.toNat < y.toNat
    · have h2 : ¬ y.toNat < x.toNat := by omega
      simp [h1, h2]
    · by_cases h2 : y.toNat < x.toNat
      · simp [h1, h2]
      · simp [h1, h2, ih]

theorem strcmp_chars_trans : ∀ (a b c : List Char),
    strcmp_chars a b ≤ 0 → strcmp_chars b c ≤ 0 → strcmp_chars a c ≤ 0
  | [], _, [] => by intro _ _; simp [strcmp_chars]
  | [], _, _ :: _ => by intro _ _; simp [strcmp_chars]
  | _ :: _, [], _ => by intro h _; simp [strcmp_chars] at h
  | _ :: _, _ :: _, [] => by intro _ h; simp [strcmp_chars] at h
  | x :: xs, y :: ys, z :: zs => by
    have ih := strcmp_chars_trans xs ys zs
    intro h1 h2
    unfold strcmp_chars at h1 h2 ⊢
    by_cases hxy : x.toNat < y.toNat
    · by_cases hyz : y.toNat < z.toNat
      · have : x.toNat < z.toNat := by omega
        simp [this]
      · by_cases hzy : z.toNat < y.toNat
        · simp [hyz, hzy] at h2
        · have : x.toNat < z.toNat := by omega
          simp [this]
    · by_cases hyx : y.toNat < x.toNat
      · simp [hxy, hyx] at h1
      · simp only [hxy, hyx, if_false] at h1
        by_cases hyz : y.toNat < z.toNat
        · have : x.toNat < z.toNat := by omega
          simp [this]
        · by_cases hzy : z.toNat < y.toNat
          · simp [hyz, hzy] at h2
          · simp only [hyz, hzy, if_false] at h2
            have h3 : ¬ x.toNat < z.toNat := by omega
            have h4 : ¬ z.toNat < x.toNat := by omega
            simp only [h3, h4, if_false]
            exact ih h1 h2

theorem fn_sort_depth_le_iff {mem : List s_entity} {a b : Nat} (ha : a < mem.length)
    (hb : b < mem.length) : fn_sort_depth mem a b ≤ 0 ↔ key_le mem a b := by
  unfold fn_sort_depth key_le
  rw [List.getElem?_eq_getElem ha, List.getElem?_eq_getElem hb]
  simp only [Option.some.injEq, exists_and_left, exists_eq_left']
  by_cases h1 : mem[a].lvl = mem[b].lvl
  · by_cases h2 : mem[a].dep_cnt = mem[b].dep_cnt
    · simp [h1, h2]
    · by_cases h3 : mem[a].dep_cnt < mem[b].dep_cnt
      · simp [h1, h2, h3]
      · simp [h1, h2, h3]
  · by_cases h3 : mem[a].lvl < mem[b].lvl
    · simp [h1, h3]
    · have h4 : ¬ mem[a].lvl = mem[b].lvl := h1
      simp [h1, h3]

theorem key_le_total {mem : List s_entity} {a b : Nat} (ha : a < mem.length)
    (hb : b < mem.length) : key_le mem a b ∨ key_le mem b a := by
  unfold key_le
  rw [List.getElem?_eq_getElem ha, List.getElem?_eq_getElem hb]
  simp only [Option.some.injEq, exists_and_left, exists_eq_left']
  have hs := strcmp_chars_antisymm mem[a].name.toList mem[b].name.toList
  unfold strcmp
  rcases Nat.lt_trichotomy mem[a].lvl mem[b].lvl with h | h | h
  · left; left; exact h
  · rcases Nat.lt_trichotomy mem[a].dep_cnt mem[b].dep_cnt with h2 | h2 | h2
    · left; right; exact ⟨h, Or.inl h2⟩
    · by_cases h3 : strcmp_chars mem[a].name.toList mem[b].name.toList ≤ 0
      · left; right; exact ⟨h, Or.inr ⟨h2, h3⟩⟩
      · right; right; exact ⟨h.symm, Or.inr ⟨h2.symm, by omega⟩⟩
    · right; right; exact ⟨h.symm, Or.inl h2⟩
  · right; left; exact h

theorem key_le_trans {mem : List s_entity} {a b c : Nat} (h1 : key_le mem a b)
    (h2 : key_le mem b c) : key_le mem a c := by
  obtain ⟨ea, eb, hea, heb, h1⟩ := h1
  obtain ⟨eb2, ec, heb2, hec, h2⟩ := h2
  rw [heb] at heb2
  cases heb2
  refine ⟨ea, ec, hea, hec, ?_⟩
  have hs := strcmp_chars_trans ea.name.toList eb.name.toList ec.name.toList
  unfold strcmp at h1 h2 ⊢
  rcases h1 with h1 | ⟨h1, h1b | ⟨h1b, h1c⟩⟩ <;> rcases h2 with h2 | ⟨h2, h2b | ⟨h2b, h2c⟩⟩
  · left; omega
  · left; omega
  · left; omega
  · left; omega
  · right; exact ⟨by omega, Or.inl (by omega)⟩
  · right; exact ⟨by omega, Or.inl (by omega)⟩
  · left; omega
  · right; exact ⟨by omega, Or.inl (by omega)⟩
  · right; exact ⟨by omega, Or.inr ⟨by omega, hs h1c h2c⟩⟩

theorem sorted_orderedInsert_on (r : Nat → Nat → Prop) [DecidableRel r] (S : Nat → Prop)
    (htot : ∀ a b, S a → S b → r a b ∨ r b a)
    (htr : ∀ a b c, S a → S b → S c → r a b → r b c → r a c) :
    ∀ (l : List Nat) (a : Nat), S a → (∀ x ∈ l, S x) → l.Sorted r →
      (l.orderedInsert r a).Sorted r := by
  intro l
  induction l with
  | nil => intro a _ _ _; simp
  | cons b l ih =>
    intro a ha hS hs
    have hb : S b := hS b (List.mem_cons_self _ _)
    have hl : ∀ x ∈ l, S x := fun x hx => hS x (List.mem_cons_of_mem _ hx)
    obtain ⟨hbl, hsl⟩ := List.sorted_cons.mp hs
    by_cases hab : r a b
    · rw [List.orderedInsert, if_pos hab]
      apply List.sorted_cons.mpr
      refine ⟨?_, hs⟩
      intro x hx
      rcases List.mem_cons.mp hx with hx | hx
      · rw [hx]; exact hab
      · exact htr a b x ha hb (hl x hx) hab (hbl x hx)
    · rw [List.orderedInsert, if_neg hab]
      apply List.sorted_cons.mpr
      refine ⟨?_, ih a ha hl hsl⟩
      intro x hx
      rcases (List.mem_orderedInsert r).mp hx with hx | hx
      · rw [hx]
        rcases htot a b ha hb with h | h
        · exact absurd h hab
        · exact h
      · exact hbl x hx

theorem sorted_insertionSort_on (r : Nat → Nat → Prop) [DecidableRel r] (S : Nat → Prop)
    (htot : ∀ a b, S a → S b → r a b ∨ r b a)
    (htr : ∀ a b c, S a → S b → S c → r a b → r b c → r a c) :
    ∀ (l : List Nat), (∀ x ∈ l, S x) → (l.insertionSort r).Sorted r := by
  intro l
  induction l with
  | nil => intro _; simp
  | cons a l ih =>
    intro hS
    have hl : ∀ x ∈ l, S x := fun x hx => hS x (List.mem_cons_of_mem _ hx)
    rw [List.insertionSort_cons_eq_take_drop]
    rw [← List.orderedInsert_eq_take_drop]
    apply sorted_orderedInsert_on r S htot htr _ a (hS a (List.mem_cons_self _ _))
    · intro x hx
      exact hl x ((List.perm_insertionSort r l).subset hx)
    · exact ih hl

theorem qsort_perm (cmp : Nat → Nat → Int) (l : List Nat) : (qsort cmp l).Perm l :=
  List.perm_insertionSort _ l

/-- The embedded `qsort` with `fn_sort_depth` leaves the pointers in
ascending order of the key. -/
theorem qsort_sorted (mem : List s_entity) (l : List Nat) (hv : ∀ p ∈ l, p < mem.length) :
    (qsort (fn_sort_depth mem) l).Sorted (key_le mem) := by
  have hs := sorted_insertionSort_on (fun a b => fn_sort_depth mem a b ≤ 0)
    (fun p => p < mem.length)
    (fun a b ha hb => by
      show fn_sort_depth mem a b ≤ 0 ∨ fn_sort_depth mem b a ≤ 0
      rw [fn_sort_depth_le_iff ha hb, fn_sort_depth_le_iff hb ha]
      exact key_le_total ha hb)
    (fun a b c ha hb hc h1 h2 => by
      show fn_sort_depth mem a c ≤ 0
      rw [fn_sort_depth_le_iff ha hc]
      exact key_le_trans ((fn_sort_depth_le_iff ha hb).mp h1) ((fn_sort_depth_le_iff hb hc).mp h2))
    l hv
  have hv2 : ∀ p ∈ qsort (fn_sort_depth mem) l, p < mem.length :=
    fun p hp => hv p ((qsort_perm _ l).subset hp)
  unfold List.Sorted at hs ⊢
  exact List.Pairwise.imp_of_mem (fun {a b} ha hb h => (fn_sort_depth_le_iff (hv2 a ha) (hv2 b hb)).mp h) hs

/-- C9 (presentation order): `fn_sort_depth (a, b) <= 0` says that the key
(`lvl`, `dep_cnt`, `name`) of `a` is at most that of `b`, names compared as
by `strcmp`; `sort_depth` leaves the memory alone and rearranges `the_list`
into a permutation of itself that ascends in this key.  For X without
dependencies, Y depending on X and Z depending on X and Y, registered in the
order Z, X, Y and all loaded, the sort leaves the levels X = 0, Y = 1, Z = 2
and `sort_depth` the order X, Y, Z. -/
theorem presentation_order :
    (∀ (mem : List s_entity) (a b : Nat), a < mem.length → b < mem.length →
      (fn_sort_depth mem a b ≤ 0 ↔ key_le mem a b)) ∧
    (∀ r : registry, (∀ p ∈ r.the_list, p < r.mem.length) →
      (sort_depth r).mem = r.mem ∧ (sort_depth r).the_list.Perm r.the_list ∧
      (sort_depth r).the_list.Sorted (key_le r.mem)) ∧
    (∃ out, main_sorted reg_zxy 3 = some out ∧
      out.mem.map (fun e => (e.name, e.lvl)) = [("Z", 2), ("X", 0), ("Y", 1)] ∧
      out.the_list = [1, 2, 0] ∧
      out.the_list.map (name_at out.mem) = [some "X", some "Y", some "Z"]) := by
  refine ⟨fun mem a b ha hb => fn_sort_depth_le_iff ha hb, ?_, ?_⟩
  · intro r hv
    unfold sort_depth
    by_cases hc : r.the_list_cnt < 2
    · rw [if_pos hc]
      refine ⟨rfl, List.Perm.refl _, ?_⟩
      unfold registry.the_list_cnt at hc
      match hl : r.the_list with
      | [] => simp
      | [a] => simp
      | a :: b :: l => rw [hl] at hc; simp at hc; omega
    · rw [if_neg hc]
      exact ⟨rfl, qsort_perm _ _, qsort_sorted _ _ hv⟩
  · refine ⟨{ mem := [ { name := "Z", deps := [1, 2], lvl := 2, was_loaded := true,
                         is_printed := true, is_resolved := true },
                       { name := "X", deps := [], lvl := 0, was_loaded := true,
                         is_printed := true, is_resolved := true },
                       { name := "Y", deps := [1], lvl := 1, was_loaded := true,
                         is_printed := true, is_resolved := true } ],
              the_list := [1, 2, 0] }, by decide, by decide, by decide, by decide⟩

/-- C9 at the registry Z, X, Y before any pass. -/
theorem presentation_order_witness :
    (∀ p ∈ reg_zxy.the_list, p < reg_zxy.mem.length) ∧
    (sort_depth reg_zxy).mem = reg_zxy.mem ∧
    (sort_depth reg_zxy).the_list.Perm reg_zxy.the_list ∧
    (sort_depth reg_zxy).the_list.Sorted (key_le reg_zxy.mem) :=
  ⟨by decide, presentation_order.2.1 reg_zxy (by decide)⟩

/-! ## The sort flags are clear when the loop is entered -/

theorem fresh_empty : fresh empty_registry.mem := by
  intro e he; cases he

/-- The only writers of entity memory before the loop, `create_entity` and
`add_dep`, leave the sort flags clear. -/
theorem fresh_create_entity (r : registry) (n : String) (h : fresh r.mem) :
    fresh (create_entity r n).1.mem := by
  unfold create_entity
  cases find_entity r.mem n r.the_list with
  | some p => exact h
  | none =>
    intro e he
    simp only [List.mem_append, List.mem_singleton] at he
    rcases he with he | he
    · exact h e he
    · subst he; exact ⟨rfl, rfl⟩

theorem fresh_add_dep (mem : List s_entity) (that add : Nat) (h : fresh mem) :
    fresh (add_dep mem that add) := by
  rcases add_dep_result mem that add with he | ⟨t, a, ht, -, -, -, he⟩
  · rw [he]; exact h
  · rw [he]
    intro e hmem
    rcases List.mem_or_eq_of_mem_set hmem with h1 | h1
    · exact h e h1
    · subst h1
      exact h t (List.getElem?_mem ht)

/-! ## The edge reducer on a cycle -/

theorem in_sub_deps_pqs (fuel : Nat) :
    in_sub_deps fuel reg_pqs_sorted.mem 1 2 = none ∧
      in_sub_deps fuel reg_pqs_sorted.mem 0 2 = none := by
  induction fuel with
  | zero => exact ⟨rfl, rfl⟩
  | succ f ih =>
    obtain ⟨h1, h0⟩ := ih
    constructor
    · have hd : deps_at reg_pqs_sorted.mem 1 = [0] := rfl
      rw [in_sub_deps, hd]
      simp [sub_deps_loop, h0]
    · have hd : deps_at reg_pqs_sorted.mem 0 = [1, 2] := rfl
      rw [in_sub_deps, hd]
      simp [sub_deps_loop, h1]

/-- On the registry of P, Q and S the loop halts after two passes with S
alone resolved, so that `printed` is 1. -/
theorem main_sort_pqs :
    ∃ t last, main_sort reg_pqs 4 = some t ∧ t.getLast? = some last ∧
      last.mem = reg_pqs_sorted.mem ∧ last.printed = 1 := by
  obtain ⟨t, last, ht, hlast, -, -⟩ := main_sort_returns reg_pqs 4 (by decide)
  have h : (main_sort reg_pqs 4).bind (fun t => t.getLast?.map (fun l => (l.mem, l.printed))) =
      some (reg_pqs_sorted.mem, 1) := by decide
  rw [ht, Option.some_bind, hlast] at h
  have h2 := Option.some.inj h
  exact ⟨t, last, ht, hlast, congrArg Prod.fst h2, congrArg Prod.snd h2⟩

/-- C11 (a cycle does not abort output generation): the code does not keep
this.  For the command line `p-feedstock` with recipes in which P names Q and
S and Q names P, the loading loops build a fully loaded registry, the sort
halts on it with the status to return being 1, and in the edge rendering that
follows the call `in_deps (P, 1)` (the edge from P to S) does not return for
any bound on the depth of the recursion of `in_sub_deps`: the search for S
from Q goes round the cycle P, Q for ever. -/
theorem in_deps_diverges_on_cycle :
    main_load recipe_pqs ["p-feedstock"] 4 = some { reg := reg_pqs, reads := [0, 1, 2] } ∧
    main_sorted reg_pqs 4 = some reg_pqs_sorted ∧
    (∃ t last, main_sort reg_pqs 4 = some t ∧ t.getLast? = some last ∧
      main_status reg_pqs.the_list_cnt last.printed = 1) ∧
    0 ∈ reg_pqs_sorted.the_list ∧ (deps_at reg_pqs_sorted.mem 0)[1]? = some 2 ∧
    ∀ fuel : Nat, in_deps fuel reg_pqs_sorted.mem 0 1 = none := by
  refine ⟨by decide, by decide, ?_, by decide, by decide, ?_⟩
  · obtain ⟨t, last, ht, hlast, -, hp⟩ := main_sort_pqs
    exact ⟨t, last, ht, hlast, by rw [hp]; decide⟩
  intro fuel
  have hd : deps_at reg_pqs_sorted.mem 0 = [1, 2] := rfl
  unfold in_deps
  rw [hd]
  simp [in_deps_loop, (in_sub_deps_pqs fuel).1]

/-! ## The run of `main` after the sort: the rendering and the `return` -/

/-- The loop produces one sequence of passes from a given memory and pass
counter. -/
theorem is_trace_unique {the_list : List Nat} {mem : List s_entity} {lvl : Nat}
    {t : List pass_result} (ht : is_trace the_list mem lvl t) :
    ∀ t2, is_trace the_list mem lvl t2 → t2 = t := by
  induction ht with
  | last mem lvl hc =>
    intro t2 h2
    cases h2 with
    | last _ _ _ => rfl
    | more _ _ _ hc2 _ => exact absurd hc2 hc
  | more mem lvl t hc _ ih =>
    intro t2 h2
    cases h2 with
    | last _ _ hc2 => exact absurd hc hc2
    | more _ _ t3 _ h3 => rw [ih t3 h3]

/-- The result of the sort loop does not depend on the bound, once the bound
is enough. -/
theorem main_sort_unique {r : registry} {fuel fuel2 : Nat} {t t2 : List pass_result}
    (h : main_sort r fuel = some t) (h2 : main_sort r fuel2 = some t2) : t2 = t :=
  is_trace_unique (sort_loop_is_trace _ _ _ _ _ h) t2 (sort_loop_is_trace _ _ _ _ _ h2)

theorem main_sorted_unique {r : registry} {fuel fuel2 : Nat} {a b : registry}
    (h : main_sorted r fuel = some a) (h2 : main_sorted r fuel2 = some b) : b = a := by
  unfold main_sorted at h h2
  cases ht : main_sort r fuel with
  | none => rw [ht] at h; cases h
  | some t =>
    cases ht2 : main_sort r fuel2 with
    | none => rw [ht2] at h2; cases h2
    | some t2 =>
      rw [ht] at h
      rw [ht2, main_sort_unique ht ht2] at h2
      rw [Option.some_bind] at h h2
      rw [h] at h2
      exact (Option.some.inj h2).symm

theorem main_sorted_eq {r : registry} {fuel : Nat} {t : List pass_result} {last : pass_result}
    (ht : main_sort r fuel = some t) (hlast : t.getLast? = some last) :
    main_sorted r fuel = some (sort_depth { mem := last.mem, the_list := r.the_list }) := by
  simp [main_sorted, ht, hlast]

theorem main_ret_eq (k : Nat) {r : registry} {fuel : Nat} {t : List pass_result}
    {last : pass_result} (hne : r.the_list ≠ []) (ht : main_sort r fuel = some t)
    (hlast : t.getLast? = some last) :
    main_ret k r fuel =
      (render_edges k fuel (sort_depth { mem := last.mem, the_list := r.the_list })).map
        (fun _ => main_status r.the_list_cnt last.printed) := by
  have hc : ¬ r.the_list_cnt < 1 := by
    have := List.length_pos.mpr hne
    unfold registry.the_list_cnt
    omega
  simp [main_ret, hc, ht, hlast]

/-- On the registry of P, Q and S the edge loop does not return, whatever the
bound on the depth of the recursion. -/
theorem edge_loop_pqs (fuel : Nat) :
    edge_loop fuel reg_pqs_sorted.mem reg_pqs_sorted.the_list = none := by
  have hnone : in_deps fuel reg_pqs_sorted.mem 0 1 = none := by
    have hd : deps_at reg_pqs_sorted.mem 0 = [1, 2] := rfl
    unfold in_deps
    rw [hd]
    simp [in_deps_loop, (in_sub_deps_pqs fuel).1]
  have h0 : edge_loop_from fuel reg_pqs_sorted.mem 0 0 [1, 2] = none := by
    unfold edge_loop_from
    cases in_deps fuel reg_pqs_sorted.mem 0 0 with
    | none => rfl
    | some b =>
      simp only
      unfold edge_loop_from
      rw [hnone]
  have hl : reg_pqs_sorted.the_list = [2, 1, 0] := rfl
  have hd0 : deps_at reg_pqs_sorted.mem 0 = [1, 2] := rfl
  rw [hl]
  unfold edge_loop
  cases edge_loop_from fuel reg_pqs_sorted.mem 2 0 (deps_at reg_pqs_sorted.mem 2) with
  | none => rfl
  | some t2 =>
    simp only
    unfold edge_loop
    cases edge_loop_from fuel reg_pqs_sorted.mem 1 0 (deps_at reg_pqs_sorted.mem 1) with
    | none => rfl
    | some t1 =>
      simp only
      unfold edge_loop
      rw [hd0, h0]

/-- On the registry of P, Q and S in the gexf mode the rendering does not
return: whatever the bound, either the sort loop or the edge loop has not
returned within it. -/
theorem render_pqs (fuel : Nat) {t : List pass_result} {last : pass_result}
    (ht : main_sort reg_pqs fuel = some t) (hlast : t.getLast? = some last) :
    render_edges 0 fuel (sort_depth { mem := last.mem, the_list := reg_pqs.the_list }) = none := by
  have h4 : main_sorted reg_pqs 4 = some reg_pqs_sorted := by decide
  have := main_sorted_unique h4 (main_sorted_eq ht hlast)
  rw [this]
  unfold render_edges
  rw [if_pos (by decide)]
  exact edge_loop_pqs fuel

/-! ## The channels -/

/-- C13 (channel accumulation): the code does not keep this.  A call of
`add_channel` when a channel is already recorded replaces the recorded text
by ` -c <c>`; after the initial `add_channel ("local")` and the option
`-c conda-forge` the channel text of the `conda-build` command is
` -c conda-forge` and `-c local` does not occur in it, and after `-c a -c b`
it is ` -c b` and `-c a` does not occur in it. -/
theorem add_channel_overwrites :
    (∀ old c : String, c ≠ "" → add_channel (some old) c = some (" -c " ++ c)) ∧
    main_channels ["conda-forge"] = " -c conda-forge" ∧
    ¬ occurs_in "-c local" (main_channels ["conda-forge"]) ∧
    main_channels ["a", "b"] = " -c b" ∧
    ¬ occurs_in "-c a" (main_channels ["a", "b"]) := by
  refine ⟨?_, by decide, by unfold occurs_in; decide, by decide, by unfold occurs_in; decide⟩
  intro old c hc
  simp [add_channel, hc]

/-! ## The cycle diagnostic -/

theorem sort_depth_mem (r : registry) : (sort_depth r).mem = r.mem := by
  unfold sort_depth
  split <;> rfl

theorem sort_depth_perm (r : registry) : (sort_depth r).the_list.Perm r.the_list := by
  unfold sort_depth
  split
  · exact List.Perm.refl _
  · exact qsort_perm _ _

/-- What one pass does to the flags and the level of one entity, when the
pass starts in a layered memory. -/
theorem pass_flags {the_list : List Nat} {m : List s_entity} {l : Nat} (h : layered m l)
    {p : Nat} {e e2 : s_entity} (he : m[p]? = some e)
    (he2 : (pass the_list m l).mem[p]? = some e2) :
    (e2.is_resolved = true → e2.is_printed = true) ∧
    (e2.is_printed = true → e2.was_loaded = true) ∧
    (e.is_printed = true → e2.is_printed = true) ∧
    (e.is_resolved = true → e2.is_resolved = true) ∧
    (e.is_printed = true → e2.lvl = e.lvl) ∧
    (e2.lvl ≠ e.lvl → e.is_printed = false ∧ e2.is_printed = true) ∧
    (e.is_resolved = false → e2.is_resolved = true →
      ∀ d ∈ e.deps, resolved_at m d = true) := by
  rw [pass_mem_get, he] at he2
  simp only [Option.map_some', Option.some.injEq] at he2
  obtain ⟨hpe, hinv⟩ := h p e he
  by_cases hres : e.is_resolved = true
  · have hpr : e.is_printed = true := by rw [hpe]; exact hres
    rw [pass_entity_resolved he hpr hres] at he2
    subst he2
    refine ⟨fun _ => hpr, fun _ => (hinv hres).2.1, fun _ => hpr, fun _ => hres, fun _ => rfl,
      fun hne => absurd rfl hne, fun hf => ?_⟩
    rw [hres] at hf
    cases hf
  · have hres2 : e.is_resolved = false := by simpa using hres
    have hpr : e.is_printed = false := by rw [hpe]; exact hres2
    by_cases hrdy : (decide (p ∈ the_list) && all_deps_resolved m p) = true
    · simp only [Bool.and_eq_true, decide_eq_true_eq] at hrdy
      have he' : e2 = { e with is_printed := true, lvl := l, is_resolved := true } := by
        rw [← he2]
        simp [pass_entity, mark_entity, resolve_entity, hrdy.1, hrdy.2, hpr]
      obtain ⟨e3, he3, -, hl, hdeps⟩ := (all_deps_resolved_iff m p).mp hrdy.2
      rw [he] at he3
      cases he3
      subst he'
      refine ⟨fun _ => rfl, fun _ => hl, fun _ => rfl, fun _ => rfl, fun hp => ?_,
        fun _ => ⟨hpr, rfl⟩, fun _ _ => hdeps⟩
      rw [hpr] at hp
      cases hp
    · simp only [Bool.not_eq_true] at hrdy
      have he' : e2 = e := by
        rw [← he2]
        simp [pass_entity, mark_entity, resolve_entity, hrdy, hpr]
      subst he'
      refine ⟨fun hr => absurd hr hres, fun hp => ?_, fun hp => hp, fun hr => hr, fun _ => rfl,
        fun hne => absurd rfl hne, fun _ hr => absurd hr hres⟩
      rw [hpr] at hp
      cases hp

theorem mem_before_zero (mem : List s_entity) (t : List pass_result) :
    mem_before mem t 0 = mem := by
  cases t <;> rfl

/-- Every pass of the loop starts in a layered memory. -/
theorem is_trace_before_layered {the_list : List Nat} {mem : List s_entity} {lvl : Nat}
    {t : List pass_result} (ht : is_trace the_list mem lvl t) (h : layered mem lvl) :
    ∀ (i : Nat) (x : pass_result), t[i]? = some x →
      layered (mem_before mem t i) (lvl + i) ∧ x = pass the_list (mem_before mem t i) (lvl + i) := by
  induction ht with
  | last mem lvl _ =>
    intro i x hx
    cases i with
    | zero =>
      simp only [List.getElem?_cons_zero, Option.some.injEq] at hx
      exact ⟨by simpa [mem_before] using h, by simp [mem_before, ← hx]⟩
    | succ j => simp at hx
  | more mem lvl t _ _ ih =>
    intro i x hx
    cases i with
    | zero =>
      simp only [List.getElem?_cons_zero, Option.some.injEq] at hx
      exact ⟨by simpa [mem_before] using h, by simp [mem_before, ← hx]⟩
    | succ j =>
      simp only [List.getElem?_cons_succ] at hx
      have := ih (layered_pass h) j x hx
      simpa [mem_before, Nat.add_assoc, Nat.add_comm 1 j] using this

theorem printed_at_pass_mono (the_list : List Nat) (mem : List s_entity) (lvl p : Nat)
    (h : printed_at mem p = true) : printed_at (pass the_list mem lvl).mem p = true := by
  rw [printed_at_pass, h]
  rfl

/-- What is printed when the loop starts is printed before and after every
pass. -/
theorem is_trace_printed_mono {the_list : List Nat} {mem : List s_entity} {lvl : Nat}
    {t : List pass_result} (ht : is_trace the_list mem lvl t) (p : Nat)
    (h : printed_at mem p = true) :
    ∀ (i : Nat) (x : pass_result), t[i]? = some x →
      printed_at (mem_before mem t i) p = true ∧ printed_at x.mem p = true := by
  induction ht with
  | last mem lvl _ =>
    intro i x hx
    cases i with
    | zero =>
      simp only [List.getElem?_cons_zero, Option.some.injEq] at hx
      subst hx
      exact ⟨by simpa [mem_before] using h, printed_at_pass_mono _ _ _ _ h⟩
    | succ j => simp at hx
  | more mem lvl t _ _ ih =>
    intro i x hx
    cases i with
    | zero =>
      simp only [List.getElem?_cons_zero, Option.some.injEq] at hx
      subst hx
      exact ⟨by simpa [mem_before] using h, printed_at_pass_mono _ _ _ _ h⟩
    | succ j =>
      simp only [List.getElem?_cons_succ] at hx
      simpa [mem_before] using ih (printed_at_pass_mono _ _ _ _ h) j x hx

/-- What is printed after a pass is printed when every later pass starts. -/
theorem is_trace_printed_later {the_list : List Nat} {mem : List s_entity} {lvl : Nat}
    {t : List pass_result} (ht : is_trace the_list mem lvl t) (p : Nat) :
    ∀ (i j : Nat) (x y : pass_result), i < j → t[i]? = some x → t[j]? = some y →
      printed_at x.mem p = true → printed_at (mem_before mem t j) p = true := by
  induction ht with
  | last mem lvl _ =>
    intro i j x y hij hx hy
    cases j with
    | zero => omega
    | succ j => simp at hy
  | more mem lvl t _ htr ih =>
    intro i j x y hij hx hy hp
    cases j with
    | zero => omega
    | succ j =>
      simp only [List.getElem?_cons_succ] at hy
      cases i with
      | zero =>
        simp only [List.getElem?_cons_zero, Option.some.injEq] at hx
        subst hx
        simpa [mem_before] using (is_trace_printed_mono htr p hp j y hy).1
      | succ i =>
        simp only [List.getElem?_cons_succ] at hx
        simpa [mem_before] using ih i j x y (by omega) hx hy hp

/-- C15 (flag invariant of the sort): entered with the sort flags clear, the
loop halts, and for every pass it runs and every entity, with `e` the entity
before the pass and `e2` after it: `is_resolved` implies `is_printed` implies
`was_loaded` after the pass; a flag that is 1 before the pass is 1 after it;
`lvl` is untouched if the entity was printed before the pass, and changes
only in a pass that finds `is_printed` 0 and sets it; an entity that becomes
resolved in the pass had all its dependencies resolved before the pass.  And
an entity printed after a pass is printed when every later pass starts, so
its `lvl` is assigned in at most one pass. -/
theorem flag_invariant (r : registry) (fuel : Nat) (h0 : fresh r.mem)
    (hf : r.the_list.length < fuel) :
    ∃ t, main_sort r fuel = some t ∧
      (∀ (i : Nat) (x : pass_result), t[i]? = some x →
        ∀ (p : Nat) (e : s_entity), (mem_before r.mem t i)[p]? = some e →
          ∃ e2, x.mem[p]? = some e2 ∧
            (e2.is_resolved = true → e2.is_printed = true) ∧
            (e2.is_printed = true → e2.was_loaded = true) ∧
            (e.is_printed = true → e2.is_printed = true) ∧
            (e.is_resolved = true → e2.is_resolved = true) ∧
            (e.is_printed = true → e2.lvl = e.lvl) ∧
            (e2.lvl ≠ e.lvl → e.is_printed = false ∧ e2.is_printed = true) ∧
            (e.is_resolved = false → e2.is_resolved = true →
              ∀ d ∈ e.deps, resolved_at (mem_before r.mem t i) d = true)) ∧
      (∀ (i j : Nat) (x y : pass_result) (p : Nat), i < j → t[i]? = some x → t[j]? = some y →
        printed_at x.mem p = true → printed_at (mem_before r.mem t j) p = true) := by
  obtain ⟨t, last, ht, -, htr, -⟩ := main_sort_returns r fuel (by omega)
  refine ⟨t, ht, ?_, fun i j x y p => is_trace_printed_later htr p i j x y⟩
  intro i x hx p e he
  obtain ⟨hlay, hpass⟩ := is_trace_before_layered htr (layered_of_fresh h0 0) i x hx
  have hget : x.mem[p]? = some (pass_entity r.the_list (mem_before r.mem t i) (0 + i) p e) := by
    rw [hpass, pass_mem_get, he]
    rfl
  refine ⟨_, hget, ?_⟩
  rw [hpass] at hget
  exact pass_flags hlay he hget

/-- C15 at the registry Z, X, Y. -/
theorem flag_invariant_witness :
    fresh reg_zxy.mem ∧
    ∃ t, main_sort reg_zxy 4 = some t ∧
      (∀ (i : Nat) (x : pass_result), t[i]? = some x →
        ∀ (p : Nat) (e : s_entity), (mem_before reg_zxy.mem t i)[p]? = some e →
          ∃ e2, x.mem[p]? = some e2 ∧
            (e2.is_resolved = true → e2.is_printed = true) ∧
            (e2.is_printed = true → e2.was_loaded = true) ∧
            (e.is_printed = true → e2.is_printed = true) ∧
            (e.is_resolved = true → e2.is_resolved = true) ∧
            (e.is_printed = true → e2.lvl = e.lvl) ∧
            (e2.lvl ≠ e.lvl → e.is_printed = false ∧ e2.is_printed = true) ∧
            (e.is_resolved = false → e2.is_resolved = true →
              ∀ d ∈ e.deps, resolved_at (mem_before reg_zxy.mem t i) d = true)) ∧
      (∀ (i j : Nat) (x y : pass_result) (p : Nat), i < j → t[i]? = some x → t[j]? = some y →
        printed_at x.mem p = true → printed_at (mem_before reg_zxy.mem t j) p = true) :=
  ⟨fresh_reg_zxy, flag_invariant reg_zxy 4 fresh_reg_zxy (by decide)⟩

/-! ## The reachability recursion on resolved entities -/

/-- The halting state is layered with the number of passes as counter. -/
theorem is_trace_last_layered {the_list : List Nat} {mem : List s_entity} {lvl : Nat}
    {t : List pass_result} (ht : is_trace the_list mem lvl t) (h : layered mem lvl)
    {last : pass_result} (hlast : t.getLast? = some last) :
    layered last.mem (lvl + t.length) := by
  have hne := List.length_pos.mpr (is_trace_ne_nil ht)
  rw [List.getLast?_eq_getElem?] at hlast
  obtain ⟨hlay, hpass⟩ := is_trace_before_layered ht h (t.length - 1) last hlast
  have := @layered_pass the_list _ _ hlay
  rw [← hpass] at this
  have heq : lvl + (t.length - 1) + 1 = lvl + t.length := by omega
  rw [heq] at this
  exact this

/-- In a layered memory the recursion of `in_sub_deps` from a resolved entity
ends within a depth of its level plus one. -/
theorem in_sub_deps_returns_layered {m : List s_entity} {k : Nat} (h : layered m k)
    (seek : Nat) :
    ∀ (fuel it : Nat) (e : s_entity), m[it]? = some e → e.is_resolved = true →
      e.lvl < fuel → ∃ b, in_sub_deps fuel m it seek = some b := by
  intro fuel
  induction fuel with
  | zero => intro it e _ _ hl; omega
  | succ f ih =>
    intro it e he hres hl
    unfold in_sub_deps
    apply sub_deps_loop_some
    intro d hd
    rw [deps_at_eq he] at hd
    obtain ⟨ed, hed, hedr, hlt⟩ := ((h it e he).2 hres).2.2 d hd
    exact ih d ed hed hedr (by omega)

/-- C16 (the recursion is safe on resolved subtrees): entered with the sort
flags clear, the loop halts, and in the halting state everything reachable
from a resolved entity `e` is resolved and lies on no cycle, `e` lies on no
cycle, and for every `s` the call `in_sub_deps (e, s)` returns for every
depth bound above the number of registered entities, non-zero exactly when
`s` is reachable from `e` through one or more dependency edges. -/
theorem resolved_subtree_safe (r : registry) (fuel depth : Nat) (h0 : fresh r.mem)
    (hf : r.the_list.length < fuel) (hd : r.the_list.length < depth) :
    ∃ t last, main_sort r fuel = some t ∧ t.getLast? = some last ∧
      ∀ e : Nat, resolved_at last.mem e = true →
        (∀ x, reaches last.mem e x → resolved_at last.mem x = true ∧ ¬ on_cycle last.mem x) ∧
        ¬ on_cycle last.mem e ∧
        (∀ s, ∃ b, in_sub_deps depth last.mem e s = some b ∧
          (b = true ↔ reaches last.mem e s)) := by
  obtain ⟨t, last, ht, hlast, htr, hlen⟩ := main_sort_returns r fuel (by omega)
  refine ⟨t, last, ht, hlast, ?_⟩
  have hlay := is_trace_last_layered htr (layered_of_fresh h0 0) hlast
  have hnc : ∀ x, resolved_at last.mem x = true → ¬ on_cycle last.mem x := by
    intro x hx hc
    have := layered_cycle_unresolved hlay (Or.inl hc)
    rw [hx] at this
    cases this
  intro e hres
  obtain ⟨ent, hent, hentr⟩ := (resolved_at_iff last.mem e).mp hres
  refine ⟨?_, hnc e hres, ?_⟩
  · intro x hx
    obtain ⟨ex, hex, hexr, -⟩ := layered_reaches hlay hx ent hent hentr
    have hxr : resolved_at last.mem x = true := (resolved_at_iff last.mem x).mpr ⟨ex, hex, hexr⟩
    exact ⟨hxr, hnc x hxr⟩
  · intro s
    have hl : ent.lvl < 0 + t.length := ((hlay e ent hent).2 hentr).1
    obtain ⟨b, hb⟩ := in_sub_deps_returns_layered hlay s depth e ent hent hentr (by omega)
    exact ⟨b, hb, in_sub_deps_correct last.mem s depth e b hb⟩

/-- C16 at the registry Z, X, Y. -/
theorem resolved_subtree_safe_witness :
    fresh reg_zxy.mem ∧
    ∃ t last, main_sort reg_zxy 4 = some t ∧ t.getLast? = some last ∧
      ∀ e : Nat, resolved_at last.mem e = true →
        (∀ x, reaches last.mem e x → resolved_at last.mem x = true ∧ ¬ on_cycle last.mem x) ∧
        ¬ on_cycle last.mem e ∧
        (∀ s, ∃ b, in_sub_deps 4 last.mem e s = some b ∧
          (b = true ↔ reaches last.mem e s)) :=
  ⟨fresh_reg_zxy, resolved_subtree_safe reg_zxy 4 4 fresh_reg_zxy (by decide) (by decide)⟩

/-! ## The comparator is a strict total order -/

theorem fn_sort_depth_antisymm (mem : List s_entity) (a b : Nat) :
    fn_sort_depth mem b a = - fn_sort_depth mem a b := by
  unfold fn_sort_depth
  cases ha : mem[a]? with
  | none => cases hb : mem[b]? <;> simp
  | some ea =>
    cases hb : mem[b]? with
    | none => simp
    | some eb =>
      simp only
      have hs := strcmp_chars_antisymm ea.name.toList eb.name.toList
      rcases Nat.lt_trichotomy ea.lvl eb.lvl with h | h | h
      · have h1 : ea.lvl ≠ eb.lvl := by omega
        have h2 : eb.lvl ≠ ea.lvl := by omega
        have h3 : ¬ eb.lvl < ea.lvl := by omega
        simp [h1, h2, h, h3]
      · rcases Nat.lt_trichotomy ea.dep_cnt eb.dep_cnt with h4 | h4 | h4
        · have h1 : ea.dep_cnt ≠ eb.dep_cnt := by omega
          have h2 : eb.dep_cnt ≠ ea.dep_cnt := by omega
          have h3 : ¬ eb.dep_cnt < ea.dep_cnt := by omega
          simp [h, h1, h2, h4, h3]
        · simp only [h, h4, ne_eq, not_true_eq_false, if_false, strcmp]
          exact hs
        · have h1 : ea.dep_cnt ≠ eb.dep_cnt := by omega
          have h2 : eb.dep_cnt ≠ ea.dep_cnt := by omega
          have h3 : ¬ ea.dep_cnt < eb.dep_cnt := by omega
          simp [h, h1, h2, h4, h3]
      · have h1 : ea.lvl ≠ eb.lvl := by omega
        have h2 : eb.lvl ≠ ea.lvl := by omega
        have h3 : ¬ ea.lvl < eb.lvl := by omega
        simp [h1, h2, h, h3]

theorem fn_sort_depth_eq_zero {mem : List s_entity} {a b : Nat} {ea eb : s_entity}
    (ha : mem[a]? = some ea) (hb : mem[b]? = some eb) (h : fn_sort_depth mem a b = 0) :
    ea.name = eb.name := by
  unfold fn_sort_depth at h
  rw [ha, hb] at h
  simp only at h
  by_cases h1 : ea.lvl = eb.lvl
  · by_cases h2 : ea.dep_cnt = eb.dep_cnt
    · simp only [h1, h2, ne_eq, not_true_eq_false, if_false] at h
      exact (strcmp_eq_zero _ _).mp h
    · simp only [h1, ne_eq, not_true_eq_false, if_false, h2, not_false_eq_true, if_true] at h
      split at h <;> cases h
  · simp only [ne_eq, h1, not_false_eq_true, if_true] at h
    split at h <;> cases h

theorem fn_sort_depth_self {mem : List s_entity} (a : Nat) : fn_sort_depth mem a a = 0 := by
  have := fn_sort_depth_antisymm mem a a
  omega

/-- On a registry with pairwise distinct names the comparator is 0 for two
registered entities only when they are the same. -/
theorem fn_sort_depth_zero_iff {r : registry} (hok : registry_ok r) {a b : Nat}
    (ha : a ∈ r.the_list) (hb : b ∈ r.the_list) : fn_sort_depth r.mem a b = 0 ↔ a = b := by
  constructor
  · intro h
    have hla := hok.1 a ha
    have hlb := hok.1 b hb
    have hn := fn_sort_depth_eq_zero (List.getElem?_eq_getElem hla) (List.getElem?_eq_getElem hlb) h
    apply List.inj_on_of_nodup_map hok.2 ha hb
    simp [name_at, List.getElem?_eq_getElem hla, List.getElem?_eq_getElem hlb, hn]
  · intro h
    rw [h]
    exact fn_sort_depth_self b

theorem fn_sort_depth_trans {mem : List s_entity} {a b c : Nat} (ha : a < mem.length)
    (hb : b < mem.length) (hc : c < mem.length) (h1 : fn_sort_depth mem a b ≤ 0)
    (h2 : fn_sort_depth mem b c ≤ 0) : fn_sort_depth mem a c ≤ 0 := by
  rw [fn_sort_depth_le_iff ha hc]
  exact key_le_trans ((fn_sort_depth_le_iff ha hb).mp h1) ((fn_sort_depth_le_iff hb hc).mp h2)

theorem sort_depth_sorted (r : registry) (hv : ∀ p ∈ r.the_list, p < r.mem.length) :
    (sort_depth r).the_list.Sorted (key_le r.mem) := by
  unfold sort_depth
  by_cases hc : r.the_list_cnt < 2
  · rw [if_pos hc]
    unfold registry.the_list_cnt at hc
    match hl : r.the_list with
    | [] => simp
    | [a] => simp
    | a :: b :: l => rw [hl] at hc; simp at hc; omega
  · rw [if_neg hc]
    exact qsort_sorted _ _ hv

/-- Two arrangements of the registered entities of a registry with pairwise
distinct names that both ascend in the key are the same arrangement. -/
theorem sorted_perm_unique {r : registry} (hok : registry_ok r) {l1 l2 : List Nat}
    (h1 : l1.Perm r.the_list) (h2 : l2.Perm r.the_list)
    (hs1 : l1.Sorted (key_le r.mem)) (hs2 : l2.Sorted (key_le r.mem)) : l1 = l2 := by
  let rel : Nat → Nat → Prop :=
    fun a b => key_le r.mem a b ∧ a ∈ r.the_list ∧ b ∈ r.the_list
  have hanti : IsAntisymm Nat rel := by
    constructor
    intro a b hab hba
    obtain ⟨hk1, ha, hb⟩ := hab
    obtain ⟨hk2, -, -⟩ := hba
    have hla := hok.1 a ha
    have hlb := hok.1 b hb
    have c1 := (fn_sort_depth_le_iff hla hlb).mpr hk1
    have c2 := (fn_sort_depth_le_iff hlb hla).mpr hk2
    have c3 := fn_sort_depth_antisymm r.mem a b
    exact (fn_sort_depth_zero_iff hok ha hb).mp (by omega)
  have hr1 : l1.Sorted rel := by
    unfold List.Sorted at hs1 ⊢
    exact List.Pairwise.imp_of_mem
      (fun {a b} ha hb h => ⟨h, h1.subset ha, h1.subset hb⟩) hs1
  have hr2 : l2.Sorted rel := by
    unfold List.Sorted at hs2 ⊢
    exact List.Pairwise.imp_of_mem
      (fun {a b} ha hb h => ⟨h, h2.subset ha, h2.subset hb⟩) hs2
  exact List.eq_of_perm_of_sorted (h1.trans h2.symm) hr1 hr2

/-- C20 (the comparator is a strict total order): on a registry with valid
pointers and pairwise distinct names, `fn_sort_depth (a, b)` is 0 for two
registered entities only when they are the same entity, its sign is the
opposite of the sign of `fn_sort_depth (b, a)`, and it is transitive (for
`<= 0` and for `< 0`); therefore `sort_depth` produces the same sequence from
every arrangement of `the_list`, and that sequence is the only arrangement
that ascends by the comparator (so it does not depend on how `qsort` sorts). -/
theorem comparator_strict_total_order (r : registry) (hok : registry_ok r) :
    (∀ a ∈ r.the_list, ∀ b ∈ r.the_list, (fn_sort_depth r.mem a b = 0 ↔ a = b)) ∧
    (∀ a b : Nat, fn_sort_depth r.mem b a = - fn_sort_depth r.mem a b) ∧
    (∀ a ∈ r.the_list, ∀ b ∈ r.the_list, ∀ c ∈ r.the_list,
      (fn_sort_depth r.mem a b ≤ 0 → fn_sort_depth r.mem b c ≤ 0 →
        fn_sort_depth r.mem a c ≤ 0) ∧
      (fn_sort_depth r.mem a b < 0 → fn_sort_depth r.mem b c < 0 →
        fn_sort_depth r.mem a c < 0)) ∧
    (∀ l2 : List Nat, l2.Perm r.the_list →
      (sort_depth { mem := r.mem, the_list := l2 }).the_list = (sort_depth r).the_list) ∧
    (∀ out : List Nat, out.Perm r.the_list →
      out.Sorted (fun a b => fn_sort_depth r.mem a b ≤ 0) → out = (sort_depth r).the_list) := by
  have hv := hok.1
  refine ⟨fun a ha b hb => fn_sort_depth_zero_iff hok ha hb, fn_sort_depth_antisymm r.mem,
    ?_, ?_, ?_⟩
  · intro a ha b hb c hc
    refine ⟨fn_sort_depth_trans (hv a ha) (hv b hb) (hv c hc), ?_⟩
    intro h1 h2
    have h3 := fn_sort_depth_trans (hv a ha) (hv b hb) (hv c hc) (by omega) (by omega)
    have hne : fn_sort_depth r.mem a c ≠ 0 := by
      intro h0
      have hac := (fn_sort_depth_zero_iff hok ha hc).mp h0
      subst hac
      have := fn_sort_depth_antisymm r.mem a b
      omega
    omega
  · intro l2 hp
    have hv2 : ∀ p ∈ l2, p < r.mem.length := fun p hp2 => hv p (hp.subset hp2)
    exact sorted_perm_unique hok
      ((sort_depth_perm { mem := r.mem, the_list := l2 }).trans hp) (sort_depth_perm r)
      (sort_depth_sorted { mem := r.mem, the_list := l2 } hv2) (sort_depth_sorted r hv)
  · intro out hp hs
    have hs2 : out.Sorted (key_le r.mem) := by
      unfold List.Sorted at hs ⊢
      exact List.Pairwise.imp_of_mem
        (fun {a b} ha hb h =>
          (fn_sort_depth_le_iff (hv a (hp.subset ha)) (hv b (hp.subset hb))).mp h) hs
    exact sorted_perm_unique hok hp (sort_depth_perm r) hs2 (sort_depth_sorted r hv)

theorem registry_ok_reg_zxy : registry_ok reg_zxy := by
  unfold registry_ok
  constructor
  · decide
  · decide

/-- C20 at the registry Z, X, Y. -/
theorem comparator_strict_total_order_witness :
    registry_ok reg_zxy ∧
    (∀ l2 : List Nat, l2.Perm reg_zxy.the_list →
      (sort_depth { mem := reg_zxy.mem, the_list := l2 }).the_list =
        (sort_depth reg_zxy).the_list) :=
  ⟨registry_ok_reg_zxy,
    (comparator_strict_total_order reg_zxy registry_ok_reg_zxy).2.2.2.1⟩

/-! ## The emitted edges keep the reachability -/

theorem reaches_lt {mem : List s_entity} {a b : Nat} (h : reaches mem a b) :
    a < mem.length := by
  obtain ⟨d, hd, -⟩ := (reaches_iff_dep mem a b).mp h
  exact lt_length_of_dep hd

/-- A transitive, irreflexive relation on the natural numbers whose smaller
side, or whose larger side, stays below `n` is well founded. -/
theorem wf_of_bounded_side (n : Nat) (R : Nat → Nat → Prop)
    (htr : ∀ a b c, R a b → R b c → R a c) (hirr : ∀ a, ¬ R a a)
    (hb : (∀ x y, R x y → x < n) ∨ (∀ x y, R x y → y < n)) : WellFounded R := by
  let R2 : Fin n → Fin n → Prop := fun x y => R x.val y.val
  have htrans : IsTrans (Fin n) R2 := ⟨fun a b c hab hbc => htr _ _ _ hab hbc⟩
  have hirrefl : IsIrrefl (Fin n) R2 := ⟨fun a ha => hirr _ ha⟩
  have hwf : WellFounded R2 := Finite.wellFounded_of_trans_of_irrefl R2
  rcases hb with hb | hb
  · have key : ∀ x : Fin n, Acc R x.val := by
      intro x
      induction x using hwf.induction with
      | _ x ih =>
        constructor
        intro w hw
        exact ih ⟨w, hb w x.val hw⟩ hw
    constructor
    intro y
    constructor
    intro x hx
    exact key ⟨x, hb x y hx⟩
  · have key : ∀ y : Fin n, Acc R y.val := by
      intro y
      induction y using hwf.induction with
      | _ y ih =>
        constructor
        intro x hx
        by_cases hxn : x < n
        · exact ih ⟨x, hxn⟩ hx
        · constructor
          intro w hw
          exact absurd (hb w x hw) hxn
    constructor
    intro y
    by_cases hyn : y < n
    · exact key ⟨y, hyn⟩
    · constructor
      intro x hx
      exact absurd (hb x y hx) hyn

/-- On an acyclic graph every dependency path can be replaced by a path of
edges that are not implied by another dependency. -/
theorem reaches_kept {mem : List s_entity} (hac : acyclic mem) :
    ∀ a b, reaches mem a b → Relation.TransGen (kept mem) a b := by
  have hdown : WellFounded (fun x a => reaches mem a x) :=
    wf_of_bounded_side mem.length _ (fun a b c hab hbc => Relation.TransGen.trans hbc hab)
      (fun a ha => hac a ha) (Or.inr (fun x y h => reaches_lt h))
  have hup : WellFounded (fun x b => reaches mem x b) :=
    wf_of_bounded_side mem.length _ (fun a b c hab hbc => Relation.TransGen.trans hab hbc)
      (fun a ha => hac a ha) (Or.inl (fun x y h => reaches_lt h))
  intro a
  induction a using hdown.induction with
  | _ a iha =>
    have hedge : ∀ b, dep mem a b → Relation.TransGen (kept mem) a b := by
      intro b
      induction b using hup.induction with
      | _ b ihb =>
        intro hab
        by_cases hk : ∃ d' ∈ deps_at mem a, d' ≠ b ∧ reaches mem d' b
        · obtain ⟨d', hd', -, hreach⟩ := hk
          exact Relation.TransGen.trans (ihb d' hreach hd')
            (iha d' (Relation.TransGen.single hd') b hreach)
        · exact Relation.TransGen.single ⟨hab, hk⟩
    intro b hab
    obtain ⟨d, hd, hdb⟩ := (reaches_iff_dep mem a b).mp hab
    rcases hdb with hdb | hdb
    · rw [← hdb]; exact hedge d hd
    · exact Relation.TransGen.trans (hedge d hd) (iha d (Relation.TransGen.single hd) b hdb)

/-- On an acyclic graph without repeated pointers in the arrays `deps`, the
edges that `main` writes are the edges that no other dependency implies. -/
theorem emitted_iff_kept {mem : List s_entity} {fuel : Nat} (hac : acyclic mem)
    (hnd : ∀ p, (deps_at mem p).Nodup) (hfuel : mem.length < fuel) (a b : Nat) :
    emitted fuel mem a b ↔ kept mem a b := by
  unfold emitted kept dep
  constructor
  · rintro ⟨i, hi, hin⟩
    have hb : b ∈ deps_at mem a := List.getElem?_mem hi
    obtain ⟨ent, he⟩ : ∃ ent, mem[a]? = some ent := by
      have := lt_length_of_dep hb
      exact ⟨mem[a], List.getElem?_eq_getElem this⟩
    have hdeps := deps_at_eq he
    obtain ⟨bb, hbb, hiff⟩ := in_deps_spec hac he (hdeps ▸ hnd a) (hdeps ▸ hi) hfuel
    rw [hin] at hbb
    cases hbb
    refine ⟨hb, ?_⟩
    rw [hdeps]
    intro hex
    have := hiff.mpr hex
    cases this
  · rintro ⟨hb, hno⟩
    obtain ⟨i, hi⟩ := List.mem_iff_getElem?.mp hb
    obtain ⟨ent, he⟩ : ∃ ent, mem[a]? = some ent := by
      have := lt_length_of_dep hb
      exact ⟨mem[a], List.getElem?_eq_getElem this⟩
    have hdeps := deps_at_eq he
    obtain ⟨bb, hbb, hiff⟩ := in_deps_spec hac he (hdeps ▸ hnd a) (hdeps ▸ hi) hfuel
    refine ⟨i, hi, ?_⟩
    cases bb with
    | false => exact hbb
    | true =>
      have := hiff.mp rfl
      rw [← hdeps] at this
      exact absurd this hno

/-- C19 (edge reduction preserves reachability): on an acyclic dependency
graph whose arrays `deps` hold no pointer twice, with a depth bound above the
number of entities: whenever `in_deps` suppresses the edge from `e` to its
dependency `d`, `d` is reachable from `e` through edges that `in_deps` does
not suppress; and the reachability through those edges is the reachability
through all dependency edges. -/
theorem reduction_preserves_reachability (mem : List s_entity) (fuel : Nat)
    (hac : acyclic mem) (hnd : ∀ p, (deps_at mem p).Nodup) (hfuel : mem.length < fuel) :
    (∀ e i d : Nat, (deps_at mem e)[i]? = some d → in_deps fuel mem e i = some true →
      Relation.TransGen (emitted fuel mem) e d) ∧
    (∀ a b : Nat, Relation.TransGen (emitted fuel mem) a b ↔ reaches mem a b) := by
  have hrel : emitted fuel mem = kept mem := by
    funext a b
    exact propext (emitted_iff_kept hac hnd hfuel a b)
  rw [hrel]
  refine ⟨?_, ?_⟩
  · intro e i d hi _
    exact reaches_kept hac e d (Relation.TransGen.single (List.getElem?_mem hi))
  · intro a b
    constructor
    · intro h
      exact Relation.TransGen.mono (fun x y hxy => hxy.1) h
    · exact reaches_kept hac a b

theorem nodup_deps_mem_abc : ∀ p, (deps_at mem_abc p).Nodup := by
  intro p
  match p with
  | 0 => decide
  | 1 => decide
  | 2 => decide
  | n + 3 => simp [deps_at, mem_abc]

/-- C19 at the graph A, B, C: the suppressed edge from A to B is replaced by
the path over C. -/
theorem reduction_preserves_reachability_witness :
    acyclic mem_abc ∧ (∀ p, (deps_at mem_abc p).Nodup) ∧ in_deps 4 mem_abc 0 0 = some true ∧
    Relation.TransGen (emitted 4 mem_abc) 0 1 :=
  ⟨acyclic_mem_abc, nodup_deps_mem_abc, by decide,
    (reduction_preserves_reachability mem_abc 4 acyclic_mem_abc nodup_deps_mem_abc
      (by decide)).1 0 0 1 (by decide) (by decide)⟩

/-! ## The emitted edges are the fewest possible -/

theorem mem_edges_from (fuel : Nat) (mem : List s_entity) (a : Nat) :
    ∀ (ds : List Nat) (k : Nat) (x : Nat × Nat), x ∈ edges_from fuel mem a k ds ↔
      x.1 = a ∧ ∃ j, ds[j]? = some x.2 ∧ in_deps fuel mem a (k + j) = some false := by
  intro ds
  induction ds with
  | nil => intro k x; simp [edges_from]
  | cons d ds ih =>
    intro k x
    unfold edges_from
    have hstep : (x.1 = a ∧ ∃ j, (d :: ds)[j]? = some x.2 ∧
          in_deps fuel mem a (k + j) = some false) ↔
        ((x = (a, d) ∧ in_deps fuel mem a k = some false) ∨
          (x.1 = a ∧ ∃ j, ds[j]? = some x.2 ∧ in_deps fuel mem a (k + 1 + j) = some false)) := by
      constructor
      · rintro ⟨hx, j, hj, hin⟩
        cases j with
        | zero =>
          left
          simp only [List.getElem?_cons_zero, Option.some.injEq] at hj
          exact ⟨Prod.ext hx hj.symm, by simpa using hin⟩
        | succ j =>
          right
          refine ⟨hx, j, by simpa using hj, ?_⟩
          rw [← hin]
          congr 1
          omega
      · rintro (⟨hx, hin⟩ | ⟨hx, j, hj, hin⟩)
        · subst hx
          exact ⟨rfl, 0, by simp, by simpa using hin⟩
        · refine ⟨hx, j + 1, by simpa using hj, ?_⟩
          rw [← hin]
          congr 1
          omega
    rw [hstep]
    by_cases hc : in_deps fuel mem a k = some false
    · rw [if_pos hc, List.mem_cons, ih]
      simp [hc]
    · rw [if_neg hc, ih]
      simp [hc]

theorem mem_emitted_edges (fuel : Nat) (r : registry) (a b : Nat) :
    (a, b) ∈ emitted_edges fuel r ↔ a ∈ r.the_list ∧ emitted fuel r.mem a b := by
  unfold emitted_edges emitted
  rw [List.mem_flatMap]
  constructor
  · rintro ⟨x, hx, hmem⟩
    obtain ⟨h1, j, hj, hin⟩ := (mem_edges_from fuel r.mem x _ 0 (a, b)).mp hmem
    simp only at h1 hj
    subst h1
    exact ⟨hx, j, hj, by simpa using hin⟩
  · rintro ⟨ha, j, hj, hin⟩
    exact ⟨a, ha, (mem_edges_from fuel r.mem a _ 0 (a, b)).mpr ⟨rfl, j, hj, by simpa using hin⟩⟩

/-- On an acyclic graph an edge that no other dependency implies belongs to
every edge relation with the reachability of the graph. -/
theorem kept_in_every {mem : List s_entity} (hac : acyclic mem) (E : Nat → Nat → Prop)
    (hE : ∀ a b, Relation.TransGen E a b ↔ reaches mem a b) {a b : Nat} (hk : kept mem a b) :
    E a b := by
  obtain ⟨hab, hno⟩ := hk
  have h1 : Relation.TransGen E a b := (hE a b).mpr (Relation.TransGen.single hab)
  obtain ⟨c, hac2, hcb⟩ := Relation.TransGen.head'_iff.mp h1
  rcases Relation.reflTransGen_iff_eq_or_transGen.mp hcb with h | h
  · rw [h]; exact hac2
  · exfalso
    have hcb2 : reaches mem c b := (hE c b).mp h
    have hac3 : reaches mem a c := (hE a c).mp (Relation.TransGen.single hac2)
    obtain ⟨d, hd, hdc⟩ := (reaches_iff_dep mem a c).mp hac3
    have hdb : reaches mem d b := by
      rcases hdc with hdc | hdc
      · rw [hdc]; exact hcb2
      · exact Relation.TransGen.trans hdc hcb2
    by_cases hdeq : d = b
    · subst hdeq
      exact hac d hdb
    · exact hno ⟨d, hd, hdeq, hdb⟩

/-- An edge that `main` writes is not implied by another dependency. -/
theorem emitted_kept {mem : List s_entity} {fuel a b : Nat} (h : emitted fuel mem a b) :
    kept mem a b := by
  obtain ⟨i, hi, hin⟩ := h
  refine ⟨List.getElem?_mem hi, ?_⟩
  rintro ⟨d', hd', hne, hreach⟩
  unfold in_deps at hin
  rw [hi] at hin
  simp only at hin
  obtain ⟨k, hk⟩ := List.mem_iff_getElem?.mp hd'
  have hki : 0 + k ≠ i := by
    intro heq
    have : k = i := by omega
    subst this
    rw [hi] at hk
    cases hk
    exact hne rfl
  obtain ⟨-, h2⟩ := in_deps_loop_false hin k d' hk hki
  have := (in_sub_deps_correct mem b fuel d' false h2).mpr hreach
  cases this

/-- On an acyclic registry the edges that `main` writes belong to every edge
set with the reachability of the dependency graph, so as a set they are not
more than the edges of such a set. -/
theorem emitted_edges_least {r : registry} (fuel : Nat) (hac : acyclic r.mem)
    (E : List (Nat × Nat)) (hE : ∀ a b, edge_reach E a b ↔ reaches r.mem a b) :
    (∀ x ∈ emitted_edges fuel r, x ∈ E) ∧
      (emitted_edges fuel r).toFinset.card ≤ E.toFinset.card := by
  have hsub : ∀ x ∈ emitted_edges fuel r, x ∈ E := by
    intro x hx
    obtain ⟨a, b⟩ := x
    have hem := ((mem_emitted_edges fuel r a b).mp hx).2
    exact kept_in_every hac (fun x y => (x, y) ∈ E) hE (emitted_kept hem)
  refine ⟨hsub, Finset.card_le_card ?_⟩
  intro x hx
  rw [List.mem_toFinset] at hx ⊢
  exact hsub x hx

/-- The edges that `main` writes have the reachability of the dependency
graph, on an acyclic registry without repeated pointers in which every
entity with a dependency is registered. -/
theorem emitted_edges_reach {r : registry} {fuel : Nat} (hac : acyclic r.mem)
    (hnd : ∀ p, (deps_at r.mem p).Nodup) (hfuel : r.mem.length < fuel)
    (hreg : ∀ a d, d ∈ deps_at r.mem a → a ∈ r.the_list) (a b : Nat) :
    edge_reach (emitted_edges fuel r) a b ↔ reaches r.mem a b := by
  have hrel : (fun x y => (x, y) ∈ emitted_edges fuel r) = kept r.mem := by
    funext x y
    apply propext
    rw [mem_emitted_edges, emitted_iff_kept hac hnd hfuel]
    constructor
    · exact fun h => h.2
    · exact fun h => ⟨hreg x y h.1, h⟩
  unfold edge_reach
  rw [hrel]
  constructor
  · intro h
    exact Relation.TransGen.mono (fun x y hxy => hxy.1) h
  · exact reaches_kept hac a b

/-- C17 as stated fails: there is no acyclic registry, depth bound and edge
set with the reachability of the dependency graph such that the edge set has
fewer edges than `main` writes. -/
theorem no_smaller_edge_set :
    ¬ ∃ (r : registry) (fuel : Nat) (E : List (Nat × Nat)), acyclic r.mem ∧
      (∀ a b, edge_reach E a b ↔ reaches r.mem a b) ∧
      E.toFinset.card < (emitted_edges fuel r).toFinset.card := by
  rintro ⟨r, fuel, E, hac, hE, hlt⟩
  have := (emitted_edges_least fuel hac E hE).2
  omega

theorem acyclic_reg_diamond : acyclic reg_diamond.mem := by
  apply acyclic_of_rank _ (fun p => 3 - p)
  intro a b hd
  unfold dep deps_at at hd
  match a with
  | 0 => simp [reg_diamond] at hd; rcases hd with h | h | h <;> simp [h]
  | 1 => simp [reg_diamond] at hd; rcases hd with h | h <;> simp [h]
  | 2 => simp [reg_diamond] at hd; simp [hd]
  | 3 => simp [reg_diamond] at hd
  | n + 4 => simp [reg_diamond] at hd

theorem nodup_deps_reg_diamond : ∀ p, (deps_at reg_diamond.mem p).Nodup := by
  intro p
  match p with
  | 0 => decide
  | 1 => decide
  | 2 => decide
  | 3 => decide
  | n + 4 => simp [deps_at, reg_diamond]

theorem registered_reg_diamond :
    ∀ a d, d ∈ deps_at reg_diamond.mem a → a ∈ reg_diamond.the_list := by
  intro a d hd
  have := lt_length_of_dep hd
  simp only [reg_diamond, List.length_cons, List.length_nil] at this
  simp only [reg_diamond, List.mem_cons, List.mem_singleton, List.not_mem_nil, or_false]
  omega

/-- C17, amended: on an acyclic registry every edge that `main` writes
belongs to every edge set with the reachability of the dependency graph, so
the written edges are never more than the edges of such a set; if no array
`deps` holds a pointer twice, every entity with a dependency is registered
and the depth bound exceeds the number of entities, the written edges have
that reachability themselves, so they are the smallest such set.  For the
diamond A, B, C, D the written edges are A-B, B-C and C-D. -/
theorem reduction_is_minimum :
    (∀ (r : registry) (fuel : Nat) (E : List (Nat × Nat)), acyclic r.mem →
      (∀ a b, edge_reach E a b ↔ reaches r.mem a b) →
      (∀ x ∈ emitted_edges fuel r, x ∈ E) ∧
        (emitted_edges fuel r).toFinset.card ≤ E.toFinset.card) ∧
    (∀ (r : registry) (fuel : Nat), acyclic r.mem → (∀ p, (deps_at r.mem p).Nodup) →
      r.mem.length < fuel → (∀ a d, d ∈ deps_at r.mem a → a ∈ r.the_list) →
      ∀ a b, edge_reach (emitted_edges fuel r) a b ↔ reaches r.mem a b) ∧
    emitted_edges 5 reg_diamond = [(0, 1), (1, 2), (2, 3)] :=
  ⟨fun r fuel E hac hE => @emitted_edges_least r fuel hac E hE,
    fun r fuel hac hnd hfuel hreg a b => emitted_edges_reach hac hnd hfuel hreg a b,
    by decide⟩

/-- C17, amended, at the diamond: the three written edges belong to every
edge set with the reachability of the diamond. -/
theorem reduction_is_minimum_witness :
    acyclic reg_diamond.mem ∧
    (∀ a b, edge_reach (emitted_edges 5 reg_diamond) a b ↔ reaches reg_diamond.mem a b) ∧
    ((∀ x ∈ emitted_edges 5 reg_diamond, x ∈ emitted_edges 5 reg_diamond) ∧
      (emitted_edges 5 reg_diamond).toFinset.card ≤
        (emitted_edges 5 reg_diamond).toFinset.card) :=
  ⟨acyclic_reg_diamond,
    reduction_is_minimum.2.1 reg_diamond 5 acyclic_reg_diamond nodup_deps_reg_diamond
      (by decide) registered_reg_diamond,
    reduction_is_minimum.1 reg_diamond 5 (emitted_edges 5 reg_diamond) acyclic_reg_diamond
      (reduction_is_minimum.2.1 reg_diamond 5 acyclic_reg_diamond nodup_deps_reg_diamond
        (by decide) registered_reg_diamond)⟩

/-! ## Levels are longest-chain depths -/

/-- The two things a pass can do to an entity of a layered memory: leave it
as it is, or, if it is unresolved, registered and ready, print and resolve it
at the level of the pass counter. -/
theorem pass_cases {the_list : List Nat} {m : List s_entity} {l : Nat} (h : layered m l)
    {p : Nat} {e : s_entity} (he : m[p]? = some e) :
    ((e.is_resolved = true ∨ (decide (p ∈ the_list) && all_deps_resolved m p) = false) ∧
      (pass the_list m l).mem[p]? = some e) ∨
    (e.is_resolved = false ∧ p ∈ the_list ∧ all_deps_resolved m p = true ∧
      (pass the_list m l).mem[p]? =
        some { e with is_printed := true, lvl := l, is_resolved := true }) := by
  rw [pass_mem_get, he]
  simp only [Option.map_some', Option.some.injEq]
  obtain ⟨hpe, -⟩ := h p e he
  by_cases hres : e.is_resolved = true
  · have hpr : e.is_printed = true := by rw [hpe]; exact hres
    left
    exact ⟨Or.inl hres, pass_entity_resolved he hpr hres⟩
  · have hres2 : e.is_resolved = false := by simpa using hres
    have hpr : e.is_printed = false := by rw [hpe]; exact hres2
    by_cases hrdy : (decide (p ∈ the_list) && all_deps_resolved m p) = true
    · right
      simp only [Bool.and_eq_true, decide_eq_true_eq] at hrdy
      refine ⟨hres2, hrdy.1, hrdy.2, ?_⟩
      simp [pass_entity, mark_entity, resolve_entity, hrdy.1, hrdy.2, hpr]
    · left
      simp only [Bool.not_eq_true] at hrdy
      refine ⟨Or.inr hrdy, ?_⟩
      simp [pass_entity, mark_entity, resolve_entity, hrdy, hpr]

theorem exact_levels_of_fresh {r : registry} (h0 : fresh r.mem) (hload : fully_loaded r) :
    exact_levels r.the_list r.mem 0 := by
  refine ⟨layered_of_fresh h0 0, hload, ?_, ?_⟩
  · intro p _ e _ _ hl
    omega
  · intro p e he hres
    have := (h0 e (List.getElem?_mem he)).2
    rw [this] at hres
    cases hres

theorem exact_levels_pass {the_list : List Nat} {m : List s_entity} {l : Nat}
    (h : exact_levels the_list m l) : exact_levels the_list (pass the_list m l).mem (l + 1) := by
  obtain ⟨hlay, hload, hQ, hR⟩ := h
  have keep : ∀ (d : Nat) (ed : s_entity), m[d]? = some ed → ed.is_resolved = true →
      (pass the_list m l).mem[d]? = some ed := by
    intro d ed hd hr
    rcases @pass_cases the_list m l hlay d ed hd with ⟨-, h1⟩ | ⟨h1, -⟩
    · exact h1
    · rw [hr] at h1; cases h1
  have back : ∀ (p : Nat) (e2 : s_entity), (pass the_list m l).mem[p]? = some e2 →
      ∃ e, m[p]? = some e := by
    intro p e2 hp
    rw [pass_mem_get] at hp
    cases hm : m[p]? with
    | none => rw [hm] at hp; cases hp
    | some e => exact ⟨e, rfl⟩
  refine ⟨layered_pass hlay, ?_, ?_, ?_⟩
  · intro p hp
    obtain ⟨e, he, hel⟩ := hload p hp
    rcases @pass_cases the_list m l hlay p e he with ⟨-, h1⟩ | ⟨-, -, -, h1⟩
    · exact ⟨e, h1, hel⟩
    · exact ⟨_, h1, hel⟩
  · intro p hp e2 he2 hres2 _
    obtain ⟨e, he⟩ := back p e2 he2
    have hel : e.was_loaded = true := by
      obtain ⟨e3, he3, hel3⟩ := hload p hp
      rw [he] at he3
      cases he3
      exact hel3
    rcases @pass_cases the_list m l hlay p e he with ⟨hc, h1⟩ | ⟨-, -, -, h1⟩
    · obtain rfl : e = e2 := by rw [h1] at he2; exact Option.some.inj he2
      have hnr : all_deps_resolved m p = false := by
        rcases hc with hc | hc
        · rw [hres2] at hc; cases hc
        · simpa [hp] using hc
      have hex : ∃ d ∈ e.deps, resolved_at m d = false := by
        by_contra hne
        push_neg at hne
        have : all_deps_resolved m p = true :=
          (all_deps_resolved_iff m p).mpr
            ⟨e, he, hres2, hel, fun d hd => by simpa using hne d hd⟩
        rw [hnr] at this
        cases this
      obtain ⟨d, hd, hdr⟩ := hex
      refine ⟨d, hd, ?_⟩
      intro ed2 hed2 hedr2
      obtain ⟨ed, hed⟩ := back d ed2 hed2
      rcases @pass_cases the_list m l hlay d ed hed with ⟨-, h2⟩ | ⟨-, -, -, h2⟩
      · obtain rfl : ed = ed2 := by rw [h2] at hed2; exact Option.some.inj hed2
        have : resolved_at m d = true := (resolved_at_iff m d).mpr ⟨ed, hed, hedr2⟩
        rw [hdr] at this
        cases this
      · rw [h2] at hed2
        cases hed2
        rfl
    · rw [h1] at he2
      cases he2
      cases hres2
  · intro p e2 he2 hres2
    obtain ⟨e, he⟩ := back p e2 he2
    rcases @pass_cases the_list m l hlay p e he with ⟨-, h1⟩ | ⟨hun, hp, hrdy, h1⟩
    · obtain rfl : e = e2 := by rw [h1] at he2; exact Option.some.inj he2
      rcases hR p e he hres2 with h3 | ⟨d, hd, ed, hed, hlv⟩
      · exact Or.inl h3
      · right
        obtain ⟨ed2, hed2, hedr, -⟩ := ((hlay p e he).2 hres2).2.2 d hd
        rw [hed] at hed2
        cases hed2
        exact ⟨d, hd, ed, keep d ed hed hedr, hlv⟩
    · rw [h1] at he2
      cases he2
      have hdeps : ∀ d ∈ e.deps, resolved_at m d = true := by
        obtain ⟨e3, he3, -, -, hdeps3⟩ := (all_deps_resolved_iff m p).mp hrdy
        rw [he] at he3
        cases he3
        exact hdeps3
      by_cases hl0 : l = 0
      · left
        refine ⟨?_, hl0⟩
        cases hds : e.deps with
        | nil => rfl
        | cons d ds =>
          exfalso
          have hd : d ∈ e.deps := by rw [hds]; exact List.mem_cons_self _ _
          obtain ⟨ed, hed, hedr⟩ := (resolved_at_iff m d).mp (hdeps d hd)
          have := ((hlay d ed hed).2 hedr).1
          omega
      · right
        obtain ⟨d, hd, hlv⟩ := hQ p hp e he hun (by omega)
        obtain ⟨ed, hed, hedr⟩ := (resolved_at_iff m d).mp (hdeps d hd)
        exact ⟨d, hd, ed, keep d ed hed hedr, hlv ed hed hedr⟩

theorem is_trace_exact_levels {the_list : List Nat} {mem : List s_entity} {lvl : Nat}
    {t : List pass_result} (ht : is_trace the_list mem lvl t)
    (h : exact_levels the_list mem lvl) : ∀ x ∈ t, ∃ k, exact_levels the_list x.mem k := by
  induction ht with
  | last mem lvl _ =>
    intro x hx
    simp only [List.mem_singleton] at hx
    subst hx
    exact ⟨lvl + 1, exact_levels_pass h⟩
  | more mem lvl t _ _ ih =>
    intro x hx
    rcases List.mem_cons.mp hx with hx | hx
    · subst hx
      exact ⟨lvl + 1, exact_levels_pass h⟩
    · exact ih (exact_levels_pass h) x hx

theorem max_over_le {f : Nat → Nat} {k : Nat} :
    ∀ {ds : List Nat}, (∀ d ∈ ds, f d ≤ k) → max_over f ds ≤ k := by
  intro ds
  induction ds with
  | nil => intro _; simp [max_over]
  | cons d ds ih =>
    intro h
    have h1 := h d (List.mem_cons_self _ _)
    have h2 := ih (fun x hx => h x (List.mem_cons_of_mem _ hx))
    simp only [max_over, List.foldr_cons] at h2 ⊢
    omega

theorem le_max_over {f : Nat → Nat} :
    ∀ {ds : List Nat} {d : Nat}, d ∈ ds → f d ≤ max_over f ds := by
  intro ds
  induction ds with
  | nil => intro d hd; cases hd
  | cons x ds ih =>
    intro d hd
    simp only [max_over, List.foldr_cons]
    rcases List.mem_cons.mp hd with h | h
    · subst h; omega
    · have := ih h
      simp only [max_over] at this
      omega

theorem max_over_congr {f g : Nat → Nat} :
    ∀ {ds : List Nat}, (∀ d ∈ ds, f d = g d) → max_over f ds = max_over g ds := by
  intro ds
  induction ds with
  | nil => intro _; rfl
  | cons x ds ih =>
    intro h
    have h1 := h x (List.mem_cons_self _ _)
    have h2 := ih (fun d hd => h d (List.mem_cons_of_mem _ hd))
    simp only [max_over, List.foldr_cons] at h2 ⊢
    rw [h1, h2]

/-- A pass does not depend on the arrangement of `the_list`. -/
theorem pass_perm {l1 l2 : List Nat} (hp : l1.Perm l2) (mem : List s_entity) (lvl : Nat) :
    (pass l1 mem lvl).mem = (pass l2 mem lvl).mem ∧
      (loop_cond l1 (pass l1 mem lvl) ↔ loop_cond l2 (pass l2 mem lvl)) := by
  constructor
  · apply List.ext_getElem?
    intro q
    rw [pass_mem_get, pass_mem_get]
    have hq : decide (q ∈ l1) = decide (q ∈ l2) := by
      simp only [hp.mem_iff]
    unfold pass_entity
    rw [hq]
  · unfold loop_cond
    rw [pass_printed, pass_printed, pass_deep, pass_deep, hp.length_eq, hp.countP_eq]
    constructor
    · rintro ⟨h1, p, hp1, h2⟩
      exact ⟨h1, p, hp.mem_iff.mp hp1, h2⟩
    · rintro ⟨h1, p, hp1, h2⟩
      exact ⟨h1, p, hp.mem_iff.mpr hp1, h2⟩

/-- The memories that the loop goes through do not depend on the arrangement
of `the_list`. -/
theorem sort_loop_perm {l1 l2 : List Nat} (hp : l1.Perm l2) :
    ∀ (fuel : Nat) (mem : List s_entity) (lvl : Nat),
      (sort_loop l1 fuel mem lvl).map (List.map pass_result.mem) =
        (sort_loop l2 fuel mem lvl).map (List.map pass_result.mem) := by
  intro fuel
  induction fuel with
  | zero => intro mem lvl; rfl
  | succ f ih =>
    intro mem lvl
    obtain ⟨hm, hc⟩ := pass_perm hp mem lvl
    unfold loop_cond at hc
    unfold sort_loop
    simp only
    by_cases h1 : (pass l1 mem lvl).printed < l1.length ∧ (pass l1 mem lvl).deep ≠ 0
    · rw [if_pos h1, if_pos (hc.mp h1)]
      have := ih (pass l1 mem lvl).mem (lvl + 1)
      rw [hm] at this ⊢
      cases h3 : sort_loop l1 f (pass l2 mem lvl).mem (lvl + 1) <;>
        cases h4 : sort_loop l2 f (pass l2 mem lvl).mem (lvl + 1) <;>
        simp_all
    · rw [if_neg h1, if_neg (fun h => h1 (hc.mpr h))]
      simp [hm]

/-- C18 (levels are longest-chain depths): on a fully loaded, acyclic registry
closed under dependencies, entered with the sort flags clear, the loop halts
and in the halting state a registered entity without dependencies has `lvl`
0 and every other registered entity has `lvl` equal to 1 plus the maximum
`lvl` of its dependencies.  Hence the levels are fixed by the dependency
relation: every assignment of numbers to the registered entities that obeys
these two equations is the level assignment, and the loop run on any other
arrangement of `the_list` halts with the same memory. -/
theorem levels_are_depths (r : registry) (fuel : Nat) (h0 : fresh r.mem)
    (hload : fully_loaded r) (hclosed : closed r) (hacyc : acyclic r.mem)
    (hf : r.the_list.length < fuel) :
    ∃ t last, main_sort r fuel = some t ∧ t.getLast? = some last ∧
      (∀ p ∈ r.the_list, ∀ e, last.mem[p]? = some e →
        (e.deps = [] → e.lvl = 0) ∧
        (e.deps ≠ [] → e.lvl = 1 + max_over (lvl_at last.mem) e.deps)) ∧
      (∀ f : Nat → Nat,
        (∀ p ∈ r.the_list, (deps_at r.mem p = [] → f p = 0) ∧
          (deps_at r.mem p ≠ [] → f p = 1 + max_over f (deps_at r.mem p))) →
        ∀ p ∈ r.the_list, f p = lvl_at last.mem p) ∧
      (∀ l2 : List Nat, l2.Perm r.the_list →
        ∃ t2 last2, main_sort { mem := r.mem, the_list := l2 } fuel = some t2 ∧
          t2.getLast? = some last2 ∧ last2.mem = last.mem) := by
  obtain ⟨t, last, ht, hlast, htr, -⟩ := main_sort_returns r fuel (by omega)
  have hmem := List.mem_of_getLast?_eq_some hlast
  obtain ⟨k, hlay, -, -, hR⟩ :=
    is_trace_exact_levels htr (exact_levels_of_fresh h0 hload) last hmem
  have hsh : same_shape last.mem r.mem := is_trace_same_shape htr last hmem
  have hres : ∀ p ∈ r.the_list, resolved_at last.mem p = true := by
    intro p hp
    by_contra hnr
    have hur : resolved_at last.mem p = false := by simpa using hnr
    rcases (halt_unresolved_iff htr hlast h0 hload hclosed p hp).mp hur with hc | ⟨c, -, hc⟩
    · exact hacyc p hc
    · exact hacyc c hc
  have hformula : ∀ p ∈ r.the_list, ∀ e, last.mem[p]? = some e →
      (e.deps = [] → e.lvl = 0) ∧
      (e.deps ≠ [] → e.lvl = 1 + max_over (lvl_at last.mem) e.deps) := by
    intro p hp e he
    obtain ⟨e2, he2, her⟩ := (resolved_at_iff last.mem p).mp (hres p hp)
    rw [he] at he2
    cases he2
    have hdeps := ((hlay p e he).2 her).2.2
    constructor
    · intro hnil
      rcases hR p e he her with h | ⟨d, hd, -⟩
      · exact h.2
      · rw [hnil] at hd; cases hd
    · intro hne
      rcases hR p e he her with h | ⟨d, hd, ed, hed, hlv⟩
      · exact absurd h.1 hne
      · have hle : max_over (lvl_at last.mem) e.deps ≤ e.lvl - 1 := by
          apply max_over_le
          intro x hx
          obtain ⟨ex, hex, -, hlt⟩ := hdeps x hx
          simp only [lvl_at, hex]
          omega
        have hge : lvl_at last.mem d ≤ max_over (lvl_at last.mem) e.deps := le_max_over hd
        simp only [lvl_at, hed] at hge
        omega
  refine ⟨t, last, ht, hlast, hformula, ?_, ?_⟩
  · intro f hfun
    have key : ∀ n p, p ∈ r.the_list → lvl_at last.mem p = n → f p = lvl_at last.mem p := by
      intro n
      induction n using Nat.strong_induction_on with
      | _ n ih =>
        intro p hp hn
        obtain ⟨e, he, her⟩ := (resolved_at_iff last.mem p).mp (hres p hp)
        have hd : deps_at r.mem p = e.deps := by
          rw [← deps_at_same_shape hsh, deps_at_eq he]
        have hlv : lvl_at last.mem p = e.lvl := by simp [lvl_at, he]
        obtain ⟨hf1, hf2⟩ := hfun p hp
        obtain ⟨hg1, hg2⟩ := hformula p hp e he
        rw [hd] at hf1 hf2
        by_cases hnil : e.deps = []
        · rw [hf1 hnil, hlv, hg1 hnil]
        · rw [hf2 hnil, hlv, hg2 hnil]
          congr 1
          apply max_over_congr
          intro d hdm
          obtain ⟨ed, hed, -, hlt⟩ := ((hlay p e he).2 her).2.2 d hdm
          have hdl : d ∈ r.the_list := hclosed p hp d (by rw [hd]; exact hdm)
          have hdv : lvl_at last.mem d = ed.lvl := by simp [lvl_at, hed]
          exact ih ed.lvl (by omega) d hdl hdv
    exact fun p hp => key _ p hp rfl
  · intro l2 hp
    have hperm := sort_loop_perm hp fuel r.mem 0
    have ht1 : sort_loop r.the_list fuel r.mem 0 = some t := ht
    rw [ht1] at hperm
    cases ht2 : sort_loop l2 fuel r.mem 0 with
    | none => rw [ht2] at hperm; cases hperm
    | some t2 =>
      rw [ht2] at hperm
      simp only [Option.map_some', Option.some.injEq] at hperm
      have hl := congrArg List.getLast? hperm
      rw [List.getLast?_map, List.getLast?_map, hlast] at hl
      cases hl2 : t2.getLast? with
      | none => rw [hl2] at hl; cases hl
      | some last2 =>
        rw [hl2] at hl
        simp only [Option.map_some', Option.some.injEq] at hl
        exact ⟨t2, last2, ht2, hl2, hl⟩

/-- C18 at the registry Z, X, Y. -/
theorem levels_are_depths_witness :
    fresh reg_zxy.mem ∧ fully_loaded reg_zxy ∧ closed reg_zxy ∧ acyclic reg_zxy.mem ∧
    ∃ t last, main_sort reg_zxy 4 = some t ∧ t.getLast? = some last ∧
      (∀ p ∈ reg_zxy.the_list, ∀ e, last.mem[p]? = some e →
        (e.deps = [] → e.lvl = 0) ∧
        (e.deps ≠ [] → e.lvl = 1 + max_over (lvl_at last.mem) e.deps)) ∧
      (∀ f : Nat → Nat,
        (∀ p ∈ reg_zxy.the_list, (deps_at reg_zxy.mem p = [] → f p = 0) ∧
          (deps_at reg_zxy.mem p ≠ [] → f p = 1 + max_over f (deps_at reg_zxy.mem p))) →
        ∀ p ∈ reg_zxy.the_list, f p = lvl_at last.mem p) ∧
      (∀ l2 : List Nat, l2.Perm reg_zxy.the_list →
        ∃ t2 last2, main_sort { mem := reg_zxy.mem, the_list := l2 } 4 = some t2 ∧
          t2.getLast? = some last2 ∧ last2.mem = last.mem) :=
  ⟨fresh_reg_zxy, fully_loaded_reg_zxy, closed_reg_zxy, acyclic_reg_zxy,
    levels_are_depths reg_zxy 4 fresh_reg_zxy fully_loaded_reg_zxy closed_reg_zxy
      acyclic_reg_zxy (by decide)⟩

/-! ## The loading loops -/

theorem map_name_eq_of_name_at {m1 m2 : List s_entity}
    (h : ∀ p, name_at m1 p = name_at m2 p) :
    m1.map s_entity.name = m2.map s_entity.name := by
  apply List.ext_getElem?
  intro p
  rw [List.getElem?_map, List.getElem?_map]
  exact h p

theorem length_add_dep (mem : List s_entity) (that add : Nat) :
    (add_dep mem that add).length = mem.length := by
  rcases add_dep_result mem that add with h | ⟨t, a, -, -, -, -, h⟩
  · rw [h]
  · rw [h, List.length_set]

theorem loaded_at_add_dep (mem : List s_entity) (that add p : Nat) :
    loaded_at (add_dep mem that add) p = loaded_at mem p := by
  rcases add_dep_result mem that add with h | ⟨t, a, ht, -, -, -, h⟩
  · rw [h]
  · rw [h]
    unfold loaded_at
    rw [List.getElem?_set]
    by_cases hp : that = p
    · subst hp
      have hlt : that < mem.length := (List.getElem?_eq_some.mp ht).1
      simp [hlt, ht]
    · simp [hp]

theorem deps_valid_add_dep (mem : List s_entity) (that add : Nat)
    (h : ∀ p d, d ∈ deps_at mem p → d < mem.length) :
    ∀ p d, d ∈ deps_at (add_dep mem that add) p → d < (add_dep mem that add).length := by
  intro p d hd
  rw [length_add_dep]
  rcases add_dep_result mem that add with he | ⟨t, a, ht, ha, -, -, he⟩
  · rw [he] at hd
    exact h p d hd
  · rw [he, deps_at_set_deps _ _ _ _ ht] at hd
    by_cases hp : p = that
    · rw [if_pos hp] at hd
      rcases List.mem_append.mp hd with hd | hd
      · exact h that d (by rw [deps_at_eq ht]; exact hd)
      · simp only [List.mem_singleton] at hd
        rw [hd]
        exact (List.getElem?_eq_some.mp ha).1
    · rw [if_neg hp] at hd
      exact h p d hd

/-- What `create_entity` does to a registry whose `the_list` holds the
allocated entities in order. -/
theorem create_entity_cases (r : registry) (n : String)
    (hl : r.the_list = List.range r.mem.length) :
    (create_entity r n = (r, (create_entity r n).2) ∧ (create_entity r n).2 < r.mem.length) ∨
    (create_entity r n =
        ({ mem := r.mem ++ [new_entity n], the_list := r.the_list ++ [r.mem.length] },
          r.mem.length) ∧
      ∀ x ∈ r.mem.map s_entity.name, x ≠ n) := by
  cases hf : find_entity r.mem n r.the_list with
  | some q =>
    left
    have hce : create_entity r n = (r, q) := by simp [create_entity, hf]
    obtain ⟨hq1, -⟩ := find_entity_some hf
    rw [hce]
    rw [hl] at hq1
    exact ⟨rfl, List.mem_range.mp hq1⟩
  | none =>
    right
    have hce : create_entity r n =
        ({ mem := r.mem ++ [new_entity n], the_list := r.the_list ++ [r.mem.length] },
          r.mem.length) := by simp [create_entity, hf]
    refine ⟨hce, ?_⟩
    have hnone := find_entity_none.mp hf
    intro x hx hxn
    obtain ⟨e, he, hex⟩ := List.mem_map.mp hx
    obtain ⟨p, hp⟩ := List.mem_iff_getElem?.mp he
    have hpl : p < r.mem.length := (List.getElem?_eq_some.mp hp).1
    apply hnone p (by rw [hl]; exact List.mem_range.mpr hpl)
    simp [name_at, hp, hex, hxn]

theorem loaded_at_append_new (mem : List s_entity) (n : String) (p : Nat) :
    loaded_at (mem ++ [new_entity n]) p = loaded_at mem p := by
  unfold loaded_at
  rw [List.getElem?_append]
  by_cases hp : p < mem.length
  · simp [hp]
  · rw [if_neg hp, List.getElem?_eq_none (by omega : mem.length ≤ p)]
    cases hq : ([new_entity n])[p - mem.length]? with
    | none => rfl
    | some e =>
      have := List.getElem?_mem hq
      simp only [List.mem_singleton] at this
      subst this
      rfl

theorem deps_at_append_new (mem : List s_entity) (n : String) (p : Nat) :
    deps_at (mem ++ [new_entity n]) p = deps_at mem p := by
  unfold deps_at
  rw [List.getElem?_append]
  by_cases hp : p < mem.length
  · simp [hp]
  · rw [if_neg hp, List.getElem?_eq_none (by omega : mem.length ≤ p)]
    cases hq : ([new_entity n])[p - mem.length]? with
    | none => rfl
    | some e =>
      have := List.getElem?_mem hq
      simp only [List.mem_singleton] at this
      subst this
      rfl

/-- `create_entity` with a name of `names` keeps the registry as the loading
loops need it, returns an allocated entity, and loads nothing. -/
theorem loading_ok_create_entity {names : List String} {r : registry} {n : String}
    (h : loading_ok names r) (hn : n ∈ names) :
    loading_ok names (create_entity r n).1 ∧
    (create_entity r n).2 < (create_entity r n).1.mem.length ∧
    r.mem.length ≤ (create_entity r n).1.mem.length ∧
    ∀ p, loaded_at (create_entity r n).1.mem p = loaded_at r.mem p := by
  obtain ⟨hl, hnd, hnames, hdeps, hfresh⟩ := h
  rcases create_entity_cases r n hl with ⟨hce, hlt⟩ | ⟨hce, hnew⟩
  · rw [hce]
    exact ⟨⟨hl, hnd, hnames, hdeps, hfresh⟩, hlt, Nat.le_refl _, fun _ => rfl⟩
  · rw [hce]
    refine ⟨⟨?_, ?_, ?_, ?_, ?_⟩, by simp, by simp, loaded_at_append_new r.mem n⟩
    · simp only [List.length_append, List.length_singleton, List.range_succ, hl]
    · simp only [List.map_append, List.map_cons, List.map_nil]
      apply List.Nodup.append hnd (List.nodup_singleton _)
      intro x hx1 hx2
      simp only [List.mem_singleton] at hx2
      exact hnew x hx1 hx2
    · intro x hx
      simp only [List.map_append, List.map_cons, List.map_nil, List.mem_append,
        List.mem_singleton] at hx
      rcases hx with hx | hx
      · exact hnames x hx
      · rw [hx]; exact hn
    · intro p d hd
      rw [deps_at_append_new] at hd
      have := hdeps p d hd
      simp only [List.length_append, List.length_singleton]
      omega
    · have := fresh_create_entity r n hfresh
      rw [hce] at this
      exact this

/-- One step of `read_deps` keeps the registry as the loading loops need it
and loads nothing. -/
theorem loading_ok_read_dep {names : List String} {r : registry} {n : String} (that : Nat)
    (h : loading_ok names r) (hn : n ∈ names) :
    loading_ok names (read_dep that r n) ∧
    r.mem.length ≤ (read_dep that r n).mem.length ∧
    ∀ p, loaded_at (read_dep that r n).mem p = loaded_at r.mem p := by
  obtain ⟨⟨hl, hnd, hnames, hdeps, hfresh⟩, -, hlen, hload⟩ := loading_ok_create_entity h hn
  have hname : (add_dep (create_entity r n).1.mem that (create_entity r n).2).map s_entity.name =
      (create_entity r n).1.mem.map s_entity.name :=
    map_name_eq_of_name_at (name_at_add_dep _ _ _)
  unfold read_dep
  refine ⟨⟨?_, ?_, ?_, ?_, ?_⟩, ?_, ?_⟩
  · simp only [length_add_dep]
    exact hl
  · simp only [hname]
    exact hnd
  · simp only [hname]
    exact hnames
  · exact deps_valid_add_dep _ _ _ hdeps
  · exact fresh_add_dep _ _ _ hfresh
  · simp only [length_add_dep]
    exact hlen
  · intro p
    simp only [loaded_at_add_dep]
    exact hload p

theorem foldl_read_dep {names : List String} (that : Nat) :
    ∀ (ns : List String) (r : registry), loading_ok names r → (∀ n ∈ ns, n ∈ names) →
      loading_ok names (ns.foldl (read_dep that) r) ∧
      r.mem.length ≤ (ns.foldl (read_dep that) r).mem.length ∧
      ∀ p, loaded_at (ns.foldl (read_dep that) r).mem p = loaded_at r.mem p := by
  intro ns
  induction ns with
  | nil => intro r h _; exact ⟨h, Nat.le_refl _, fun _ => rfl⟩
  | cons n ns ih =>
    intro r h hns
    obtain ⟨h1, h2, h3⟩ := loading_ok_read_dep that h (hns n (List.mem_cons_self _ _))
    obtain ⟨h4, h5, h6⟩ := ih (read_dep that r n) h1 (fun x hx => hns x (List.mem_cons_of_mem _ hx))
    rw [List.foldl_cons]
    exact ⟨h4, by omega, fun p => (h6 p).trans (h3 p)⟩

/-- The call `read_deps (that)`, for recipes that stay within `names`, keeps
the registry as the loading loops need it and loads nothing. -/
theorem loading_ok_read_deps {names : List String} {recipe : String → List String}
    (hrec : ∀ n ∈ names, ∀ d ∈ recipe n, d ∈ names) {r : registry} (that : Nat)
    (h : loading_ok names r) :
    loading_ok names (read_deps recipe r that) ∧
    r.mem.length ≤ (read_deps recipe r that).mem.length ∧
    ∀ p, loaded_at (read_deps recipe r that).mem p = loaded_at r.mem p := by
  unfold read_deps
  cases ht : r.mem[that]? with
  | none => exact ⟨h, Nat.le_refl _, fun _ => rfl⟩
  | some t =>
    have htn : t.name ∈ names := h.2.2.1 t.name (List.mem_map.mpr ⟨t, List.getElem?_mem ht, rfl⟩)
    exact foldl_read_dep that (recipe t.name) r h (hrec t.name htn)

theorem set_loaded_get (mem : List s_entity) (p q : Nat) :
    (set_loaded mem p)[q]? =
      (mem[q]?).map (fun e => if q = p then { e with was_loaded := true } else e) := by
  unfold set_loaded
  cases hp : mem[p]? with
  | none =>
    by_cases hq : q = p
    · subst hq; simp [hp]
    · cases hm : mem[q]? <;> simp [hq, hm]
  | some e =>
    simp only
    by_cases hq : q = p
    · subst hq
      have hlt : q < mem.length := (List.getElem?_eq_some.mp hp).1
      simp [List.getElem?_set, hlt, hp]
    · have hq2 : p ≠ q := fun h => hq h.symm
      rw [List.getElem?_set_ne hq2]
      cases hm : mem[q]? <;> simp [hq, hm]

theorem length_set_loaded (mem : List s_entity) (p : Nat) :
    (set_loaded mem p).length = mem.length := by
  unfold set_loaded
  cases mem[p]? <;> simp

theorem loaded_at_set_loaded (mem : List s_entity) (p q : Nat) :
    loaded_at (set_loaded mem p) q =
      (loaded_at mem q || (decide (q = p) && decide (p < mem.length))) := by
  unfold loaded_at
  rw [set_loaded_get]
  cases hq : mem[q]? with
  | none =>
    simp only [Option.map_none', Bool.false_or]
    by_cases hqp : q = p
    · subst hqp
      have : ¬ q < mem.length := by
        intro hlt
        rw [List.getElem?_eq_getElem hlt] at hq
        cases hq
      simp [this]
    · simp [hqp]
  | some e =>
    simp only [Option.map_some']
    by_cases hqp : q = p
    · subst hqp
      have hlt : q < mem.length := (List.getElem?_eq_some.mp hq).1
      simp [hlt]
    · simp [hqp]

/-- The assignment `was_loaded = 1` keeps the registry as the loading loops
need it. -/
theorem loading_ok_set_loaded {names : List String} {r : registry} (p : Nat)
    (h : loading_ok names r) :
    loading_ok names { mem := set_loaded r.mem p, the_list := r.the_list } := by
  obtain ⟨hl, hnd, hnames, hdeps, hfresh⟩ := h
  have hname : (set_loaded r.mem p).map s_entity.name = r.mem.map s_entity.name := by
    apply map_name_eq_of_name_at
    intro q
    unfold name_at
    rw [set_loaded_get]
    cases r.mem[q]? with
    | none => rfl
    | some e => simp only [Option.map_some']; split <;> rfl
  have hd : ∀ q, deps_at (set_loaded r.mem p) q = deps_at r.mem q := by
    intro q
    unfold deps_at
    rw [set_loaded_get]
    cases r.mem[q]? with
    | none => rfl
    | some e => simp only [Option.map_some']; split <;> rfl
  refine ⟨?_, ?_, ?_, ?_, ?_⟩
  · simp only [length_set_loaded]
    exact hl
  · simp only [hname]
    exact hnd
  · simp only [hname]
    exact hnames
  · intro q d hqd
    simp only [hd, length_set_loaded] at hqd ⊢
    exact hdeps q d hqd
  · intro e he
    obtain ⟨q, hq⟩ := List.mem_iff_getElem?.mp he
    simp only at hq
    rw [set_loaded_get] at hq
    cases hm : r.mem[q]? with
    | none => rw [hm] at hq; cases hq
    | some e0 =>
      rw [hm] at hq
      simp only [Option.map_some', Option.some.injEq] at hq
      have h0 := hfresh e0 (List.getElem?_mem hm)
      rw [← hq]
      split <;> exact h0

theorem loaded_at_eq {mem : List s_entity} {p : Nat} (hp : p < mem.length) :
    loaded_at mem p = mem[p].was_loaded := by
  simp [loaded_at, List.getElem?_eq_getElem hp]

/-- The step that both loading loops make for an entity `p` that is not
loaded, in either order of `read_deps` and `was_loaded = 1`, keeps the
invariant. -/
theorem load_inv_read {names : List String} {recipe : String → List String}
    (hrec : ∀ n ∈ names, ∀ d ∈ recipe n, d ∈ names) {r : registry} {reads : List Nat} {p : Nat}
    (hok : loading_ok names r) (hnd : reads.Nodup)
    (hreads : ∀ q, q ∈ reads ↔ loaded_at r.mem q = true)
    (hp : p < r.mem.length) (hnl : loaded_at r.mem p = false) :
    load_inv names
      { reg := { mem := set_loaded (read_deps recipe r p).mem p,
                 the_list := (read_deps recipe r p).the_list },
        reads := reads ++ [p] } ∧
    load_inv names
      { reg := read_deps recipe { mem := set_loaded r.mem p, the_list := r.the_list } p,
        reads := reads ++ [p] } := by
  have hnot : p ∉ reads := by
    intro hmem
    have := (hreads p).mp hmem
    rw [hnl] at this
    cases this
  have hnd2 : (reads ++ [p]).Nodup := by
    apply List.Nodup.append hnd (List.nodup_singleton _)
    intro x hx1 hx2
    simp only [List.mem_singleton] at hx2
    subst hx2
    exact hnot hx1
  constructor
  · obtain ⟨h1, h2, h3⟩ := loading_ok_read_deps hrec p hok
    refine ⟨loading_ok_set_loaded p h1, hnd2, ?_⟩
    intro q
    simp only [List.mem_append, List.mem_singleton, loaded_at_set_loaded, h3, hreads,
      Bool.or_eq_true, Bool.and_eq_true, decide_eq_true_eq]
    constructor
    · rintro (h | h)
      · exact Or.inl h
      · exact Or.inr ⟨h, by omega⟩
    · rintro (h | ⟨h, -⟩)
      · exact Or.inl h
      · exact Or.inr h
  · obtain ⟨h1, h2, h3⟩ := loading_ok_read_deps hrec p (loading_ok_set_loaded p hok)
    refine ⟨h1, hnd2, ?_⟩
    intro q
    simp only [List.mem_append, List.mem_singleton, h3, loaded_at_set_loaded, hreads,
      Bool.or_eq_true, Bool.and_eq_true, decide_eq_true_eq]
    constructor
    · rintro (h | h)
      · exact Or.inl h
      · exact Or.inr ⟨h, hp⟩
    · rintro (h | ⟨h, -⟩)
      · exact Or.inl h
      · exact Or.inr h

/-- The body of the first loading loop keeps the invariant. -/
theorem load_inv_load_root {names : List String} {recipe : String → List String}
    (hrec : ∀ n ∈ names, ∀ d ∈ recipe n, d ∈ names) {s : load_state} {name : String}
    (h : load_inv names s) (hn : name ∈ names) : load_inv names (load_root recipe s name) := by
  obtain ⟨hok, hnd, hreads⟩ := h
  obtain ⟨hok1, hv, -, hload⟩ := loading_ok_create_entity hok hn
  have hreads1 : ∀ q, q ∈ s.reads ↔ loaded_at (create_entity s.reg name).1.mem q = true := by
    intro q
    rw [hload]
    exact hreads q
  unfold load_root
  rw [List.getElem?_eq_getElem hv]
  simp only
  by_cases hw : ((create_entity s.reg name).1.mem[(create_entity s.reg name).2]).was_loaded = false
  · rw [if_pos hw]
    exact (load_inv_read hrec hok1 hnd hreads1 hv (by rw [loaded_at_eq hv]; exact hw)).1
  · rw [if_neg hw]
    exact ⟨hok1, hnd, hreads1⟩

theorem load_inv_roots {names : List String} {recipe : String → List String}
    (hrec : ∀ n ∈ names, ∀ d ∈ recipe n, d ∈ names) :
    ∀ (roots : List String) (s : load_state), load_inv names s → (∀ n ∈ roots, n ∈ names) →
      load_inv names (roots.foldl (load_root recipe) s) := by
  intro roots
  induction roots with
  | nil => intro s h _; exact h
  | cons n roots ih =>
    intro s h hr
    rw [List.foldl_cons]
    exact ih _ (load_inv_load_root hrec h (hr n (List.mem_cons_self _ _)))
      (fun x hx => hr x (List.mem_cons_of_mem _ hx))

theorem length_le_names {names : List String} {r : registry} (h : loading_ok names r) :
    r.mem.length ≤ names.length := by
  have := (List.subperm_of_subset h.2.1 (fun x hx => h.2.2.1 x hx)).length_le
  simpa using this

/-- The second loading loop returns, keeps the invariant and leaves every
entity loaded. -/
theorem load_rest_spec {names : List String} {recipe : String → List String}
    (hrec : ∀ n ∈ names, ∀ d ∈ recipe n, d ∈ names) :
    ∀ (fuel : Nat) (s : load_state) (i : Nat), load_inv names s →
      (∀ j < i, loaded_at s.reg.mem j = true) → i ≤ s.reg.mem.length →
      names.length + 1 ≤ fuel + i →
      ∃ s2, load_rest recipe fuel s i = some s2 ∧ load_inv names s2 ∧
        ∀ j < s2.reg.mem.length, loaded_at s2.reg.mem j = true := by
  intro fuel
  induction fuel with
  | zero =>
    intro s i h _ hi hf
    have := length_le_names h.1
    omega
  | succ f ih =>
    intro s i h hprev hi hf
    obtain ⟨hok, hnd, hreads⟩ := h
    have hl := hok.1
    unfold load_rest
    by_cases hlt : i < s.reg.mem.length
    · have hget : s.reg.the_list[i]? = some i := by
        rw [hl]
        exact List.getElem?_range hlt
      rw [hget]
      simp only
      rw [List.getElem?_eq_getElem hlt]
      simp only
      by_cases hw : (s.reg.mem[i]).was_loaded = false
      · rw [if_pos hw]
        have hnl : loaded_at s.reg.mem i = false := by rw [loaded_at_eq hlt]; exact hw
        have hinv := (load_inv_read hrec hok hnd hreads hlt hnl).2
        obtain ⟨h1, h2, h3⟩ := loading_ok_read_deps hrec i (loading_ok_set_loaded i hok)
        simp only [length_set_loaded] at h2
        apply ih _ (i + 1) hinv
        · intro j hj
          simp only [h3, loaded_at_set_loaded, Bool.or_eq_true, Bool.and_eq_true,
            decide_eq_true_eq]
          by_cases hji : j = i
          · exact Or.inr ⟨hji, hlt⟩
          · exact Or.inl (hprev j (by omega))
        · simp only
          omega
        · omega
      · rw [if_neg hw]
        have hld : loaded_at s.reg.mem i = true := by
          rw [loaded_at_eq hlt]
          simpa using hw
        apply ih s (i + 1) ⟨hok, hnd, hreads⟩
        · intro j hj
          by_cases hji : j = i
          · rw [hji]; exact hld
          · exact hprev j (by omega)
        · omega
        · omega
    · have hget : s.reg.the_list[i]? = none := by
        rw [hl]
        apply List.getElem?_eq_none
        simp only [List.length_range]
        omega
      rw [hget]
      exact ⟨s, rfl, ⟨hok, hnd, hreads⟩, fun j hj => hprev j (by omega)⟩

theorem load_inv_empty (names : List String) :
    load_inv names { reg := { mem := [], the_list := [] }, reads := [] } := by
  refine ⟨⟨rfl, by simp, ?_, ?_, ?_⟩, by simp, ?_⟩
  · intro x hx; simp at hx
  · intro p d hd; simp [deps_at] at hd
  · intro e he; cases he
  · intro p; simp [loaded_at]

theorem registry_ok_of_loading_ok {names : List String} {r : registry}
    (h : loading_ok names r) : registry_ok r := by
  obtain ⟨hl, hnd, -, -, -⟩ := h
  constructor
  · intro p hp
    rw [hl] at hp
    exact List.mem_range.mp hp
  · rw [hl]
    apply List.Nodup.map_on _ (List.nodup_range _)
    intro x hx y hy hxy
    have hxl := List.mem_range.mp hx
    have hyl := List.mem_range.mp hy
    simp only [name_at, List.getElem?_eq_getElem hxl, List.getElem?_eq_getElem hyl,
      Option.map_some', Option.some.injEq] at hxy
    have hxm : x < (r.mem.map s_entity.name).length := by simpa using hxl
    have hym : y < (r.mem.map s_entity.name).length := by simpa using hyl
    exact (@List.Nodup.getElem_inj_iff _ _ hnd x hxm y hym).mp (by simpa using hxy)

/-- C14 (every entity is loaded exactly once, before sorting): for a recipe
collaborator whose dependency names stay within a finite list `names` that
holds the recipe arguments `roots` of the command line, the two loading loops
of `main` end (a bound above the number of names is enough), and afterwards
every registered entity has `was_loaded = 1`, the calls of `read_deps` were
made for exactly the registered entities, once each, every dependency of
every entity is registered, the sort flags are clear, and the registry has
valid pointers and pairwise distinct names. -/
theorem loads_once (recipe : String → List String) (roots names : List String) (fuel : Nat)
    (hroots : ∀ n ∈ roots, n ∈ names) (hrec : ∀ n ∈ names, ∀ d ∈ recipe n, d ∈ names)
    (hf : names.length < fuel) :
    ∃ s, main_load recipe roots fuel = some s ∧
      fully_loaded s.reg ∧
      (s.reads.Perm s.reg.the_list ∧ s.reg.the_list.Nodup ∧
        ∀ p ∈ s.reg.the_list, s.reads.count p = 1) ∧
      (∀ p d, d ∈ deps_at s.reg.mem p → d ∈ s.reg.the_list) ∧
      closed s.reg ∧ fresh s.reg.mem ∧ registry_ok s.reg := by
  have h0 := load_inv_roots hrec roots _ (load_inv_empty names) hroots
  obtain ⟨s, hs, ⟨hok, hnd, hreads⟩, hall⟩ :=
    load_rest_spec hrec fuel _ 0 h0 (fun j hj => by omega) (Nat.zero_le _) (by omega)
  have hl := hok.1
  have hmem : ∀ p, p ∈ s.reg.the_list ↔ p < s.reg.mem.length := by
    intro p
    rw [hl]
    exact List.mem_range
  have hlnd : s.reg.the_list.Nodup := by rw [hl]; exact List.nodup_range _
  have hiff : ∀ p, p ∈ s.reads ↔ p ∈ s.reg.the_list := by
    intro p
    rw [hreads, hmem]
    constructor
    · intro h
      by_contra hge
      have : loaded_at s.reg.mem p = false := by
        simp [loaded_at, List.getElem?_eq_none (by omega : s.reg.mem.length ≤ p)]
      rw [this] at h
      cases h
    · exact hall p
  have hdeps : ∀ p d, d ∈ deps_at s.reg.mem p → d ∈ s.reg.the_list :=
    fun p d hd => (hmem d).mpr (hok.2.2.2.1 p d hd)
  refine ⟨s, hs, ?_, ⟨(List.perm_ext_iff_of_nodup hnd hlnd).mpr hiff, hlnd, ?_⟩, hdeps,
    fun p _ d hd => hdeps p d hd, hok.2.2.2.2, registry_ok_of_loading_ok hok⟩
  · intro p hp
    have hlt := (hmem p).mp hp
    refine ⟨s.reg.mem[p], List.getElem?_eq_getElem hlt, ?_⟩
    rw [← loaded_at_eq hlt]
    exact hall p hlt
  · intro p hp
    exact List.count_eq_one_of_mem hnd ((hiff p).mpr hp)

/-- C14 for the recipes `recipe_pqs` and a command line that names the root
`p-feedstock` twice. -/
theorem loads_once_witness :
    (∀ n ∈ ["p-feedstock", "p-feedstock"],
      n ∈ ["p-feedstock", "q-feedstock", "s-feedstock"]) ∧
    (∀ n ∈ ["p-feedstock", "q-feedstock", "s-feedstock"], ∀ d ∈ recipe_pqs n,
      d ∈ ["p-feedstock", "q-feedstock", "s-feedstock"]) ∧
    ∃ s, main_load recipe_pqs ["p-feedstock", "p-feedstock"] 4 = some s ∧
      fully_loaded s.reg ∧
      (s.reads.Perm s.reg.the_list ∧ s.reg.the_list.Nodup ∧
        ∀ p ∈ s.reg.the_list, s.reads.count p = 1) ∧
      (∀ p d, d ∈ deps_at s.reg.mem p → d ∈ s.reg.the_list) ∧
      closed s.reg ∧ fresh s.reg.mem ∧ registry_ok s.reg :=
  ⟨by decide, by decide,
    loads_once recipe_pqs ["p-feedstock", "p-feedstock"]
      ["p-feedstock", "q-feedstock", "s-feedstock"] 4 (by decide) (by decide) (by decide)⟩

/-! ## The completion status -/

/-- The inner edge loop returns when every call of `in_deps` it makes
returns, and then it has written the edges for which the call returned 0. -/
theorem edge_loop_from_some (fuel : Nat) (mem : List s_entity) (a : Nat) :
    ∀ (ds : List Nat) (ii : Nat),
      (∀ j, j < ds.length → ∃ b, in_deps fuel mem a (ii + j) = some b) →
      edge_loop_from fuel mem a ii ds = some (edges_from fuel mem a ii ds) := by
  intro ds
  induction ds with
  | nil => intro ii _; rfl
  | cons d ds ih =>
    intro ii h
    obtain ⟨b, hb⟩ := h 0 (by simp)
    have hrest := ih (ii + 1) (fun j hj => by
      have := h (j + 1) (by simpa using hj)
      rwa [show ii + (j + 1) = ii + 1 + j by omega] at this)
    rw [Nat.add_zero] at hb
    unfold edge_loop_from edges_from
    rw [hb, hrest]
    cases b <;> simp

/-- The edge loop returns when every call of `in_deps` it makes returns, and
then it has written the edges for which the call returned 0. -/
theorem edge_loop_some (fuel : Nat) (mem : List s_entity) :
    ∀ l : List Nat,
      (∀ a ∈ l, ∀ j, j < (deps_at mem a).length → ∃ b, in_deps fuel mem a j = some b) →
      edge_loop fuel mem l = some (emitted_edges fuel { mem := mem, the_list := l }) := by
  intro l
  induction l with
  | nil => intro _; rfl
  | cons a rest ih =>
    intro h
    have h1 := edge_loop_from_some fuel mem a (deps_at mem a) 0 (fun j hj => by
      rw [Nat.zero_add]; exact h a (List.mem_cons_self _ _) j hj)
    have h2 := ih (fun x hx => h x (List.mem_cons_of_mem _ hx))
    unfold edge_loop
    rw [h1, h2]
    simp [emitted_edges]

/-- In a layered memory a call `in_deps (a, j)` for a resolved entity `a`
returns within a depth of the pass counter. -/
theorem in_deps_returns_layered {m : List s_entity} {k fuel : Nat} (h : layered m k)
    (hk : k ≤ fuel) {a j : Nat} (ha : resolved_at m a = true)
    (hj : j < (deps_at m a).length) : ∃ b, in_deps fuel m a j = some b := by
  unfold resolved_at at ha
  cases he : m[a]? with
  | none => rw [he] at ha; cases ha
  | some e =>
    rw [he] at ha
    simp only at ha
    obtain ⟨hlt, -, hdeps⟩ := (h a e he).2 ha
    have hd : deps_at m a = e.deps := deps_at_eq he
    rw [hd] at hj
    unfold in_deps
    rw [hd, List.getElem?_eq_getElem hj]
    simp only
    apply in_deps_loop_some
    intro d hdm
    obtain ⟨ed, hed, hedr, hedl⟩ := hdeps d hdm
    exact in_sub_deps_returns_layered h _ fuel d ed hed hedr (by omega)

/-- The rendering returns in the shell and bat modes, and in the gexf mode
when every registered entity is resolved in a layered memory. -/
theorem render_edges_some {out : registry} {k l fuel : Nat} (h : layered out.mem l)
    (hl : l ≤ fuel)
    (hres : is_gexf_mode k = true → ∀ p ∈ out.the_list, resolved_at out.mem p = true) :
    ∃ E, render_edges k fuel out = some E := by
  unfold render_edges
  cases hk : is_gexf_mode k with
  | false => exact ⟨[], by simp⟩
  | true =>
    rw [if_pos rfl]
    exact ⟨_, edge_loop_some fuel out.mem out.the_list
      (fun a ha j hj => in_deps_returns_layered h hl (hres hk a ha) hj)⟩

/-- C5 (completion status): the code does not keep this in the gexf mode.  On
the registry that the loading loops build for P naming Q and S and Q naming
P, the pass loop halts with P unresolved, so that the status to return is 1;
in the gexf mode (`out_kind` 0, the command line without option `-k`) the run
does not get to the `return`, whatever the bound, because the edge loop that
comes before it does not return; in the shell and bat modes `main` returns 1.
A run without a recipe argument ends with status 1 before the loop.  What
holds: on a non-empty registry entered with the sort flags clear, the
loop halts, the counter `printed` is the number of resolved elements of
`the_list`, the status computed from it is 1 exactly when some registered
entity is unresolved and 0 exactly when all are resolved, which is exactly
when `printed` equals `the_list_cnt`; `main` returns this status in the shell
and bat modes, and in every mode when all registered entities are resolved;
and whenever `main` returns, it returns this status. -/
theorem completion_status_not_returned :
    (∃ t last, main_sort reg_pqs 4 = some t ∧ t.getLast? = some last ∧
      resolved_at last.mem 0 = false ∧
      main_status reg_pqs.the_list_cnt last.printed = 1) ∧
    (∀ fuel : Nat, main_ret 0 reg_pqs fuel = none) ∧
    main_ret 1 reg_pqs 4 = some 1 ∧ main_ret 2 reg_pqs 4 = some 1 ∧
    (∀ k fuel : Nat, main_ret k empty_registry fuel = some 1) ∧
    (∀ (k : Nat) (r : registry) (fuel : Nat), fresh r.mem → r.the_list ≠ [] →
      r.the_list.length < fuel →
      ∃ t last, main_sort r fuel = some t ∧ t.getLast? = some last ∧
        last.printed = r.the_list.countP (fun p => resolved_at last.mem p) ∧
        (main_status r.the_list_cnt last.printed = 1 ↔
          ∃ p ∈ r.the_list, resolved_at last.mem p = false) ∧
        (main_status r.the_list_cnt last.printed = 0 ↔
          ∀ p ∈ r.the_list, resolved_at last.mem p = true) ∧
        (main_status r.the_list_cnt last.printed = 0 ↔ last.printed = r.the_list_cnt) ∧
        (is_gexf_mode k = false →
          main_ret k r fuel = some (main_status r.the_list_cnt last.printed)) ∧
        ((∀ p ∈ r.the_list, resolved_at last.mem p = true) → main_ret k r fuel = some 0) ∧
        (∀ s, main_ret k r fuel = some s → s = main_status r.the_list_cnt last.printed)) := by
  refine ⟨?_, ?_, by decide, by decide, fun k fuel => rfl, ?_⟩
  · obtain ⟨t, last, ht, hlast, hmem, hp⟩ := main_sort_pqs
    exact ⟨t, last, ht, hlast, by rw [hmem]; decide, by rw [hp]; decide⟩
  · intro fuel
    cases ht : main_sort reg_pqs fuel with
    | none => simp [main_ret, ht]; decide
    | some t =>
      have hne := is_trace_ne_nil (sort_loop_is_trace _ _ _ _ _ ht)
      rw [main_ret_eq 0 (by decide) ht (List.getLast?_eq_getLast _ hne),
        render_pqs fuel ht (List.getLast?_eq_getLast _ hne)]
      rfl
  · intro k r fuel h0 hne hf
    obtain ⟨t, last, ht, hlast, htr, hlen⟩ := main_sort_returns r fuel (by omega)
    obtain ⟨m, l, hm, -, hpass, -⟩ := is_trace_final htr last hlast (layered_of_fresh h0 0)
    have hlay : layered last.mem (l + 1) := by rw [hpass]; exact layered_pass hm
    have hlay2 : layered last.mem (0 + t.length) :=
      is_trace_last_layered htr (layered_of_fresh h0 0) hlast
    have hcount : last.printed = r.the_list.countP (fun p => resolved_at last.mem p) := by
      rw [hpass, pass_printed_eq, ← hpass]
      apply List.countP_congr
      intro p _
      rw [printed_eq_resolved hlay]
    have hall : last.printed = r.the_list_cnt ↔
        ∀ p ∈ r.the_list, resolved_at last.mem p = true := by
      rw [hcount, registry.the_list_cnt, List.countP_eq_length]
    have hzero : main_status r.the_list_cnt last.printed = 0 ↔ last.printed = r.the_list_cnt := by
      unfold main_status
      by_cases hq : last.printed = r.the_list_cnt <;> simp [hq]
    have hone : main_status r.the_list_cnt last.printed = 1 ↔
        ¬ last.printed = r.the_list_cnt := by
      unfold main_status
      by_cases hq : last.printed = r.the_list_cnt <;> simp [hq]
    have hmem : (sort_depth { mem := last.mem, the_list := r.the_list }).mem = last.mem :=
      sort_depth_mem _
    have hperm : (sort_depth { mem := last.mem, the_list := r.the_list }).the_list.Perm
        r.the_list := sort_depth_perm _
    have hren : (is_gexf_mode k = true → ∀ p ∈ r.the_list, resolved_at last.mem p = true) →
        main_ret k r fuel = some (main_status r.the_list_cnt last.printed) := by
      intro hres
      have hlay3 : layered (sort_depth { mem := last.mem, the_list := r.the_list }).mem
          (0 + t.length) := by rw [hmem]; exact hlay2
      obtain ⟨E, hE⟩ := @render_edges_some _ k _ fuel hlay3 (by omega)
        (fun hk p hp => by rw [hmem]; exact hres hk p (hperm.mem_iff.mp hp))
      rw [main_ret_eq k hne ht hlast, hE]
      rfl
    refine ⟨t, last, ht, hlast, hcount, ?_, hzero.trans hall, hzero, ?_, ?_, ?_⟩
    · rw [hone, hall]
      constructor
      · intro h
        by_contra hne2
        push_neg at hne2
        exact h (fun p hp => by simpa using hne2 p hp)
      · rintro ⟨p, hp, hpr⟩ h
        rw [h p hp] at hpr
        cases hpr
    · intro hk
      exact hren (fun hk2 => by rw [hk] at hk2; cases hk2)
    · intro hres
      rw [hren (fun _ => hres), (hzero.trans hall).mpr hres]
    · intro s hs
      rw [main_ret_eq k hne ht hlast] at hs
      cases hE : render_edges k fuel (sort_depth { mem := last.mem, the_list := r.the_list }) with
      | none => rw [hE] at hs; cases hs
      | some E => rw [hE] at hs; exact (Option.some.inj hs).symm

end BldOrder
